import Mathlib

/-! SRRender: rendering of super-resolution emitter localizations

A shallow embedding of `SRRender2D<FloatT, IdxT>` (`src/src/SRRender.cpp`,
`src/include/SRRender/SRRender.h`) and theorems about it.

Modelling conventions

* `FloatT` is an arbitrary linearly ordered field `F` with a floor function
  (exact arithmetic); `ℚ` is used for concrete evaluation, `ℝ` is another instance.
* `IdxT` is the default `uint32_t`: a natural number below `2 ^ 32`, every arithmetic
  operation reduced modulo `2 ^ 32`.
* `arma::Col` and `arma::Mat` are a size together with an element function; element
  accesses whose index the source does not guard are checked, and an access outside the
  container makes the operation return `none`.
* The library functions `erf` and `sqrt(2)` are parameters (`erf`, `sqrt2`).
* Where the rounding of `FloatT` matters, the histogram renderer is also given with every
  `FloatT` operation rounded by a parameter `rnd` (`renderHistSingleFl`); `roundFloat32` is
  the rounding of `float`.
* The OpenMP runtime is a parameter: the realised number of threads `num_threads` and the
  assignment `owner` of loop iterations to threads.
* `arma::Cube` is a size together with an element function; in the movie renderers, whose
  threads update one shared stack, the threads are executed one after the other.
-/

namespace srrender

/-! ## Containers -/

/-- The type `arma::Col<FloatT>`: `n_elem` entries, `elem i` is `v(i)`. -/
structure Vec (F : Type) where
  n_elem : Nat
  elem : Nat → F

/-- The type `arma::Mat<FloatT>`: `elem r c` is `m(r,c)`. -/
structure Mat (F : Type) where
  n_rows : Nat
  n_cols : Nat
  elem : Nat → Nat → F

namespace Vec
variable {F : Type}

/-- Build a column vector from its entries. -/
def ofList [Zero F] (l : List F) : Vec F := ⟨l.length, fun i => l.getD i 0⟩

/-- The checked read `v(i)`. -/
def get? (v : Vec F) (i : Nat) : Option F :=
  if i < v.n_elem then some (v.elem i) else none

/-- The checked write `v(i) = a`. -/
def set? (v : Vec F) (i : Nat) (a : F) : Option (Vec F) :=
  if i < v.n_elem then some ⟨v.n_elem, fun j => if j = i then a else v.elem j⟩ else none

end Vec

namespace Mat
variable {F : Type}

/-- Build a matrix from its rows. -/
def ofRows [Zero F] (rows : List (List F)) : Mat F :=
  ⟨rows.length, (rows.headD []).length, fun r c => (rows.getD r []).getD c 0⟩

/-- The member `n_elem`. -/
def n_elem (m : Mat F) : Nat := m.n_rows * m.n_cols

/-- The call `m.zeros()`, also the constructor with `arma::fill::zeros`. -/
def zeros [Zero F] (n_rows n_cols : Nat) : Mat F := ⟨n_rows, n_cols, fun _ _ => 0⟩

/-- The update `m(r,c) += a` at a position the caller has already bounds-tested. -/
def addAt [Add F] (m : Mat F) (r c : Nat) (a : F) : Mat F :=
  ⟨m.n_rows, m.n_cols, fun i j => if i = r ∧ j = c then m.elem i j + a else m.elem i j⟩

/-- The checked update `m(r,c) += a`. -/
def addAt? [Add F] (m : Mat F) (r c : Nat) (a : F) : Option (Mat F) :=
  if r < m.n_rows ∧ c < m.n_cols then some (m.addAt r c a) else none

/-- Two images are the same image: equal dimensions, equal pixels. -/
def Same (a b : Mat F) : Prop :=
  a.n_rows = b.n_rows ∧ a.n_cols = b.n_cols ∧
    ∀ r c, r < a.n_rows → c < a.n_cols → a.elem r c = b.elem r c

end Mat

/-! ## The index type `IdxT = uint32_t` -/

/-- The number of values of `IdxT`. -/
def idxModulus : Nat := 4294967296

/-- Conversion of an integer to `IdxT`. -/
def toIdx (k : Int) : Nat := (k % 4294967296).toNat

/-- The `IdxT` sum `a + b`. -/
def idxAdd (a b : Nat) : Nat := (a + b) % idxModulus

/-- The `IdxT` difference `a - b`. -/
def idxSub (a b : Nat) : Nat := (a + idxModulus - b % idxModulus) % idxModulus

section Float
variable {F : Type} [LinearOrderedField F] [FloorRing F]

/-- Truncation toward zero. -/
def trunc (v : F) : Int := if 0 ≤ v then ⌊v⌋ else ⌈v⌉

/-- The conversion `static_cast<IdxT>(v)` of a floating-point value: truncation toward
zero, reduced modulo `2 ^ 32`. For a truncated value in `[0, 2 ^ 32)` this is the value C++
defines; outside that range C++ leaves the conversion undefined, and the reduction modulo
`2 ^ 32` is what the conversion through a 64-bit integer gives on x86-64. -/
def castIdx (v : F) : Nat := toIdx (trunc v)

/-- The conversion `static_cast<IdxT>(v)` agrees with truncation on the grid: the truncated
value is below `2 ^ 32` and, if negative, does not wrap around to an index below `pixels`. -/
def CastFaithful (pixels : Nat) (v : F) : Prop :=
  (pixels : Int) - 4294967296 ≤ trunc v ∧ trunc v < 4294967296

instance (pixels : Nat) (v : F) : Decidable (CastFaithful pixels v) := by
  unfold CastFaithful; infer_instance

/-! ## Histogram rendering -/

/-- The factor `static_cast<FloatT>(pixels) / (hi - lo)`. -/
def sizeRatio (pixels : Nat) (lo hi : F) : F := (pixels : F) / (hi - lo)

/-- The body of the point loop of the histogram renderers (`SRRender.cpp` lines 43-45,
69-71): the pixel indices of point `n` and the guarded accumulation. -/
def histPoint (points : Mat F) (xmin ymin sizeRatioX sizeRatioY : F) (pixelsX pixelsY : Nat)
    (im : Mat F) (n : Nat) : Mat F :=
  let ix := castIdx ((points.elem n 1 - xmin) * sizeRatioX)
  let iy := castIdx ((points.elem n 2 - ymin) * sizeRatioY)
  if 0 ≤ ix ∧ ix < pixelsX ∧ 0 ≤ iy ∧ iy < pixelsY then im.addAt iy ix (points.elem n 0) else im

/-- The function `SRRender2D::renderHistSingle`. -/
def renderHistSingle (points : Mat F) (roi : Vec F) (im : Mat F) : Mat F :=
  let pixelsX := toIdx im.n_cols
  let pixelsY := toIdx im.n_rows
  let xmin := roi.elem 0
  let ymin := roi.elem 2
  let sizeRatioX := sizeRatio pixelsX (roi.elem 0) (roi.elem 1)
  let sizeRatioY := sizeRatio pixelsY (roi.elem 2) (roi.elem 3)
  (List.range points.n_rows).foldl
    (histPoint points xmin ymin sizeRatioX sizeRatioY pixelsX pixelsY) im

/-- The function `SRRender2D::renderHistParallel`, run by `num_threads` threads, loop
iteration `n` of the `omp for` being executed by thread `owner n`. -/
def renderHistParallel (num_threads : Nat) (owner : Nat → Nat)
    (points : Mat F) (roi : Vec F) (im : Mat F) : Mat F :=
  let pixelsX := toIdx im.n_cols
  let pixelsY := toIdx im.n_rows
  let xmin := roi.elem 0
  let ymin := roi.elem 2
  let sizeRatioX := sizeRatio pixelsX (roi.elem 0) (roi.elem 1)
  let sizeRatioY := sizeRatio pixelsY (roi.elem 2) (roi.elem 3)
  let histF : Nat → Mat F := fun tid =>
    ((List.range points.n_rows).filter (fun n => owner n = tid)).foldl
      (histPoint points xmin ymin sizeRatioX sizeRatioY pixelsX pixelsY)
      (Mat.zeros im.n_rows im.n_cols)
  ⟨im.n_rows, im.n_cols, fun y x =>
    if x < pixelsX ∧ y < pixelsY then
      (List.range num_threads).foldl (fun sum n => sum + (histF n).elem y x) 0
    else im.elem y x⟩

/-- The test `points.n_rows >= sqrt(im.n_elem)` in exact arithmetic: `n ≥ √p` for natural
numbers `n`, `p` is `p ≤ n * n`. -/
def selectsParallel (n_points n_elem : Nat) : Bool := decide (n_elem ≤ n_points * n_points)

/-- The function `SRRender2D::renderHist`. -/
def renderHist (num_threads : Nat) (owner : Nat → Nat)
    (points : Mat F) (roi : Vec F) (im : Mat F) : Mat F :=
  if selectsParallel points.n_rows im.n_elem then
    renderHistParallel num_threads owner points roi im
  else
    renderHistSingle points roi im

/-- What point `n` adds to pixel `(r, c)` in the point loop of the histogram renderers. -/
def histAdd (points : Mat F) (xmin ymin sizeRatioX sizeRatioY : F) (pixelsX pixelsY : Nat)
    (r c n : Nat) : F :=
  if castIdx ((points.elem n 1 - xmin) * sizeRatioX) = c ∧
      castIdx ((points.elem n 2 - ymin) * sizeRatioY) = r ∧ c < pixelsX ∧ r < pixelsY
  then points.elem n 0 else 0

/-- What point `n` adds to pixel `(r, c)` in a histogram rendering call on image `im`. -/
def histAddOf (points : Mat F) (roi : Vec F) (im : Mat F) (r c n : Nat) : F :=
  histAdd points (roi.elem 0) (roi.elem 2)
    (sizeRatio (toIdx im.n_cols) (roi.elem 0) (roi.elem 1))
    (sizeRatio (toIdx im.n_rows) (roi.elem 2) (roi.elem 3))
    (toIdx im.n_cols) (toIdx im.n_rows) r c n

/-- Point `n` lies in the half-open region of interest
`xmin ≤ x < xmax`, `ymin ≤ y < ymax`. -/
def InRoi (points : Mat F) (roi : Vec F) (n : Nat) : Prop :=
  roi.elem 0 ≤ points.elem n 1 ∧ points.elem n 1 < roi.elem 1 ∧
  roi.elem 2 ≤ points.elem n 2 ∧ points.elem n 2 < roi.elem 3

/-- The mapped coordinate `v` lies off the grid of `pixels` pixels in one of the two ranges
in which its conversion to `IdxT` is `≥ pixels`: on the high side, from `pixels` up to (not
including) `2 ^ 32`, where the conversion is the truncation, as C++ defines it; or on the low
side, at most `-1` with a truncation of at least `pixels - 2 ^ 32`, where the conversion of
the negative value, which C++ leaves undefined and `castIdx` takes modulo `2 ^ 32`, is at
least `pixels`. -/
def OffGrid (pixels : Nat) (v : F) : Prop :=
  ((pixels : F) ≤ v ∧ v < 4294967296) ∨ (v ≤ -1 ∧ (pixels : Int) - 4294967296 ≤ trunc v)

end Float



/-! ## Gaussian rendering -/

section Gauss
variable {F : Type} [LinearOrderedField F] [FloorRing F]

/-- The constant `normexp = 1/sqrt(2)`; `sqrt2` is the value of `sqrt(2)`. -/
def normexp (sqrt2 : F) : F := 1 / sqrt2

/-- The loop of `fill_stencil`: `count` iterations starting at index `i`, `derf` being the
error-function value carried over from the previous pixel edge. -/
def fill_stencil_loop (erf : F → F) (norm x : F) : Nat → Nat → F → Vec F → Option (Vec F)
  | 0, _, _, stencil => some stencil
  | count + 1, i, derf, stencil =>
    let last_derf := derf
    let derf := erf (norm * (((i + 1 : Nat) : F) - x))
    match stencil.set? i (0.5 * (derf - last_derf)) with
    | none => none
    | some stencil => fill_stencil_loop erf norm x count (i + 1) derf stencil

/-- The function `SRRender2D::fill_stencil`. -/
def fill_stencil (erf : F → F) (sqrt2 : F) (size : Nat) (x sigma : F) (stencil : Vec F) :
    Option (Vec F) :=
  let norm := normexp sqrt2 / sigma
  let derf := erf (-norm * x)
  fill_stencil_loop erf norm x size 0 derf stencil

/-- The lower end of the bounding box: `xp <= xhw ? 0 : xp-xhw`. -/
def boxMin (p hw : Nat) : Nat := if p ≤ hw then 0 else idxSub p hw

/-- The upper end of the bounding box: `std::min(pixelsX-1,xp+xhw)`. -/
def boxMax (pixels p hw : Nat) : Nat := min (idxSub pixels 1) (idxAdd p hw)

/-- The span of the bounding box: `xmax-xmin+1`. -/
def boxSpan (lo hi : Nat) : Nat := idxAdd (idxSub hi lo) 1

/-- The loop `for(IdxT x=0; x<xspn; x++) xStencil(x)*=I`. -/
def scaleStencil (I : F) (xspn : Nat) (xStencil : Vec F) : Option (Vec F) :=
  (List.range xspn).foldlM
    (fun st x => match st.get? x with
      | none => none
      | some v => st.set? x (v * I)) xStencil

/-- The statement `im(y,x) += xStencil(x-xmin) * yStencil(y-ymin)` of the copy loop. -/
def addGaussianPixel (xmin ymin : Nat) (xStencil yStencil : Vec F) (x : Nat) (im : Mat F)
    (y : Nat) : Option (Mat F) :=
  match xStencil.get? (x - xmin), yStencil.get? (y - ymin) with
  | some a, some b => im.addAt? y x (a * b)
  | _, _ => none

/-- One column of the copy loop: `for(IdxT y=ymin; y<=ymax; y++) im(y,x) += ...`. -/
def addGaussianColumn (xmin ymin ymax : Nat) (xStencil yStencil : Vec F) (im : Mat F)
    (x : Nat) : Option (Mat F) :=
  (List.range' ymin (ymax + 1 - ymin)).foldlM (addGaussianPixel xmin ymin xStencil yStencil x) im

/-- The copy loop `for(IdxT x=xmin; x<=xmax; x++) for(IdxT y=ymin; y<=ymax; y++)
im(y,x) += xStencil(x-xmin) * yStencil(y-ymin)`. -/
def addGaussian (xmin xmax ymin ymax : Nat) (xStencil yStencil : Vec F) (im : Mat F) :
    Option (Mat F) :=
  (List.range' xmin (xmax + 1 - xmin)).foldlM
    (addGaussianColumn xmin ymin ymax xStencil yStencil) im

/-- The state of the point loop of the Gaussian renderers: the image being accumulated and
the two scratch vectors. -/
structure GaussState (F : Type) where
  im : Mat F
  xStencil : Vec F
  yStencil : Vec F

/-- The second half of the body of the point loop of the Gaussian renderers
(`SRRender.cpp` lines 150-157, 198-205): the skip test, the two stencils, the scaling by the
intensity `I` and the copy loop, for a bounding box already computed. -/
def gaussSplat (erf : F → F) (sqrt2 : F) (I X sigmaX : F) (xmin xmax xspn : Nat)
    (Y sigmaY : F) (ymin ymax yspn : Nat) (st : GaussState F) : Option (GaussState F) :=
  if xspn ≤ 0 ∨ yspn ≤ 0 then some st
  else
    match fill_stencil erf sqrt2 xspn (X - (xmin : F)) sigmaX st.xStencil with
    | none => none
    | some xStencil =>
      match fill_stencil erf sqrt2 yspn (Y - (ymin : F)) sigmaY st.yStencil with
      | none => none
      | some yStencil =>
        match scaleStencil I xspn xStencil with
        | none => none
        | some xStencil =>
          match addGaussian xmin xmax ymin ymax xStencil yStencil st.im with
          | none => none
          | some im => some ⟨im, xStencil, yStencil⟩

/-- The body of the point loop of the Gaussian renderers (`SRRender.cpp` lines 134-157,
182-205): the bounding box of point `n` (lines 134-148), then the rendering into it. -/
def gaussPoint (erf : F → F) (sqrt2 : F) (points : Mat F)
    (imageXmin imageYmin sizeRatioX sizeRatioY sigmaAccuracy : F) (pixelsX pixelsY : Nat)
    (st : GaussState F) (n : Nat) : Option (GaussState F) :=
  let X := (points.elem n 1 - imageXmin) * sizeRatioX
  let sigmaX := points.elem n 3 * sizeRatioX
  let xp := castIdx X
  let xhw := castIdx (0.5 + sigmaAccuracy * sigmaX)
  let xmin := boxMin xp xhw
  let xmax := boxMax pixelsX xp xhw
  let xspn := boxSpan xmin xmax
  let Y := (points.elem n 2 - imageYmin) * sizeRatioY
  let sigmaY := points.elem n 4 * sizeRatioY
  let yp := castIdx Y
  let yhw := castIdx (0.5 + sigmaAccuracy * sigmaY)
  let ymin := boxMin yp yhw
  let ymax := boxMax pixelsY yp yhw
  let yspn := boxSpan ymin ymax
  gaussSplat erf sqrt2 (points.elem n 0) X sigmaX xmin xmax xspn Y sigmaY ymin ymax yspn st

/-- The declaration `VecT xStencil(pixelsX)`: a scratch vector of the given capacity. -/
def scratch (capacity : Nat) : Vec F := ⟨capacity, fun _ => 0⟩

/-- The function `SRRender2D::renderGaussSingle`. -/
def renderGaussSingle (erf : F → F) (sqrt2 : F) (points : Mat F) (roi : Vec F) (im : Mat F)
    (sigmaAccuracy : F) : Option (Mat F) :=
  let pixelsX := toIdx im.n_cols
  let pixelsY := toIdx im.n_rows
  let imageXmin := roi.elem 0
  let imageYmin := roi.elem 2
  let sizeRatioX := sizeRatio pixelsX (roi.elem 0) (roi.elem 1)
  let sizeRatioY := sizeRatio pixelsY (roi.elem 2) (roi.elem 3)
  let N := toIdx points.n_rows
  let im := Mat.zeros im.n_rows im.n_cols
  ((List.range N).foldlM
    (gaussPoint erf sqrt2 points imageXmin imageYmin sizeRatioX sizeRatioY sigmaAccuracy
      pixelsX pixelsY) ⟨im, scratch pixelsX, scratch pixelsY⟩).map GaussState.im

/-- The function `SRRender2D::renderGaussParallel`, run by `num_threads` threads, loop
iteration `n` of the `omp for` being executed by thread `owner n`. A failing access in any
thread fails the call. -/
def renderGaussParallel (erf : F → F) (sqrt2 : F) (num_threads : Nat) (owner : Nat → Nat)
    (points : Mat F) (roi : Vec F) (final_image : Mat F) (sigmaAccuracy : F) :
    Option (Mat F) :=
  let pixelsX := toIdx final_image.n_cols
  let pixelsY := toIdx final_image.n_rows
  let imageXmin := roi.elem 0
  let imageYmin := roi.elem 2
  let sizeRatioX := sizeRatio pixelsX (roi.elem 0) (roi.elem 1)
  let sizeRatioY := sizeRatio pixelsY (roi.elem 2) (roi.elem 3)
  let N := toIdx points.n_rows
  let imStack : Nat → Option (Mat F) := fun tid =>
    (((List.range N).filter (fun n => owner n = tid)).foldlM
      (gaussPoint erf sqrt2 points imageXmin imageYmin sizeRatioX sizeRatioY sigmaAccuracy
        pixelsX pixelsY)
      ⟨Mat.zeros pixelsY pixelsX, scratch pixelsX, scratch pixelsY⟩).map GaussState.im
  if (List.range num_threads).all (fun tid => (imStack tid).isSome) then
    some ⟨final_image.n_rows, final_image.n_cols, fun y x =>
      if x < pixelsX ∧ y < pixelsY then
        (List.range num_threads).foldl
          (fun sum n => sum + ((imStack n).getD (Mat.zeros pixelsY pixelsX)).elem y x) 0
      else final_image.elem y x⟩
  else none

/-- The function `SRRender2D::renderGauss`. -/
def renderGauss (erf : F → F) (sqrt2 : F) (num_threads : Nat) (owner : Nat → Nat)
    (points : Mat F) (roi : Vec F) (im : Mat F) (sigmaAccuracy : F) : Option (Mat F) :=
  if selectsParallel points.n_rows im.n_elem then
    renderGaussParallel erf sqrt2 num_threads owner points roi im sigmaAccuracy
  else
    renderGaussSingle erf sqrt2 points roi im sigmaAccuracy

/-- The value `fill_stencil` stores at index `j`: `0.5*(erf(norm*((j+1)-x)) - erf(norm*(j-x)))`,
the second error-function value being the one carried over from the previous iteration. -/
def stencilEntry (erf : F → F) (norm x : F) (j : Nat) : F :=
  0.5 * (erf (norm * (((j + 1 : Nat) : F) - x)) - erf (norm * ((j : F) - x)))

/-- What a point of intensity `I` adds to pixel `(r, c)` when no access fails: inside the
bounding box the product of the intensity-scaled X stencil entry and the Y stencil entry,
outside it nothing. -/
def splatAdd (erf : F → F) (sqrt2 : F) (I X sigmaX : F) (xmin xmax : Nat)
    (Y sigmaY : F) (ymin ymax : Nat) (r c : Nat) : F :=
  if xmin ≤ c ∧ c ≤ xmax ∧ ymin ≤ r ∧ r ≤ ymax then
    stencilEntry erf (normexp sqrt2 / sigmaX) (X - (xmin : F)) (c - xmin) * I
      * stencilEntry erf (normexp sqrt2 / sigmaY) (Y - (ymin : F)) (r - ymin)
  else 0

/-- What point `n` adds to pixel `(r, c)` in the point loop of the Gaussian renderers when
no access fails. -/
def gaussAdd (erf : F → F) (sqrt2 : F) (points : Mat F)
    (imageXmin imageYmin sizeRatioX sizeRatioY sigmaAccuracy : F) (pixelsX pixelsY : Nat)
    (r c n : Nat) : F :=
  let X := (points.elem n 1 - imageXmin) * sizeRatioX
  let sigmaX := points.elem n 3 * sizeRatioX
  let xp := castIdx X
  let xhw := castIdx (0.5 + sigmaAccuracy * sigmaX)
  let Y := (points.elem n 2 - imageYmin) * sizeRatioY
  let sigmaY := points.elem n 4 * sizeRatioY
  let yp := castIdx Y
  let yhw := castIdx (0.5 + sigmaAccuracy * sigmaY)
  splatAdd erf sqrt2 (points.elem n 0) X sigmaX (boxMin xp xhw) (boxMax pixelsX xp xhw)
    Y sigmaY (boxMin yp yhw) (boxMax pixelsY yp yhw) r c

/-- The mapped X coordinate `(points(n,1)-imageXmin)*sizeRatioX` of point `n` in a call on
image `im`. -/
def pixelX (points : Mat F) (roi : Vec F) (im : Mat F) (n : Nat) : F :=
  (points.elem n 1 - roi.elem 0) * sizeRatio (toIdx im.n_cols) (roi.elem 0) (roi.elem 1)

/-- The mapped Y coordinate `(points(n,2)-imageYmin)*sizeRatioY` of point `n`. -/
def pixelY (points : Mat F) (roi : Vec F) (im : Mat F) (n : Nat) : F :=
  (points.elem n 2 - roi.elem 2) * sizeRatio (toIdx im.n_rows) (roi.elem 2) (roi.elem 3)

/-- The pixel-unit sigma `points(n,3)*sizeRatioX` of point `n`. -/
def pixelSigmaX (points : Mat F) (roi : Vec F) (im : Mat F) (n : Nat) : F :=
  points.elem n 3 * sizeRatio (toIdx im.n_cols) (roi.elem 0) (roi.elem 1)

/-- The pixel-unit sigma `points(n,4)*sizeRatioY` of point `n`. -/
def pixelSigmaY (points : Mat F) (roi : Vec F) (im : Mat F) (n : Nat) : F :=
  points.elem n 4 * sizeRatio (toIdx im.n_rows) (roi.elem 2) (roi.elem 3)

/-- The half-width `static_cast<IdxT>(0.5+sigmaAccuracy*sigma)`. -/
def halfWidth (sigmaAccuracy sigma : F) : Nat := castIdx (0.5 + sigmaAccuracy * sigma)

/-- The mapped centre of point `n` lies inside the pixel grid of `im`. -/
def InGrid (points : Mat F) (roi : Vec F) (im : Mat F) (n : Nat) : Prop :=
  0 ≤ pixelX points roi im n ∧ pixelX points roi im n < (im.n_cols : F) ∧
  0 ≤ pixelY points roi im n ∧ pixelY points roi im n < (im.n_rows : F)

/-- What point `n` adds to pixel `(r, c)` in a Gaussian rendering call on image `im`. -/
def gaussAddOf (erf : F → F) (sqrt2 : F) (points : Mat F) (roi : Vec F) (im : Mat F)
    (sigmaAccuracy : F) (r c n : Nat) : F :=
  gaussAdd erf sqrt2 points (roi.elem 0) (roi.elem 2)
    (sizeRatio (toIdx im.n_cols) (roi.elem 0) (roi.elem 1))
    (sizeRatio (toIdx im.n_rows) (roi.elem 2) (roi.elem 3)) sigmaAccuracy
    (toIdx im.n_cols) (toIdx im.n_rows) r c n

/-- The sum of all pixels of an image (`arma::accu`). -/
def Mat.accu (m : Mat F) : F :=
  ∑ r ∈ Finset.range m.n_rows, ∑ c ∈ Finset.range m.n_cols, m.elem r c

/-- The properties of the error function that the theorems use: it is odd, strictly
increasing and bounded by 1 in absolute value. -/
structure IsErf (erf : F → F) : Prop where
  odd : ∀ x, erf (-x) = -erf x
  strictMono : StrictMono erf
  abs_le_one : ∀ x, |erf x| ≤ 1

/-- The sum of the first `size` stencil entries. -/
def stencilSum (erf : F → F) (norm x : F) (size : Nat) : F :=
  ∑ j ∈ Finset.range size, stencilEntry erf norm x j

/-- The sum of the X stencil of point `n` over its clipped span. -/
def spanSumX (erf : F → F) (sqrt2 : F) (points : Mat F) (roi : Vec F) (im : Mat F)
    (sigmaAccuracy : F) (n : Nat) : F :=
  let X := pixelX points roi im n
  let sigmaX := pixelSigmaX points roi im n
  let xp := castIdx X
  let xhw := halfWidth sigmaAccuracy sigmaX
  let xmin := boxMin xp xhw
  let xmax := boxMax (toIdx im.n_cols) xp xhw
  stencilSum erf (normexp sqrt2 / sigmaX) (X - (xmin : F)) (boxSpan xmin xmax)

/-- The sum of the Y stencil of point `n` over its clipped span. -/
def spanSumY (erf : F → F) (sqrt2 : F) (points : Mat F) (roi : Vec F) (im : Mat F)
    (sigmaAccuracy : F) (n : Nat) : F :=
  let Y := pixelY points roi im n
  let sigmaY := pixelSigmaY points roi im n
  let yp := castIdx Y
  let yhw := halfWidth sigmaAccuracy sigmaY
  let ymin := boxMin yp yhw
  let ymax := boxMax (toIdx im.n_rows) yp yhw
  stencilSum erf (normexp sqrt2 / sigmaY) (Y - (ymin : F)) (boxSpan ymin ymax)

/-- The mass of a Gaussian of standard deviation `sigma` centred at `X` between the pixel
edges `lo` and `hi`: `0.5*(erf((hi-X)/(sigma*sqrt 2)) - erf((lo-X)/(sigma*sqrt 2)))`. -/
def erfMass (erf : F → F) (sqrt2 : F) (X sigma : F) (lo hi : Nat) : F :=
  0.5 * (erf (((hi : F) - X) / (sigma * sqrt2)) - erf (((lo : F) - X) / (sigma * sqrt2)))

/-- The bounding box of point `n` is not clipped by an image edge on either axis: the box
`[centre - hw, centre + hw]` lies in the grid. -/
def Unclipped (points : Mat F) (roi : Vec F) (im : Mat F) (sigmaAccuracy : F) (n : Nat) :
    Prop :=
  halfWidth sigmaAccuracy (pixelSigmaX points roi im n) ≤ castIdx (pixelX points roi im n) ∧
  castIdx (pixelX points roi im n) + halfWidth sigmaAccuracy (pixelSigmaX points roi im n)
    < im.n_cols ∧
  halfWidth sigmaAccuracy (pixelSigmaY points roi im n) ≤ castIdx (pixelY points roi im n) ∧
  castIdx (pixelY points roi im n) + halfWidth sigmaAccuracy (pixelSigmaY points roi im n)
    < im.n_rows

/-- The mass of the Gaussian of point `n` on the columns `centre - hw` to `centre + hw`. -/
def fullMassX (erf : F → F) (sqrt2 : F) (points : Mat F) (roi : Vec F) (im : Mat F)
    (sigmaAccuracy : F) (n : Nat) : F :=
  erfMass erf sqrt2 (pixelX points roi im n) (pixelSigmaX points roi im n)
    (castIdx (pixelX points roi im n) - halfWidth sigmaAccuracy (pixelSigmaX points roi im n))
    (castIdx (pixelX points roi im n) + halfWidth sigmaAccuracy (pixelSigmaX points roi im n)
      + 1)

/-- The mass of the Gaussian of point `n` on the rows `centre - hw` to `centre + hw`. -/
def fullMassY (erf : F → F) (sqrt2 : F) (points : Mat F) (roi : Vec F) (im : Mat F)
    (sigmaAccuracy : F) (n : Nat) : F :=
  erfMass erf sqrt2 (pixelY points roi im n) (pixelSigmaY points roi im n)
    (castIdx (pixelY points roi im n) - halfWidth sigmaAccuracy (pixelSigmaY points roi im n))
    (castIdx (pixelY points roi im n) + halfWidth sigmaAccuracy (pixelSigmaY points roi im n)
      + 1)

/-- Two results of a rendering call agree: both fail, or both succeed with the same
image. -/
def SameResult (a b : Option (Mat F)) : Prop :=
  (a = none ∧ b = none) ∨ ∃ x y : Mat F, a = some x ∧ b = some y ∧ x.Same y

/-- The constant `DefaultSigmaAccuracy = 5.`. -/
def DefaultSigmaAccuracy : F := 5

end Gauss

/-! ## Concrete inputs -/

section Inputs

/-- The region of interest `[0,5,0,5]`. -/
def roi5 : Vec ℚ := Vec.ofList [0, 5, 0, 5]

/-- The 5×5 image of zeros. -/
def zeros5 : Mat ℚ := Mat.zeros 5 5

/-- One point of intensity 1 at (2.5, 2.5). -/
def onePoint : Mat ℚ := Mat.ofRows [[1, 2.5, 2.5]]

/-- Two points in pixel (2, 2), of intensities 1 and 2. -/
def twoPoints : Mat ℚ := Mat.ofRows [[1, 2.5, 2.5], [2, 2.75, 2.25]]

/-- A single thread executing every loop iteration. -/
def oneThread : Nat → Nat := fun _ => 0

/-- Two threads, loop iteration `n` executed by thread `n mod 2`. -/
def twoThreads : Nat → Nat := fun n => n % 2

/-- The region of interest `[0,2,0,2]`. -/
def roi2 : Vec ℚ := Vec.ofList [0, 2, 0, 2]

/-- The 2×2 image with 7 in every pixel. -/
def sevens2 : Mat ℚ := ⟨2, 2, fun _ _ => 7⟩

/-- Two points in pixel (0, 0), of intensities 1 and 2. -/
def cornerPoints : Mat ℚ := Mat.ofRows [[1, 0.5, 0.5], [2, 0.25, 0.75]]

/-- One point of intensity 1 at (-0.5, 2.5): half a pixel to the left of the region
`[0,5,0,5]`. -/
def leftPoint : Mat ℚ := Mat.ofRows [[1, -0.5, 2.5]]

/-- Three points off the 5×5 grid of the region `[0,5,0,5]`: one at x = -1.5, one at
x = 5 and one at y = 7. -/
def offPoints : Mat ℚ := Mat.ofRows [[1, -1.5, 2.5], [1, 5, 2.5], [1, 2.5, 7]]

/-- Two points on the upper edges of the region `[0,5,0,5]`: one with x = 5, one with
y = 5. -/
def upperEdgePoints : Mat ℚ := Mat.ofRows [[1, 5, 2.5], [2, 2.5, 5]]

/-- A stand-in for the error function on `ℚ`: odd, strictly increasing, bounded by 1. -/
def erfQ (x : ℚ) : ℚ := x / (1 + |x|)

/-- A positive rational standing in for `sqrt(2)`. -/
def sqrt2Q : ℚ := 7 / 5

/-- The region of interest `[0,10,0,10]`. -/
def roi10 (F : Type) [LinearOrderedField F] : Vec F := Vec.ofList [0, 10, 0, 10]

/-- The 10×10 image of zeros. -/
def zeros10 (F : Type) [LinearOrderedField F] : Mat F := Mat.zeros 10 10

/-- One point of intensity 1 and sigma 0.4 at (20.5, 5.5): to the right of the region
`[0,10,0,10]` by more than its half-width. -/
def farPoint (F : Type) [LinearOrderedField F] : Mat F :=
  Mat.ofRows [[1, 20.5, 5.5, 0.4, 0.4]]

/-- One point of intensity 1 and sigma 0.05 at (2, 2): its half-width is 0 and its centre
lies on the lower edges of pixel (2, 2). -/
def edgePoint (F : Type) [LinearOrderedField F] : Mat F :=
  Mat.ofRows [[1, 2, 2, 0.05, 0.05]]

/-- One point of intensity 1 and sigma 0.2 at (4.5, 4.5): its half-width is 1 and its
bounding box is columns and rows 3 to 5. -/
def midPoint : Mat ℚ := Mat.ofRows [[1, 4.5, 4.5, 0.2, 0.2]]

/-- One point of intensity 1 and sigma 100 at (5.5, 5.5). -/
def widePoint : Mat ℚ := Mat.ofRows [[1, 5.5, 5.5, 100, 100]]

/-- Two points of sigma 0.2, of intensities 1 and 2, at (4.5, 4.5) and (1.5, 7.5). -/
def midPoints : Mat ℚ := Mat.ofRows [[1, 4.5, 4.5, 0.2, 0.2], [2, 1.5, 7.5, 0.2, 0.2]]

end Inputs

/-! ## Movie rendering -/

/-- The type `arma::Cube<FloatT>`: `elem r c s` is `m(r,c,s)`. -/
structure Cube (F : Type) where
  n_rows : Nat
  n_cols : Nat
  n_slices : Nat
  elem : Nat → Nat → Nat → F

namespace Cube
variable {F : Type}

/-- Slice `s` of a stack, as an image. -/
def slice (m : Cube F) (s : Nat) : Mat F := ⟨m.n_rows, m.n_cols, fun r c => m.elem r c s⟩

/-- The stack with the pixels of slice `s` replaced by those of the image `a`. -/
def setSlice (m : Cube F) (s : Nat) (a : Mat F) : Cube F :=
  ⟨m.n_rows, m.n_cols, m.n_slices, fun r c t => if t = s then a.elem r c else m.elem r c t⟩

/-- The pixels `m(r,c,s)` that an access with slice index `s` can reach: slice `s`, or no
pixel at all when `s` is outside the stack. -/
def frame [Zero F] (m : Cube F) (s : Nat) : Mat F :=
  if s < m.n_slices then m.slice s else ⟨0, 0, fun _ _ => 0⟩

/-- The stack after the pixels reached with slice index `s` have become those of `a`. -/
def setFrame (m : Cube F) (s : Nat) (a : Mat F) : Cube F :=
  if s < m.n_slices then m.setSlice s a else m

/-- The checked update `m(r,c,s) += a`. -/
def addAt? [Add F] (m : Cube F) (r c s : Nat) (a : F) : Option (Cube F) :=
  if r < m.n_rows ∧ c < m.n_cols ∧ s < m.n_slices then
    some ⟨m.n_rows, m.n_cols, m.n_slices,
      fun i j t => if i = r ∧ j = c ∧ t = s then m.elem i j t + a else m.elem i j t⟩
  else none

end Cube

namespace Mat
variable {F : Type}

/-- The table made of the rows `idxs` of `m`, in the order of the list. -/
def selectRows [Zero F] (m : Mat F) (idxs : List Nat) : Mat F :=
  ⟨idxs.length, m.n_cols, fun r c => if r < idxs.length then m.elem (idxs.getD r 0) c else 0⟩

/-- The table made of the rows of `a` followed by the rows of `b`. -/
def appendRows (a b : Mat F) : Mat F :=
  ⟨a.n_rows + b.n_rows, a.n_cols,
    fun r c => if r < a.n_rows then a.elem r c else b.elem (r - a.n_rows) c⟩

end Mat

section Movie
variable {F : Type} [LinearOrderedField F] [FloorRing F]

/-- The frame index `IdxT frame = points(n,5)` of point `n`. -/
def movieFrame (points : Mat F) (n : Nat) : Nat := castIdx (points.elem n 5)

/-- The test `frame%num_threads != tid` by which thread `tid` skips a point. -/
def movieSkips (num_threads tid frame : Nat) : Bool := frame % num_threads != tid

/-- The rows of the points table whose frame index is `f`, in table order. -/
def framePoints (points : Mat F) (f : Nat) : List Nat :=
  (List.range points.n_rows).filter (fun n => movieFrame points n = f)

/-- The body of the point loop of `renderHistMovie` (`SRRender.cpp` lines 99-103) in
thread `tid`. The frame index is not guarded by the source. -/
def histMoviePoint (points : Mat F) (xmin ymin sizeRatioX sizeRatioY : F)
    (pixelsX pixelsY num_threads tid : Nat) (im : Cube F) (n : Nat) : Option (Cube F) :=
  let frame := movieFrame points n
  if movieSkips num_threads tid frame then some im
  else
    let ix := castIdx ((points.elem n 1 - xmin) * sizeRatioX)
    let iy := castIdx ((points.elem n 2 - ymin) * sizeRatioY)
    if 0 ≤ ix ∧ ix < pixelsX ∧ 0 ≤ iy ∧ iy < pixelsY then
      im.addAt? iy ix frame (points.elem n 0)
    else some im

/-- The parallel region of `renderHistMovie` as executed by thread `tid`: the loop over all
`N` points. -/
def histMovieThread (points : Mat F) (xmin ymin sizeRatioX sizeRatioY : F)
    (pixelsX pixelsY num_threads N : Nat) (im : Cube F) (tid : Nat) : Option (Cube F) :=
  (List.range N).foldlM
    (histMoviePoint points xmin ymin sizeRatioX sizeRatioY pixelsX pixelsY num_threads tid) im

/-- The function `SRRender2D::renderHistMovie`, run by `num_threads` threads that all
update the shared stack; the threads are taken one after the other. -/
def renderHistMovie (num_threads : Nat) (points : Mat F) (roi : Vec F) (im : Cube F) :
    Option (Cube F) :=
  let pixelsX := toIdx im.n_cols
  let pixelsY := toIdx im.n_rows
  let xmin := roi.elem 0
  let ymin := roi.elem 2
  let sizeRatioX := sizeRatio pixelsX (roi.elem 0) (roi.elem 1)
  let sizeRatioY := sizeRatio pixelsY (roi.elem 2) (roi.elem 3)
  (List.range num_threads).foldlM
    (histMovieThread points xmin ymin sizeRatioX sizeRatioY pixelsX pixelsY num_threads
      points.n_rows) im

/-- The state of the point loop of `renderGaussMovie` in one thread: the shared stack and
the two scratch vectors of the thread. -/
structure MovieState (F : Type) where
  im : Cube F
  xStencil : Vec F
  yStencil : Vec F

/-- The body of the point loop of `renderGaussMovie` (`SRRender.cpp` lines 232-258) in
thread `tid`. The accesses `im(y,x,frame)` are those of `gaussSplat` on slice `frame`; with
a frame index outside the stack every one of them is out of range. -/
def gaussMoviePoint (erf : F → F) (sqrt2 : F) (points : Mat F)
    (imageXmin imageYmin sizeRatioX sizeRatioY sigmaAccuracy : F)
    (pixelsX pixelsY num_threads tid : Nat)
    (st : MovieState F) (n : Nat) : Option (MovieState F) :=
  let frame := movieFrame points n
  if movieSkips num_threads tid frame then some st
  else
    let X := (points.elem n 1 - imageXmin) * sizeRatioX
    let sigmaX := points.elem n 3 * sizeRatioX
    let xp := castIdx X
    let xhw := castIdx (0.5 + sigmaAccuracy * sigmaX)
    let xmin := boxMin xp xhw
    let xmax := boxMax pixelsX xp xhw
    let xspn := boxSpan xmin xmax
    let Y := (points.elem n 2 - imageYmin) * sizeRatioY
    let sigmaY := points.elem n 4 * sizeRatioY
    let yp := castIdx Y
    let yhw := castIdx (0.5 + sigmaAccuracy * sigmaY)
    let ymin := boxMin yp yhw
    let ymax := boxMax pixelsY yp yhw
    let yspn := boxSpan ymin ymax
    (gaussSplat erf sqrt2 (points.elem n 0) X sigmaX xmin xmax xspn Y sigmaY ymin ymax yspn
      ⟨st.im.frame frame, st.xStencil, st.yStencil⟩).map
      (fun s => ⟨st.im.setFrame frame s.im, s.xStencil, s.yStencil⟩)

/-- The parallel region of `renderGaussMovie` as executed by thread `tid`: its own scratch
vectors and the loop over all `N` points. -/
def gaussMovieThread (erf : F → F) (sqrt2 : F) (points : Mat F)
    (imageXmin imageYmin sizeRatioX sizeRatioY sigmaAccuracy : F)
    (pixelsX pixelsY num_threads N : Nat) (im : Cube F) (tid : Nat) : Option (Cube F) :=
  ((List.range N).foldlM
    (gaussMoviePoint erf sqrt2 points imageXmin imageYmin sizeRatioX sizeRatioY sigmaAccuracy
      pixelsX pixelsY num_threads tid)
    ⟨im, scratch pixelsX, scratch pixelsY⟩).map MovieState.im

/-- The function `SRRender2D::renderGaussMovie`, run by `num_threads` threads that all
update the shared stack; the threads are taken one after the other. -/
def renderGaussMovie (erf : F → F) (sqrt2 : F) (num_threads : Nat) (points : Mat F)
    (roi : Vec F) (im : Cube F) (sigmaAccuracy : F) : Option (Cube F) :=
  let pixelsX := toIdx im.n_cols
  let pixelsY := toIdx im.n_rows
  let imageXmin := roi.elem 0
  let imageYmin := roi.elem 2
  let sizeRatioX := sizeRatio pixelsX (roi.elem 0) (roi.elem 1)
  let sizeRatioY := sizeRatio pixelsY (roi.elem 2) (roi.elem 3)
  let N := toIdx points.n_rows
  (List.range num_threads).foldlM
    (gaussMovieThread erf sqrt2 points imageXmin imageYmin sizeRatioX sizeRatioY
      sigmaAccuracy pixelsX pixelsY num_threads N) im

end Movie

/-! ## Concrete movie inputs -/

section MovieInputs

/-- Three points on frames 0, 1 and 0 of a stack over the region `[0,5,0,5]`. -/
def moviePoints : Mat ℚ :=
  Mat.ofRows [[1, 2.5, 2.5, 0.2, 0.2, 0], [2, 1.5, 3.5, 0.2, 0.2, 1], [4, 2.5, 2.5, 0.2, 0.2, 0]]

/-- The stack of three 5×5 frames with 7 in every pixel. -/
def sevensStack : Cube ℚ := ⟨5, 5, 3, fun _ _ _ => 7⟩

end MovieInputs

/-! ## Histogram rendering in rounded arithmetic -/

section RoundedHist
variable {F : Type} [LinearOrderedField F] [FloorRing F]

/-- The factor `static_cast<FloatT>(pixels) / (hi - lo)` as `FloatT` computes it: the
conversion, the difference and the quotient are each rounded by `rnd`. -/
def sizeRatioFl (rnd : F → F) (pixels : Nat) (lo hi : F) : F :=
  rnd (rnd (pixels : F) / rnd (hi - lo))

/-- The mapped coordinate `(x-lo)*sizeRatio` as `FloatT` computes it: the difference and the
product are each rounded by `rnd`. -/
def mapCoordFl (rnd : F → F) (x lo sizeRatio : F) : F := rnd (rnd (x - lo) * sizeRatio)

/-- The body of the point loop of `renderHistSingle` (`SRRender.cpp` lines 43-45) with every
`FloatT` operation rounded by `rnd`; `rnd = id` is `histPoint`. -/
def histPointFl (rnd : F → F) (points : Mat F) (xmin ymin sizeRatioX sizeRatioY : F)
    (pixelsX pixelsY : Nat) (im : Mat F) (n : Nat) : Mat F :=
  let ix := castIdx (mapCoordFl rnd (points.elem n 1) xmin sizeRatioX)
  let iy := castIdx (mapCoordFl rnd (points.elem n 2) ymin sizeRatioY)
  if 0 ≤ ix ∧ ix < pixelsX ∧ 0 ≤ iy ∧ iy < pixelsY then
    ⟨im.n_rows, im.n_cols, fun i j =>
      if i = iy ∧ j = ix then rnd (im.elem i j + points.elem n 0) else im.elem i j⟩
  else im

/-- The function `SRRender2D::renderHistSingle` with every `FloatT` operation rounded by
`rnd`; `rnd = id` is `renderHistSingle`. -/
def renderHistSingleFl (rnd : F → F) (points : Mat F) (roi : Vec F) (im : Mat F) : Mat F :=
  let pixelsX := toIdx im.n_cols
  let pixelsY := toIdx im.n_rows
  let xmin := roi.elem 0
  let ymin := roi.elem 2
  let sizeRatioX := sizeRatioFl rnd pixelsX (roi.elem 0) (roi.elem 1)
  let sizeRatioY := sizeRatioFl rnd pixelsY (roi.elem 2) (roi.elem 3)
  (List.range points.n_rows).foldl
    (histPointFl rnd points xmin ymin sizeRatioX sizeRatioY pixelsX pixelsY) im

/-- The column index `ix` that `renderHistSingle` computes for point `n` in rounded
arithmetic. -/
def histIxFl (rnd : F → F) (points : Mat F) (roi : Vec F) (im : Mat F) (n : Nat) : Nat :=
  castIdx (mapCoordFl rnd (points.elem n 1) (roi.elem 0)
    (sizeRatioFl rnd (toIdx im.n_cols) (roi.elem 0) (roi.elem 1)))

/-- The row index `iy` that `renderHistSingle` computes for point `n` in rounded
arithmetic. -/
def histIyFl (rnd : F → F) (points : Mat F) (roi : Vec F) (im : Mat F) (n : Nat) : Nat :=
  castIdx (mapCoordFl rnd (points.elem n 2) (roi.elem 2)
    (sizeRatioFl rnd (toIdx im.n_rows) (roi.elem 2) (roi.elem 3)))

/-- What one iteration of the point loop does to the value `acc` of pixel `(r, c)`: the
rounded sum `acc + points(n,0)` when the computed indices of point `n` are `(r, c)`, nothing
otherwise. -/
def histAccFl (rnd : F → F) (points : Mat F) (roi : Vec F) (im : Mat F) (r c : Nat)
    (acc : F) (n : Nat) : F :=
  if histIxFl rnd points roi im n = c ∧ histIyFl rnd points roi im n = r then
    rnd (acc + points.elem n 0)
  else acc

end RoundedHist

/-! ## Binary floating-point rounding -/

section Rounding

/-- The integer nearest to `t`, ties going to the even one. -/
def roundEven (t : ℚ) : Int :=
  if t - ⌊t⌋ < 1 / 2 then ⌊t⌋
  else if 1 / 2 < t - ⌊t⌋ then ⌊t⌋ + 1
  else if ⌊t⌋ % 2 = 0 then ⌊t⌋ else ⌊t⌋ + 1

/-- The binary floating-point number with a significand of `p` bits nearest to `q`
(round to nearest, ties to even; the exponent range is not bounded). -/
def roundFloat (p : Nat) (q : ℚ) : ℚ :=
  if q = 0 then 0
  else (roundEven (q / 2 ^ (Int.log 2 |q| - ((p : Int) - 1))) : ℚ)
    * 2 ^ (Int.log 2 |q| - ((p : Int) - 1))

/-- Rounding to `float` (IEEE binary32), the default `FloatT`. -/
def roundFloat32 (q : ℚ) : ℚ := roundFloat 24 q

/-- The region of interest `[0,41,0,41]`. -/
def roi41 : Vec ℚ := Vec.ofList [0, 41, 0, 41]

/-- The 2×2 image of zeros. -/
def zeros2 : Mat ℚ := Mat.zeros 2 2

/-- One point of intensity 1 at (41, 20): on the upper edge `x = xmax` of the region
`[0,41,0,41]`. -/
def upperEdge41 : Mat ℚ := Mat.ofRows [[1, 41, 20]]

/-- The region of interest `[0,7,0,7]`. -/
def roi7 : Vec ℚ := Vec.ofList [0, 7, 0, 7]

/-- One point of intensity 1 at (7 - 2^-21, 3.5), the largest `float` below 7: inside the
region `[0,7,0,7]`. -/
def belowEdge7 : Mat ℚ := Mat.ofRows [[1, 14680063 / 2097152, 3.5]]

/-- One point of intensity 1 at (2^32, 2.5): far to the right of the region `[0,5,0,5]`. -/
def wrapPoint : Mat ℚ := Mat.ofRows [[1, 4294967296, 2.5]]

end Rounding
/-! ## Facts about the index type -/

theorem toIdx_natCast {n : Nat} (h : n < 4294967296) : toIdx (n : Int) = n := by
  unfold toIdx; omega

theorem toIdx_lt (k : Int) : toIdx k < 4294967296 := by
  unfold toIdx; omega

theorem toIdx_lt_iff {pixels : Nat} {k : Int} (hp : pixels < 4294967296)
    (hlo : (pixels : Int) - 4294967296 ≤ k) (hhi : k < 4294967296) :
    toIdx k < pixels ↔ 0 ≤ k ∧ k < (pixels : Int) := by
  unfold toIdx; omega

set_option linter.unusedSectionVars false
set_option linter.unusedVariables false

section FloatFacts
variable {F : Type} [LinearOrderedField F] [FloorRing F]

theorem trunc_of_nonneg {v : F} (h : 0 ≤ v) : trunc v = ⌊v⌋ := by
  simp [trunc, h]

theorem trunc_of_neg {v : F} (h : v < 0) : trunc v = ⌈v⌉ := by
  simp [trunc, not_le.mpr h]

theorem trunc_eq_of_nonneg {v : F} {k : Int} (h0 : 0 ≤ v) (hk : (k : F) ≤ v)
    (hk1 : v < (k : F) + 1) : trunc v = k := by
  rw [trunc_of_nonneg h0, Int.floor_eq_iff]; exact ⟨hk, hk1⟩

theorem trunc_nonneg_iff {v : F} : 0 ≤ trunc v ↔ -1 < v := by
  by_cases h : 0 ≤ v
  · rw [trunc_of_nonneg h]
    constructor
    · intro _; linarith
    · intro _; exact Int.floor_nonneg.mpr h
  · have h1 : v < 0 := not_le.mp h
    rw [trunc_of_neg h1]
    have hc : (0 : Int) ≤ ⌈v⌉ ↔ ((0 : Int) - 1 : Int) < ⌈v⌉ := by omega
    rw [hc, Int.lt_ceil]
    simp

theorem trunc_lt_natCast_iff {v : F} {p : Nat} (hp : 0 < p) :
    trunc v < (p : Int) ↔ v < (p : F) := by
  by_cases h : 0 ≤ v
  · rw [trunc_of_nonneg h, Int.floor_lt]; simp
  · have h1 : v < 0 := not_le.mp h
    rw [trunc_of_neg h1]
    have hp1 : (0 : F) < (p : F) := by exact_mod_cast hp
    constructor
    · intro _; linarith
    · intro _
      have : ⌈v⌉ ≤ 0 := Int.ceil_le.mpr (by simpa using h1.le)
      have hp2 : (0 : Int) < (p : Int) := by exact_mod_cast hp
      omega

/-! ## Histogram rendering: what a pass over the points adds -/

theorem histPoint_n_rows (points : Mat F) (xmin ymin sx sy : F) (px py : Nat) (im : Mat F)
    (n : Nat) : (histPoint points xmin ymin sx sy px py im n).n_rows = im.n_rows := by
  unfold histPoint; simp only []; split <;> rfl

theorem histPoint_n_cols (points : Mat F) (xmin ymin sx sy : F) (px py : Nat) (im : Mat F)
    (n : Nat) : (histPoint points xmin ymin sx sy px py im n).n_cols = im.n_cols := by
  unfold histPoint; simp only []; split <;> rfl

theorem histPoint_elem (points : Mat F) (xmin ymin sx sy : F) (px py : Nat) (im : Mat F)
    (n r c : Nat) :
    (histPoint points xmin ymin sx sy px py im n).elem r c
      = im.elem r c + histAdd points xmin ymin sx sy px py r c n := by
  unfold histPoint histAdd
  simp only []
  by_cases hg : 0 ≤ castIdx ((points.elem n 1 - xmin) * sx) ∧
      castIdx ((points.elem n 1 - xmin) * sx) < px ∧
      0 ≤ castIdx ((points.elem n 2 - ymin) * sy) ∧ castIdx ((points.elem n 2 - ymin) * sy) < py
  · rw [if_pos hg]
    by_cases hrc : r = castIdx ((points.elem n 2 - ymin) * sy) ∧
        c = castIdx ((points.elem n 1 - xmin) * sx)
    · obtain ⟨hr, hc⟩ := hrc
      have h2 : castIdx ((points.elem n 1 - xmin) * sx) = c ∧
          castIdx ((points.elem n 2 - ymin) * sy) = r ∧ c < px ∧ r < py :=
        ⟨hc.symm, hr.symm, hc ▸ hg.2.1, hr ▸ hg.2.2.2⟩
      rw [if_pos h2]
      simp [Mat.addAt, hr, hc]
    · have h2 : ¬ (castIdx ((points.elem n 1 - xmin) * sx) = c ∧
          castIdx ((points.elem n 2 - ymin) * sy) = r ∧ c < px ∧ r < py) := by
        rintro ⟨h1, h2, -, -⟩; exact hrc ⟨h2.symm, h1.symm⟩
      rw [if_neg h2]
      simp [Mat.addAt, hrc]
  · rw [if_neg hg]
    have h2 : ¬ (castIdx ((points.elem n 1 - xmin) * sx) = c ∧
        castIdx ((points.elem n 2 - ymin) * sy) = r ∧ c < px ∧ r < py) := by
      rintro ⟨h1, h2, h3, h4⟩
      exact hg ⟨Nat.zero_le _, h1 ▸ h3, Nat.zero_le _, h2 ▸ h4⟩
    rw [if_neg h2, add_zero]

theorem histFold_n_rows (points : Mat F) (xmin ymin sx sy : F) (px py : Nat) (l : List Nat)
    (im : Mat F) : (l.foldl (histPoint points xmin ymin sx sy px py) im).n_rows = im.n_rows := by
  induction l generalizing im with
  | nil => rfl
  | cons a l ih => rw [List.foldl_cons, ih, histPoint_n_rows]

theorem histFold_n_cols (points : Mat F) (xmin ymin sx sy : F) (px py : Nat) (l : List Nat)
    (im : Mat F) : (l.foldl (histPoint points xmin ymin sx sy px py) im).n_cols = im.n_cols := by
  induction l generalizing im with
  | nil => rfl
  | cons a l ih => rw [List.foldl_cons, ih, histPoint_n_cols]

theorem histFold_elem (points : Mat F) (xmin ymin sx sy : F) (px py : Nat) (l : List Nat)
    (im : Mat F) (r c : Nat) :
    (l.foldl (histPoint points xmin ymin sx sy px py) im).elem r c
      = im.elem r c + (l.map (histAdd points xmin ymin sx sy px py r c)).sum := by
  induction l generalizing im with
  | nil => simp
  | cons a l ih =>
    rw [List.foldl_cons, ih, histPoint_elem, List.map_cons, List.sum_cons, add_assoc]

theorem sum_map_range (f : Nat → F) (N : Nat) :
    ((List.range N).map f).sum = ∑ n ∈ Finset.range N, f n := by
  induction N with
  | zero => simp
  | succ N ih => rw [List.range_succ, List.map_append, List.sum_append, ih,
      Finset.sum_range_succ]; simp

theorem sum_map_filter_range (f : Nat → F) (p : Nat → Bool) (N : Nat) :
    (((List.range N).filter p).map f).sum
      = ∑ n ∈ Finset.range N, if p n = true then f n else 0 := by
  induction N with
  | zero => simp
  | succ N ih =>
    rw [List.range_succ, List.filter_append, List.map_append, List.sum_append, ih,
      Finset.sum_range_succ]
    by_cases h : p N = true <;> simp [List.filter, h]

theorem foldl_add_range (g : Nat → F) (T : Nat) :
    (List.range T).foldl (fun sum n => sum + g n) 0 = ∑ t ∈ Finset.range T, g t := by
  induction T with
  | zero => simp
  | succ T ih => rw [List.range_succ, List.foldl_append, ih, Finset.sum_range_succ]; simp

/-- Summing over the threads what each thread's share of the points adds gives what all
the points add. -/
theorem sum_owner (f : Nat → F) (owner : Nat → Nat) (T N : Nat)
    (hown : ∀ n, n < N → owner n < T) :
    ∑ t ∈ Finset.range T, ∑ n ∈ Finset.range N,
        (if decide (owner n = t) = true then f n else 0)
      = ∑ n ∈ Finset.range N, f n := by
  rw [Finset.sum_comm]
  apply Finset.sum_congr rfl
  intro n hn
  have hn1 : owner n ∈ Finset.range T := Finset.mem_range.mpr (hown n (Finset.mem_range.mp hn))
  simp only [decide_eq_true_eq]
  rw [Finset.sum_ite_eq]
  simp [hn1]

theorem renderHistSingle_elem (points : Mat F) (roi : Vec F) (im : Mat F) (r c : Nat) :
    (renderHistSingle points roi im).elem r c
      = im.elem r c + ∑ n ∈ Finset.range points.n_rows,
          histAdd points (roi.elem 0) (roi.elem 2)
            (sizeRatio (toIdx im.n_cols) (roi.elem 0) (roi.elem 1))
            (sizeRatio (toIdx im.n_rows) (roi.elem 2) (roi.elem 3))
            (toIdx im.n_cols) (toIdx im.n_rows) r c n := by
  unfold renderHistSingle
  simp only []
  rw [histFold_elem, sum_map_range]

theorem renderHistSingle_n_rows (points : Mat F) (roi : Vec F) (im : Mat F) :
    (renderHistSingle points roi im).n_rows = im.n_rows := by
  unfold renderHistSingle; simp only []; rw [histFold_n_rows]

theorem renderHistSingle_n_cols (points : Mat F) (roi : Vec F) (im : Mat F) :
    (renderHistSingle points roi im).n_cols = im.n_cols := by
  unfold renderHistSingle; simp only []; rw [histFold_n_cols]

theorem renderHistParallel_elem (T : Nat) (owner : Nat → Nat) (points : Mat F) (roi : Vec F)
    (im : Mat F) (hown : ∀ n, n < points.n_rows → owner n < T) (r c : Nat)
    (hr : r < toIdx im.n_rows) (hc : c < toIdx im.n_cols) :
    (renderHistParallel T owner points roi im).elem r c
      = ∑ n ∈ Finset.range points.n_rows,
          histAdd points (roi.elem 0) (roi.elem 2)
            (sizeRatio (toIdx im.n_cols) (roi.elem 0) (roi.elem 1))
            (sizeRatio (toIdx im.n_rows) (roi.elem 2) (roi.elem 3))
            (toIdx im.n_cols) (toIdx im.n_rows) r c n := by
  unfold renderHistParallel
  simp only []
  rw [if_pos ⟨hc, hr⟩, foldl_add_range]
  simp only [histFold_elem, Mat.zeros, zero_add, sum_map_filter_range]
  exact sum_owner _ owner T points.n_rows hown

theorem castIdx_lt_imp {pixels : Nat} {v : F} (hp : pixels < 4294967296)
    (hv : CastFaithful pixels v) (h : castIdx v < pixels) : -1 < v ∧ v < (pixels : F) := by
  unfold castIdx at h
  rw [toIdx_lt_iff hp hv.1 hv.2, trunc_nonneg_iff] at h
  have h0 : 0 < pixels := by
    have := trunc_nonneg_iff.mpr h.1
    omega
  exact ⟨h.1, (trunc_lt_natCast_iff h0).mp h.2⟩

theorem histPoint_eq_self (points : Mat F) (xmin ymin sx sy : F) (px py : Nat) (im : Mat F)
    (n : Nat)
    (h : ¬ castIdx ((points.elem n 1 - xmin) * sx) < px ∨
      ¬ castIdx ((points.elem n 2 - ymin) * sy) < py) :
    histPoint points xmin ymin sx sy px py im n = im := by
  unfold histPoint
  simp only []
  rw [if_neg]
  rintro ⟨-, h1, -, h2⟩
  rcases h with h | h
  · exact h h1
  · exact h h2

theorem histFold_eq_self (points : Mat F) (xmin ymin sx sy : F) (px py : Nat) (l : List Nat)
    (im : Mat F)
    (h : ∀ n ∈ l, ¬ castIdx ((points.elem n 1 - xmin) * sx) < px ∨
      ¬ castIdx ((points.elem n 2 - ymin) * sy) < py) :
    l.foldl (histPoint points xmin ymin sx sy px py) im = im := by
  induction l generalizing im with
  | nil => rfl
  | cons a l ih =>
    rw [List.foldl_cons, histPoint_eq_self _ _ _ _ _ _ _ _ _ (h a (List.mem_cons_self a l))]
    exact ih im (fun n hn => h n (List.mem_cons_of_mem a hn))

theorem not_castIdx_lt_of_offGrid {pixels : Nat} {v : F} (hp : pixels < 4294967296)
    (h : OffGrid pixels v) : ¬ castIdx v < pixels := by
  intro hlt
  rcases h with ⟨h1, h2⟩ | ⟨h1, h2⟩
  · have h0 : (0 : F) ≤ v := le_trans (Nat.cast_nonneg pixels) h1
    have h3 : trunc v < 4294967296 := by
      rw [trunc_of_nonneg h0, Int.floor_lt]
      exact_mod_cast h2
    have h4 : 0 ≤ trunc v := trunc_nonneg_iff.mpr (by linarith)
    have h5 := (castIdx_lt_imp hp ⟨by omega, h3⟩ hlt).2
    linarith
  · have h3 : trunc v < 4294967296 := by
      have h4 : ¬ 0 ≤ trunc v := fun h => by
        have := trunc_nonneg_iff.mp h
        linarith
      omega
    have h5 := (castIdx_lt_imp hp ⟨h2, h3⟩ hlt).1
    linarith


end FloatFacts


/-! ## Gaussian rendering: the loops -/

section GaussLoops
variable {F : Type} [LinearOrderedField F] [FloorRing F]

theorem vec_ext_elem {a b : Vec F} (h1 : a.n_elem = b.n_elem) (h2 : ∀ j, a.elem j = b.elem j) :
    a = b := by
  cases a; cases b
  simp only [Vec.mk.injEq]
  exact ⟨h1, funext h2⟩

theorem mat_ext_elem {a b : Mat F} (h1 : a.n_rows = b.n_rows) (h2 : a.n_cols = b.n_cols)
    (h3 : ∀ r c, a.elem r c = b.elem r c) : a = b := by
  cases a; cases b
  simp only [Mat.mk.injEq]
  exact ⟨h1, h2, funext fun r => funext fun c => h3 r c⟩

theorem fill_stencil_loop_eq (erf : F → F) (norm x : F) (count : Nat) :
    ∀ (i : Nat) (derf : F) (st : Vec F), i + count ≤ st.n_elem →
      derf = erf (norm * ((i : F) - x)) →
      fill_stencil_loop erf norm x count i derf st
        = some ⟨st.n_elem, fun j =>
            if i ≤ j ∧ j < i + count then stencilEntry erf norm x j else st.elem j⟩ := by
  induction count with
  | zero =>
    intro i derf st _ _
    simp only [fill_stencil_loop]
    congr 1
    refine vec_ext_elem (by simp) ?_
    intro j
    simp only []
    rw [if_neg (by omega)]
  | succ count ih =>
    intro i derf st hle hderf
    have hi : i < st.n_elem := by omega
    simp only [fill_stencil_loop, Vec.set?, if_pos hi]
    rw [ih (i + 1) _ _ (by simp only []; omega) rfl]
    congr 1
    refine vec_ext_elem (by simp) ?_
    intro j
    simp only []
    by_cases h1 : i + 1 ≤ j ∧ j < i + 1 + count
    · rw [if_pos h1, if_pos (by omega)]
    · rw [if_neg h1]
      by_cases h2 : j = i
      · subst h2
        rw [if_pos rfl, if_pos (by omega), hderf]
        rfl
      · rw [if_neg h2, if_neg (by omega)]

theorem fill_stencil_loop_none (erf : F → F) (norm x : F) (count : Nat) :
    ∀ (i : Nat) (derf : F) (st : Vec F), 0 < count → st.n_elem < i + count →
      fill_stencil_loop erf norm x count i derf st = none := by
  induction count with
  | zero =>
    intro i derf st h _
    omega
  | succ count ih =>
    intro i derf st _ hlt
    by_cases hi : i < st.n_elem
    · simp only [fill_stencil_loop, Vec.set?, if_pos hi]
      exact ih (i + 1) _ _ (by omega) (by simp only []; omega)
    · simp only [fill_stencil_loop, Vec.set?, if_neg hi]

theorem fill_stencil_eq (erf : F → F) (sqrt2 : F) (size : Nat) (x sigma : F) (st : Vec F)
    (h : size ≤ st.n_elem) :
    fill_stencil erf sqrt2 size x sigma st
      = some ⟨st.n_elem, fun j =>
          if j < size then stencilEntry erf (normexp sqrt2 / sigma) x j else st.elem j⟩ := by
  unfold fill_stencil
  simp only []
  rw [fill_stencil_loop_eq erf _ x size 0 _ st (by omega) (by congr 1; simp)]
  congr 1
  refine vec_ext_elem rfl ?_
  intro j
  simp

theorem fill_stencil_none (erf : F → F) (sqrt2 : F) (size : Nat) (x sigma : F) (st : Vec F)
    (h : st.n_elem < size) : fill_stencil erf sqrt2 size x sigma st = none := by
  unfold fill_stencil
  exact fill_stencil_loop_none erf _ x size 0 _ st (by omega) (by omega)

theorem scaleStencil_eq (I : F) (xspn : Nat) (st : Vec F) (h : xspn ≤ st.n_elem) :
    scaleStencil I xspn st
      = some ⟨st.n_elem, fun j => if j < xspn then st.elem j * I else st.elem j⟩ := by
  unfold scaleStencil
  induction xspn with
  | zero =>
    simp only [List.range_zero, List.foldlM_nil, pure]
    congr 1
  | succ k ih =>
    rw [List.range_succ, List.foldlM_append, ih (by omega)]
    simp only [List.foldlM_cons, List.foldlM_nil, Option.some_bind, Option.bind_eq_bind]
    have hk : k < st.n_elem := by omega
    simp only [Vec.get?, Vec.set?, if_pos hk, lt_irrefl, if_false]
    simp only [Option.some_bind, pure]
    congr 1
    refine vec_ext_elem rfl ?_
    intro j
    simp only []
    by_cases h1 : j = k
    · subst h1; simp
    · rw [if_neg h1]
      by_cases h2 : j < k
      · rw [if_pos h2, if_pos (by omega)]
      · rw [if_neg h2, if_neg (by omega)]

theorem column_fold_eq (xmin ymin : Nat) (xS yS : Vec F) (x : Nat) (im : Mat F)
    (hx : x < im.n_cols) (hxs : x - xmin < xS.n_elem) (cnt : Nat)
    (hrows : ymin + cnt ≤ im.n_rows) (hys : cnt ≤ yS.n_elem) :
    (List.range' ymin cnt).foldlM (addGaussianPixel xmin ymin xS yS x) im
      = some ⟨im.n_rows, im.n_cols, fun r c => im.elem r c +
          if c = x ∧ ymin ≤ r ∧ r < ymin + cnt then xS.elem (x - xmin) * yS.elem (r - ymin)
          else 0⟩ := by
  induction cnt with
  | zero =>
    simp only [List.range'_zero, List.foldlM_nil, pure]
    congr 1
    refine mat_ext_elem rfl rfl ?_
    intro r c
    simp only []
    rw [if_neg (by omega), add_zero]
  | succ k ih =>
    rw [List.range'_1_concat, List.foldlM_append, ih (by omega) (by omega)]
    simp only [List.foldlM_cons, List.foldlM_nil, Option.some_bind, Option.bind_eq_bind]
    have h1 : ymin + k - ymin < yS.n_elem := by omega
    have h2 : ymin + k < im.n_rows := by omega
    simp only [addGaussianPixel, Vec.get?, if_pos hxs, if_pos h1, Mat.addAt?, if_pos (And.intro h2 hx),
      Option.some_bind, pure, Mat.addAt]
    congr 1
    refine mat_ext_elem rfl rfl ?_
    intro r c
    simp only []
    by_cases h3 : r = ymin + k ∧ c = x
    · rw [if_pos h3, if_neg (by omega), if_pos (by omega), add_zero, h3.1]
    · rw [if_neg h3]
      by_cases h4 : c = x ∧ ymin ≤ r ∧ r < ymin + k
      · rw [if_pos h4, if_pos (by omega)]
      · rw [if_neg h4, if_neg (by omega)]

theorem addGaussianColumn_eq (xmin ymin ymax : Nat) (xS yS : Vec F) (im : Mat F) (x : Nat)
    (hx : x < im.n_cols) (hxs : x - xmin < xS.n_elem)
    (hrows : ymin + (ymax + 1 - ymin) ≤ im.n_rows) (hys : ymax + 1 - ymin ≤ yS.n_elem) :
    addGaussianColumn xmin ymin ymax xS yS im x
      = some ⟨im.n_rows, im.n_cols, fun r c => im.elem r c +
          if c = x ∧ ymin ≤ r ∧ r ≤ ymax then xS.elem (x - xmin) * yS.elem (r - ymin)
          else 0⟩ := by
  unfold addGaussianColumn
  rw [column_fold_eq xmin ymin xS yS x im hx hxs _ hrows hys]
  congr 1
  refine mat_ext_elem rfl rfl ?_
  intro r c
  simp only []
  by_cases h : c = x ∧ ymin ≤ r ∧ r ≤ ymax
  · rw [if_pos h, if_pos (by omega)]
  · rw [if_neg h, if_neg (by omega)]

theorem box_fold_eq (xmin ymin ymax : Nat) (xS yS : Vec F) (im : Mat F)
    (hrows : ymin + (ymax + 1 - ymin) ≤ im.n_rows) (hys : ymax + 1 - ymin ≤ yS.n_elem)
    (cnt : Nat) (hcols : xmin + cnt ≤ im.n_cols) (hxs : cnt ≤ xS.n_elem) :
    (List.range' xmin cnt).foldlM (addGaussianColumn xmin ymin ymax xS yS) im
      = some ⟨im.n_rows, im.n_cols, fun r c => im.elem r c +
          if xmin ≤ c ∧ c < xmin + cnt ∧ ymin ≤ r ∧ r ≤ ymax then
            xS.elem (c - xmin) * yS.elem (r - ymin)
          else 0⟩ := by
  induction cnt with
  | zero =>
    simp only [List.range'_zero, List.foldlM_nil, pure]
    congr 1
    refine mat_ext_elem rfl rfl ?_
    intro r c
    simp only []
    rw [if_neg (by omega), add_zero]
  | succ k ih =>
    rw [List.range'_1_concat, List.foldlM_append, ih (by omega) (by omega)]
    simp only [List.foldlM_cons, List.foldlM_nil, Option.some_bind, Option.bind_eq_bind]
    rw [addGaussianColumn_eq]
    · simp only [Option.some_bind, pure]
      congr 1
      refine mat_ext_elem rfl rfl ?_
      intro r c
      simp only []
      by_cases h3 : c = xmin + k ∧ ymin ≤ r ∧ r ≤ ymax
      · rw [if_pos h3, if_neg (by omega), if_pos (by omega), add_zero, h3.1]
      · rw [if_neg h3, add_zero]
        by_cases h4 : xmin ≤ c ∧ c < xmin + k ∧ ymin ≤ r ∧ r ≤ ymax
        · rw [if_pos h4, if_pos (by omega)]
        · rw [if_neg h4, if_neg (by omega)]
    · show xmin + k < im.n_cols
      omega
    · omega
    · exact hrows
    · exact hys

theorem addGaussian_eq (xmin xmax ymin ymax : Nat) (xS yS : Vec F) (im : Mat F)
    (hcols : xmin + (xmax + 1 - xmin) ≤ im.n_cols) (hxs : xmax + 1 - xmin ≤ xS.n_elem)
    (hrows : ymin + (ymax + 1 - ymin) ≤ im.n_rows) (hys : ymax + 1 - ymin ≤ yS.n_elem) :
    addGaussian xmin xmax ymin ymax xS yS im
      = some ⟨im.n_rows, im.n_cols, fun r c => im.elem r c +
          if xmin ≤ c ∧ c ≤ xmax ∧ ymin ≤ r ∧ r ≤ ymax then
            xS.elem (c - xmin) * yS.elem (r - ymin)
          else 0⟩ := by
  unfold addGaussian
  rw [box_fold_eq xmin ymin ymax xS yS im hrows hys _ hcols hxs]
  congr 1
  refine mat_ext_elem rfl rfl ?_
  intro r c
  simp only []
  by_cases h : xmin ≤ c ∧ c ≤ xmax ∧ ymin ≤ r ∧ r ≤ ymax
  · rw [if_pos h, if_pos (by omega)]
  · rw [if_neg h, if_neg (by omega)]

end GaussLoops

/-! ## Gaussian rendering: one point -/

theorem idxSub_eq {a b : Nat} (h : b ≤ a) (ha : a < 4294967296) : idxSub a b = a - b := by
  unfold idxSub idxModulus
  have hb : b % 4294967296 = b := Nat.mod_eq_of_lt (by omega)
  rw [hb]
  have h1 : a + 4294967296 - b = (a - b) + 4294967296 := by omega
  rw [h1, Nat.add_mod_right]
  exact Nat.mod_eq_of_lt (by omega)

theorem idxAdd_eq {a b : Nat} (h : a + b < 4294967296) : idxAdd a b = a + b := by
  unfold idxAdd idxModulus
  exact Nat.mod_eq_of_lt h

theorem idxAdd_wrap {a b : Nat} (h : 4294967296 ≤ a + b) (h2 : a + b < 8589934592) :
    idxAdd a b = a + b - 4294967296 := by
  unfold idxAdd idxModulus
  have h1 : a + b = (a + b - 4294967296) + 4294967296 := by omega
  rw [h1, Nat.add_mod_right, Nat.add_sub_cancel]
  exact Nat.mod_eq_of_lt (by omega)

theorem box_facts {pixels p hw : Nat} (hp : p < pixels) (hpix : pixels ≤ 2147483648)
    (hhw : hw < 4294967296) :
    boxMin p hw ≤ p ∧ boxMin p hw ≤ boxMax pixels p hw ∧ boxMax pixels p hw < pixels ∧
      boxSpan (boxMin p hw) (boxMax pixels p hw)
        = boxMax pixels p hw + 1 - boxMin p hw := by
  have hsub : idxSub pixels 1 = pixels - 1 := idxSub_eq (by omega) (by omega)
  have hmax_lt : boxMax pixels p hw < pixels := by
    unfold boxMax
    rw [hsub]
    exact lt_of_le_of_lt (min_le_left _ _) (by omega)
  have hmin_p : boxMin p hw ≤ p := by
    unfold boxMin
    split_ifs with h
    · exact Nat.zero_le _
    · rw [idxSub_eq (by omega) (by omega)]; exact Nat.sub_le _ _
  have hmin_max : boxMin p hw ≤ boxMax pixels p hw := by
    unfold boxMin boxMax
    rw [hsub]
    split_ifs with h
    · exact Nat.zero_le _
    · rw [idxSub_eq (by omega) (by omega), idxAdd_eq (by omega)]
      exact le_min (by omega) (by omega)
  refine ⟨hmin_p, hmin_max, hmax_lt, ?_⟩
  unfold boxSpan
  rw [idxSub_eq hmin_max (by omega), idxAdd_eq (by omega)]
  omega

section GaussPoint
variable {F : Type} [LinearOrderedField F] [FloorRing F]

theorem castIdx_lt (v : F) : castIdx v < 4294967296 := by
  unfold castIdx toIdx; omega

theorem gaussSplat_eq (erf : F → F) (sqrt2 : F) (I X sigmaX : F) (xmin xmax xspn : Nat)
    (Y sigmaY : F) (ymin ymax yspn : Nat) (st : GaussState F)
    (hx1 : xmin ≤ xmax) (hx2 : xmax < st.im.n_cols) (hx3 : xspn = xmax + 1 - xmin)
    (hy1 : ymin ≤ ymax) (hy2 : ymax < st.im.n_rows) (hy3 : yspn = ymax + 1 - ymin)
    (hxS : st.xStencil.n_elem = st.im.n_cols) (hyS : st.yStencil.n_elem = st.im.n_rows) :
    ∃ xS yS : Vec F,
      gaussSplat erf sqrt2 I X sigmaX xmin xmax xspn Y sigmaY ymin ymax yspn st
        = some ⟨⟨st.im.n_rows, st.im.n_cols, fun r c => st.im.elem r c +
            splatAdd erf sqrt2 I X sigmaX xmin xmax Y sigmaY ymin ymax r c⟩, xS, yS⟩ ∧
      xS.n_elem = st.xStencil.n_elem ∧ yS.n_elem = st.yStencil.n_elem := by
  subst hx3 hy3
  unfold gaussSplat
  rw [if_neg (by omega)]
  have hfx := fill_stencil_eq erf sqrt2 (xmax + 1 - xmin) (X - (xmin : F)) sigmaX st.xStencil
    (by omega)
  have hfy := fill_stencil_eq erf sqrt2 (ymax + 1 - ymin) (Y - (ymin : F)) sigmaY st.yStencil
    (by omega)
  rw [hfx, hfy]
  simp only []
  rw [scaleStencil_eq]
  · simp only []
    rw [addGaussian_eq]
    · simp only []
      refine ⟨_, _, congrArg some (congrArg (fun m => GaussState.mk m _ _) ?_), rfl, rfl⟩
      refine mat_ext_elem rfl rfl ?_
      intro r c
      simp only [splatAdd]
      congr 1
      by_cases h : xmin ≤ c ∧ c ≤ xmax ∧ ymin ≤ r ∧ r ≤ ymax
      · rw [if_pos h, if_pos h, if_pos (by omega), if_pos (by omega), if_pos (by omega)]
      · rw [if_neg h, if_neg h]
    · omega
    · show xmax + 1 - xmin ≤ st.xStencil.n_elem
      omega
    · omega
    · show ymax + 1 - ymin ≤ st.yStencil.n_elem
      omega
  · show xmax + 1 - xmin ≤ st.xStencil.n_elem
    omega

theorem gaussPoint_eq (erf : F → F) (sqrt2 : F) (points : Mat F)
    (imageXmin imageYmin sizeRatioX sizeRatioY sigmaAccuracy : F) (pixelsX pixelsY : Nat)
    (st : GaussState F) (n : Nat)
    (hpx : pixelsX ≤ 2147483648) (hpy : pixelsY ≤ 2147483648)
    (hxp : castIdx ((points.elem n 1 - imageXmin) * sizeRatioX) < pixelsX)
    (hyp : castIdx ((points.elem n 2 - imageYmin) * sizeRatioY) < pixelsY)
    (hcols : st.im.n_cols = pixelsX) (hrows : st.im.n_rows = pixelsY)
    (hxS : st.xStencil.n_elem = pixelsX) (hyS : st.yStencil.n_elem = pixelsY) :
    ∃ xS yS : Vec F,
      gaussPoint erf sqrt2 points imageXmin imageYmin sizeRatioX sizeRatioY sigmaAccuracy
          pixelsX pixelsY st n
        = some ⟨⟨st.im.n_rows, st.im.n_cols, fun r c => st.im.elem r c +
            gaussAdd erf sqrt2 points imageXmin imageYmin sizeRatioX sizeRatioY sigmaAccuracy
              pixelsX pixelsY r c n⟩, xS, yS⟩ ∧
      xS.n_elem = pixelsX ∧ yS.n_elem = pixelsY := by
  obtain ⟨-, hx2, hx3, hx4⟩ := box_facts hxp hpx
    (castIdx_lt (0.5 + sigmaAccuracy * (points.elem n 3 * sizeRatioX)))
  obtain ⟨-, hy2, hy3, hy4⟩ := box_facts hyp hpy
    (castIdx_lt (0.5 + sigmaAccuracy * (points.elem n 4 * sizeRatioY)))
  obtain ⟨xS, yS, h1, h2, h3⟩ := gaussSplat_eq erf sqrt2 (points.elem n 0)
    ((points.elem n 1 - imageXmin) * sizeRatioX) (points.elem n 3 * sizeRatioX) _ _ _
    ((points.elem n 2 - imageYmin) * sizeRatioY) (points.elem n 4 * sizeRatioY) _ _ _ st
    hx2 (by rw [hcols]; exact hx3) hx4 hy2 (by rw [hrows]; exact hy3) hy4
    (by rw [hxS, hcols]) (by rw [hyS, hrows])
  exact ⟨xS, yS, h1, by rw [h2, hxS], by rw [h3, hyS]⟩

theorem gaussFold_eq (erf : F → F) (sqrt2 : F) (points : Mat F)
    (imageXmin imageYmin sizeRatioX sizeRatioY sigmaAccuracy : F) (pixelsX pixelsY : Nat)
    (hpx : pixelsX ≤ 2147483648) (hpy : pixelsY ≤ 2147483648) (l : List Nat)
    (hgood : ∀ n ∈ l, castIdx ((points.elem n 1 - imageXmin) * sizeRatioX) < pixelsX ∧
      castIdx ((points.elem n 2 - imageYmin) * sizeRatioY) < pixelsY) :
    ∀ st : GaussState F, st.im.n_cols = pixelsX → st.im.n_rows = pixelsY →
      st.xStencil.n_elem = pixelsX → st.yStencil.n_elem = pixelsY →
      ∃ xS yS : Vec F,
        l.foldlM (gaussPoint erf sqrt2 points imageXmin imageYmin sizeRatioX sizeRatioY
            sigmaAccuracy pixelsX pixelsY) st
          = some ⟨⟨st.im.n_rows, st.im.n_cols, fun r c => st.im.elem r c +
              (l.map (gaussAdd erf sqrt2 points imageXmin imageYmin sizeRatioX sizeRatioY
                sigmaAccuracy pixelsX pixelsY r c)).sum⟩, xS, yS⟩ ∧
        xS.n_elem = pixelsX ∧ yS.n_elem = pixelsY := by
  induction l with
  | nil =>
    intro st _ _ hxS hyS
    refine ⟨st.xStencil, st.yStencil, ?_, hxS, hyS⟩
    simp only [List.foldlM_nil, pure, List.map_nil, List.sum_nil, add_zero]
  | cons a l ih =>
    intro st hcols hrows hxS hyS
    obtain ⟨xS1, yS1, h1, h2, h3⟩ := gaussPoint_eq erf sqrt2 points imageXmin imageYmin
      sizeRatioX sizeRatioY sigmaAccuracy pixelsX pixelsY st a hpx hpy
      (hgood a (List.mem_cons_self a l)).1 (hgood a (List.mem_cons_self a l)).2
      hcols hrows hxS hyS
    obtain ⟨xS2, yS2, h4, h5, h6⟩ := ih (fun n hn => hgood n (List.mem_cons_of_mem a hn))
      ⟨⟨st.im.n_rows, st.im.n_cols, fun r c => st.im.elem r c +
        gaussAdd erf sqrt2 points imageXmin imageYmin sizeRatioX sizeRatioY sigmaAccuracy
          pixelsX pixelsY r c a⟩, xS1, yS1⟩ hcols hrows h2 h3
    refine ⟨xS2, yS2, ?_, h5, h6⟩
    rw [List.foldlM_cons, h1]
    simp only [Option.some_bind, Option.bind_eq_bind]
    rw [h4]
    refine congrArg some (congrArg (fun m => GaussState.mk m _ _) ?_)
    refine mat_ext_elem rfl rfl ?_
    intro r c
    simp only [List.map_cons, List.sum_cons, add_assoc]

end GaussPoint

/-! ## The Gaussian renderers as sums over the points -/

section GaussRender
variable {F : Type} [LinearOrderedField F] [FloorRing F]

theorem castIdx_lt_of_inGrid {pixels : Nat} {v : F} (hp : pixels < 4294967296)
    (h0 : 0 ≤ v) (h1 : v < (pixels : F)) : castIdx v < pixels := by
  have hpos : 0 < pixels := by
    rcases Nat.eq_zero_or_pos pixels with h | h
    · subst h; simp at h1; exact absurd h1 (not_lt.mpr h0)
    · exact h
  have ht0 : 0 ≤ trunc v := trunc_nonneg_iff.mpr (by linarith)
  have ht1 : trunc v < (pixels : Int) := (trunc_lt_natCast_iff hpos).mpr h1
  unfold castIdx
  exact (toIdx_lt_iff hp (by omega) (by omega)).mpr ⟨ht0, ht1⟩

theorem renderGaussSingle_eq (erf : F → F) (sqrt2 : F) (points : Mat F) (roi : Vec F)
    (im : Mat F) (sigmaAccuracy : F)
    (hcols : im.n_cols ≤ 2147483648) (hrows : im.n_rows ≤ 2147483648)
    (hN : points.n_rows < 4294967296)
    (hgood : ∀ n, n < points.n_rows → InGrid points roi im n) :
    renderGaussSingle erf sqrt2 points roi im sigmaAccuracy
      = some ⟨im.n_rows, im.n_cols, fun r c =>
          ∑ n ∈ Finset.range points.n_rows,
            gaussAddOf erf sqrt2 points roi im sigmaAccuracy r c n⟩ := by
  have hc : toIdx (im.n_cols : Int) = im.n_cols := toIdx_natCast (by omega)
  have hr : toIdx (im.n_rows : Int) = im.n_rows := toIdx_natCast (by omega)
  have hn : toIdx (points.n_rows : Int) = points.n_rows := toIdx_natCast hN
  unfold renderGaussSingle
  simp only []
  obtain ⟨xS, yS, h1, -, -⟩ := gaussFold_eq erf sqrt2 points (roi.elem 0) (roi.elem 2)
    (sizeRatio (toIdx im.n_cols) (roi.elem 0) (roi.elem 1))
    (sizeRatio (toIdx im.n_rows) (roi.elem 2) (roi.elem 3)) sigmaAccuracy
    (toIdx im.n_cols) (toIdx im.n_rows) (by rw [hc]; exact hcols) (by rw [hr]; exact hrows)
    (List.range (toIdx points.n_rows))
    (by
      intro n hn1
      rw [hn, List.mem_range] at hn1
      have hg := hgood n hn1
      unfold InGrid pixelX pixelY at hg
      rw [hc, hr] at hg ⊢
      exact ⟨castIdx_lt_of_inGrid (by omega) hg.1 hg.2.1,
        castIdx_lt_of_inGrid (by omega) hg.2.2.1 hg.2.2.2⟩)
    ⟨Mat.zeros im.n_rows im.n_cols, scratch (toIdx im.n_cols), scratch (toIdx im.n_rows)⟩
    (by simp only [Mat.zeros]; exact hc.symm) (by simp only [Mat.zeros]; exact hr.symm) rfl rfl
  rw [h1]
  simp only [Option.map_some', Mat.zeros, zero_add, sum_map_range, hn]
  rfl
theorem renderGaussParallel_eq (erf : F → F) (sqrt2 : F) (T : Nat) (owner : Nat → Nat)
    (points : Mat F) (roi : Vec F) (im : Mat F) (sigmaAccuracy : F)
    (hcols : im.n_cols ≤ 2147483648) (hrows : im.n_rows ≤ 2147483648)
    (hN : points.n_rows < 4294967296)
    (hown : ∀ n, n < points.n_rows → owner n < T)
    (hgood : ∀ n, n < points.n_rows → InGrid points roi im n) :
    renderGaussParallel erf sqrt2 T owner points roi im sigmaAccuracy
      = some ⟨im.n_rows, im.n_cols, fun r c =>
          if c < im.n_cols ∧ r < im.n_rows then
            ∑ n ∈ Finset.range points.n_rows,
              gaussAddOf erf sqrt2 points roi im sigmaAccuracy r c n
          else im.elem r c⟩ := by
  have hc : toIdx (im.n_cols : Int) = im.n_cols := toIdx_natCast (by omega)
  have hr : toIdx (im.n_rows : Int) = im.n_rows := toIdx_natCast (by omega)
  have hn : toIdx (points.n_rows : Int) = points.n_rows := toIdx_natCast hN
  have key : ∀ tid : Nat, ∃ xS yS : Vec F,
      ((List.range (toIdx points.n_rows)).filter (fun n => owner n = tid)).foldlM
        (gaussPoint erf sqrt2 points (roi.elem 0) (roi.elem 2)
          (sizeRatio (toIdx im.n_cols) (roi.elem 0) (roi.elem 1))
          (sizeRatio (toIdx im.n_rows) (roi.elem 2) (roi.elem 3)) sigmaAccuracy
          (toIdx im.n_cols) (toIdx im.n_rows))
        ⟨Mat.zeros (toIdx im.n_rows) (toIdx im.n_cols), scratch (toIdx im.n_cols),
          scratch (toIdx im.n_rows)⟩
      = some ⟨⟨toIdx im.n_rows, toIdx im.n_cols, fun r c =>
          ∑ n ∈ Finset.range points.n_rows,
            if decide (owner n = tid) = true then
              gaussAddOf erf sqrt2 points roi im sigmaAccuracy r c n else 0⟩, xS, yS⟩ := by
    intro tid
    obtain ⟨xS, yS, h1, -, -⟩ := gaussFold_eq erf sqrt2 points (roi.elem 0) (roi.elem 2)
      (sizeRatio (toIdx im.n_cols) (roi.elem 0) (roi.elem 1))
      (sizeRatio (toIdx im.n_rows) (roi.elem 2) (roi.elem 3)) sigmaAccuracy
      (toIdx im.n_cols) (toIdx im.n_rows) (by rw [hc]; exact hcols) (by rw [hr]; exact hrows)
      ((List.range (toIdx points.n_rows)).filter (fun n => owner n = tid))
      (by
        intro n hn1
        rw [hn] at hn1
        have hn2 := List.mem_range.mp (List.mem_filter.mp hn1).1
        have hg := hgood n hn2
        unfold InGrid pixelX pixelY at hg
        rw [hc, hr] at hg ⊢
        exact ⟨castIdx_lt_of_inGrid (by omega) hg.1 hg.2.1,
          castIdx_lt_of_inGrid (by omega) hg.2.2.1 hg.2.2.2⟩)
      ⟨Mat.zeros (toIdx im.n_rows) (toIdx im.n_cols), scratch (toIdx im.n_cols),
        scratch (toIdx im.n_rows)⟩ rfl rfl rfl rfl
    refine ⟨xS, yS, ?_⟩
    rw [h1]
    simp only [Mat.zeros, zero_add, sum_map_filter_range, hn]
    rfl
  unfold renderGaussParallel
  simp only []
  have hall : (List.range T).all (fun tid =>
      ((((List.range (toIdx points.n_rows)).filter (fun n => owner n = tid)).foldlM
        (gaussPoint erf sqrt2 points (roi.elem 0) (roi.elem 2)
          (sizeRatio (toIdx im.n_cols) (roi.elem 0) (roi.elem 1))
          (sizeRatio (toIdx im.n_rows) (roi.elem 2) (roi.elem 3)) sigmaAccuracy
          (toIdx im.n_cols) (toIdx im.n_rows))
        ⟨Mat.zeros (toIdx im.n_rows) (toIdx im.n_cols), scratch (toIdx im.n_cols),
          scratch (toIdx im.n_rows)⟩).map GaussState.im).isSome) = true := by
    rw [List.all_eq_true]
    intro tid _
    obtain ⟨xS, yS, h⟩ := key tid
    rw [h]
    rfl
  rw [if_pos hall]
  refine congrArg some (mat_ext_elem rfl rfl ?_)
  intro r c
  simp only [hc, hr]
  by_cases hin : c < im.n_cols ∧ r < im.n_rows
  · rw [if_pos hin, if_pos hin, foldl_add_range, ← sum_owner _ owner T points.n_rows hown]
    apply Finset.sum_congr rfl
    intro tid _
    obtain ⟨xS, yS, h⟩ := key tid
    simp only [hc, hr] at h
    rw [h]
    rfl
  · rw [if_neg hin, if_neg hin]
end GaussRender

/-! ## Facts about the Gaussian renderers used by the claims -/

section GaussFacts
variable {F : Type} [LinearOrderedField F] [FloorRing F]

theorem normexp_div_mul (sqrt2 sigma a : F) :
    normexp sqrt2 / sigma * a = a / (sigma * sqrt2) := by
  unfold normexp
  rw [div_div, one_div, mul_comm sqrt2 sigma, mul_comm, div_eq_mul_inv]

theorem stencilEntry_shift (erf : F → F) (sqrt2 sigma X : F) {lo c : Nat} (h : lo ≤ c) :
    stencilEntry erf (normexp sqrt2 / sigma) (X - (lo : F)) (c - lo)
      = 0.5 * (erf (((c : F) + 1 - X) / (sigma * sqrt2))
          - erf (((c : F) - X) / (sigma * sqrt2))) := by
  unfold stencilEntry
  rw [normexp_div_mul, normexp_div_mul]
  have h1 : (((c - lo + 1 : Nat) : F)) - (X - (lo : F)) = (c : F) + 1 - X := by
    rw [Nat.cast_add, Nat.cast_sub h]; simp; ring
  have h2 : (((c - lo : Nat) : F)) - (X - (lo : F)) = (c : F) - X := by
    rw [Nat.cast_sub h]; ring
  rw [h1, h2]


theorem castIdx_eval {v : F} (k : Nat) (hk : k < 4294967296) (h0 : (k : F) ≤ v)
    (h1 : v < (k : F) + 1) : castIdx v = k := by
  have hv : 0 ≤ v := le_trans (Nat.cast_nonneg k) h0
  have hf : ⌊v⌋ = (k : Int) := by
    rw [Int.floor_eq_iff]
    exact ⟨by exact_mod_cast h0, by exact_mod_cast h1⟩
  unfold castIdx
  rw [trunc_of_nonneg hv, hf]
  exact toIdx_natCast hk

theorem gaussSplat_none (erf : F → F) (sqrt2 : F) (I X sigmaX : F) (xmin xmax xspn : Nat)
    (Y sigmaY : F) (ymin ymax yspn : Nat) (st : GaussState F)
    (hx : 0 < xspn) (hy : 0 < yspn) (h : st.xStencil.n_elem < xspn) :
    gaussSplat erf sqrt2 I X sigmaX xmin xmax xspn Y sigmaY ymin ymax yspn st = none := by
  unfold gaussSplat
  rw [if_neg (by omega), fill_stencil_none erf sqrt2 _ _ _ _ h]

theorem farPoint_gaussPoint (erf : F → F) (sqrt2 : F) (st : GaussState F)
    (h : st.xStencil.n_elem = 10) :
    gaussPoint erf sqrt2 (farPoint F) ((roi10 F).elem 0) ((roi10 F).elem 2)
      (sizeRatio 10 ((roi10 F).elem 0) ((roi10 F).elem 1))
      (sizeRatio 10 ((roi10 F).elem 2) ((roi10 F).elem 3)) 5 10 10 st 0 = none := by
  have hX : ((farPoint F).elem 0 1 - (roi10 F).elem 0)
      * sizeRatio 10 ((roi10 F).elem 0) ((roi10 F).elem 1) = 41 / 2 := by
    simp [farPoint, roi10, Mat.ofRows, Vec.ofList, sizeRatio]; norm_num
  have hY : ((farPoint F).elem 0 2 - (roi10 F).elem 2)
      * sizeRatio 10 ((roi10 F).elem 2) ((roi10 F).elem 3) = 11 / 2 := by
    simp [farPoint, roi10, Mat.ofRows, Vec.ofList, sizeRatio]; norm_num
  have hsX : (0.5 : F) + 5 * ((farPoint F).elem 0 3
      * sizeRatio 10 ((roi10 F).elem 0) ((roi10 F).elem 1)) = 5 / 2 := by
    simp [farPoint, roi10, Mat.ofRows, Vec.ofList, sizeRatio]; norm_num
  have hsY : (0.5 : F) + 5 * ((farPoint F).elem 0 4
      * sizeRatio 10 ((roi10 F).elem 2) ((roi10 F).elem 3)) = 5 / 2 := by
    simp [farPoint, roi10, Mat.ofRows, Vec.ofList, sizeRatio]; norm_num
  have c1 : castIdx (41 / 2 : F) = 20 := castIdx_eval 20 (by norm_num) (by norm_num) (by norm_num)
  have c2 : castIdx (11 / 2 : F) = 5 := castIdx_eval 5 (by norm_num) (by norm_num) (by norm_num)
  have c3 : castIdx (5 / 2 : F) = 2 := castIdx_eval 2 (by norm_num) (by norm_num) (by norm_num)
  unfold gaussPoint
  simp only [hX, hY, hsX, hsY, c1, c2, c3]
  apply gaussSplat_none
  · decide
  · decide
  · rw [h]; decide

theorem sameResult_ite (c : Prop) [Decidable c] (a b : Mat F) (h : a.Same b) :
    SameResult (if c then some a else none) (if c then some b else none) := by
  by_cases hc : c
  · rw [if_pos hc, if_pos hc]; exact Or.inr ⟨a, b, rfl, rfl, h⟩
  · rw [if_neg hc, if_neg hc]; exact Or.inl ⟨rfl, rfl⟩

theorem sameResult_refl (a : Option (Mat F)) : SameResult a a := by
  cases a with
  | none => exact Or.inl ⟨rfl, rfl⟩
  | some x => exact Or.inr ⟨x, x, rfl, rfl, rfl, rfl, fun _ _ _ _ => rfl⟩

theorem renderGaussSingle_dims_only (erf : F → F) (sqrt2 : F) (points : Mat F) (roi : Vec F)
    (sigmaAccuracy : F) (im1 im2 : Mat F)
    (hr : im1.n_rows = im2.n_rows) (hc : im1.n_cols = im2.n_cols) :
    renderGaussSingle erf sqrt2 points roi im1 sigmaAccuracy
      = renderGaussSingle erf sqrt2 points roi im2 sigmaAccuracy := by
  unfold renderGaussSingle
  simp only [hr, hc]

theorem renderGaussParallel_dims_only (erf : F → F) (sqrt2 : F) (T : Nat) (owner : Nat → Nat)
    (points : Mat F) (roi : Vec F) (sigmaAccuracy : F) (im1 im2 : Mat F)
    (hr : im1.n_rows = im2.n_rows) (hc : im1.n_cols = im2.n_cols)
    (hr32 : im1.n_rows < 4294967296) (hc32 : im1.n_cols < 4294967296) :
    SameResult (renderGaussParallel erf sqrt2 T owner points roi im1 sigmaAccuracy)
      (renderGaussParallel erf sqrt2 T owner points roi im2 sigmaAccuracy) := by
  have h1 : toIdx (im2.n_cols : Int) = im2.n_cols := toIdx_natCast (by omega)
  have h2 : toIdx (im2.n_rows : Int) = im2.n_rows := toIdx_natCast (by omega)
  unfold renderGaussParallel
  simp only [hr, hc]
  apply sameResult_ite
  refine ⟨rfl, rfl, ?_⟩
  intro r c hr1 hc1
  simp only [h1, h2] at hr1 hc1 ⊢
  rw [if_pos ⟨hc1, hr1⟩, if_pos ⟨hc1, hr1⟩]

theorem renderGaussSingle_no_points (erf : F → F) (sqrt2 : F) (points : Mat F) (roi : Vec F)
    (sigmaAccuracy : F) (im : Mat F) (h0 : points.n_rows = 0) :
    renderGaussSingle erf sqrt2 points roi im sigmaAccuracy
      = some (Mat.zeros im.n_rows im.n_cols) := by
  unfold renderGaussSingle
  simp only [h0]
  rfl

theorem renderGaussParallel_no_points (erf : F → F) (sqrt2 : F) (T : Nat) (owner : Nat → Nat)
    (points : Mat F) (roi : Vec F) (sigmaAccuracy : F) (im : Mat F) (h0 : points.n_rows = 0)
    (hr32 : im.n_rows < 4294967296) (hc32 : im.n_cols < 4294967296) :
    ∃ out : Mat F, renderGaussParallel erf sqrt2 T owner points roi im sigmaAccuracy = some out ∧
      out.n_rows = im.n_rows ∧ out.n_cols = im.n_cols ∧
      ∀ r c, r < im.n_rows → c < im.n_cols → out.elem r c = 0 := by
  have hz : toIdx ((0 : Nat) : Int) = 0 := rfl
  have h1 : toIdx (im.n_cols : Int) = im.n_cols := toIdx_natCast (by omega)
  have h2 : toIdx (im.n_rows : Int) = im.n_rows := toIdx_natCast (by omega)
  unfold renderGaussParallel
  simp only [h0, hz, List.range_zero, List.filter_nil, List.foldlM_nil, pure, Option.map_some',
    Option.isSome_some, List.all_eq_true, implies_true, if_true, Option.getD_some,
    decide_True, foldl_add_range, h1, h2]
  refine ⟨_, rfl, rfl, rfl, ?_⟩
  intro r c hr hc
  simp only [if_pos (And.intro hc hr), Mat.zeros, Finset.sum_const_zero]

theorem isErf_abs_lt_one {erf : F → F} (h : IsErf erf) (x : F) : |erf x| < 1 := by
  rw [abs_lt]
  constructor
  · have h1 := h.strictMono (show x - 1 < x by linarith)
    have h2 := (abs_le.mp (h.abs_le_one (x - 1))).1
    linarith
  · have h1 := h.strictMono (show x < x + 1 by linarith)
    have h2 := (abs_le.mp (h.abs_le_one (x + 1))).2
    linarith

theorem isErf_zero {erf : F → F} (h : IsErf erf) : erf 0 = 0 := by
  have h1 := h.odd 0
  rw [neg_zero] at h1
  linarith

theorem stencilSum_telescope (erf : F → F) (norm x : F) (size : Nat) :
    stencilSum erf norm x size
      = 0.5 * (erf (norm * ((size : F) - x)) - erf (-norm * x)) := by
  unfold stencilSum
  induction size with
  | zero =>
    have h : norm * (((0 : Nat) : F) - x) = -norm * x := by push_cast; ring
    rw [Finset.sum_range_zero, h, sub_self, mul_zero]
  | succ k ih =>
    rw [Finset.sum_range_succ, ih]
    unfold stencilEntry
    ring

theorem stencilEntry_nonneg {erf : F → F} (h : IsErf erf) {norm : F} (hn : 0 ≤ norm) (x : F)
    (j : Nat) : 0 ≤ stencilEntry erf norm x j := by
  unfold stencilEntry
  have h1 : norm * ((j : F) - x) ≤ norm * (((j + 1 : Nat) : F) - x) := by
    apply mul_le_mul_of_nonneg_left _ hn
    push_cast; linarith
  have h2 := h.strictMono.monotone h1
  have h3 : (0 : F) ≤ 0.5 := by norm_num
  exact mul_nonneg h3 (by linarith)

theorem stencilSum_nonneg {erf : F → F} (h : IsErf erf) {norm : F} (hn : 0 ≤ norm) (x : F)
    (size : Nat) : 0 ≤ stencilSum erf norm x size :=
  Finset.sum_nonneg fun j _ => stencilEntry_nonneg h hn x j

theorem stencilSum_lt_one {erf : F → F} (h : IsErf erf) (norm x : F) (size : Nat) :
    stencilSum erf norm x size < 1 := by
  rw [stencilSum_telescope]
  have h1 := (abs_lt.mp (isErf_abs_lt_one h (norm * ((size : F) - x)))).2
  have h2 := (abs_lt.mp (isErf_abs_lt_one h (-norm * x))).1
  have h3 : (0.5 : F) = 1 / 2 := by norm_num
  rw [h3]
  linarith

theorem normexp_div_nonneg {sqrt2 sigma : F} (h2 : 0 < sqrt2) (hs : 0 < sigma) :
    0 ≤ normexp sqrt2 / sigma := by
  unfold normexp
  positivity

theorem sum_box (a : Nat → F) (lo hi n : Nat) (h : hi < n) :
    ∑ c ∈ Finset.range n, (if lo ≤ c ∧ c ≤ hi then a (c - lo) else 0)
      = ∑ j ∈ Finset.range (hi + 1 - lo), a j := by
  rw [← Finset.sum_filter]
  have hf : Finset.filter (fun c => lo ≤ c ∧ c ≤ hi) (Finset.range n) = Finset.Ico lo (hi + 1) := by
    ext c
    simp only [Finset.mem_filter, Finset.mem_range, Finset.mem_Ico]
    omega
  rw [hf, Finset.sum_Ico_eq_sum_range]
  apply Finset.sum_congr rfl
  intro j _
  rw [Nat.add_sub_cancel_left]

theorem splatAdd_total (erf : F → F) (sqrt2 : F) (I X sigmaX : F) (xmin xmax : Nat)
    (Y sigmaY : F) (ymin ymax rows cols : Nat) (hx : xmax < cols) (hy : ymax < rows) :
    ∑ r ∈ Finset.range rows, ∑ c ∈ Finset.range cols,
        splatAdd erf sqrt2 I X sigmaX xmin xmax Y sigmaY ymin ymax r c
      = I * stencilSum erf (normexp sqrt2 / sigmaX) (X - (xmin : F)) (xmax + 1 - xmin)
          * stencilSum erf (normexp sqrt2 / sigmaY) (Y - (ymin : F)) (ymax + 1 - ymin) := by
  have hfac : ∀ r c, splatAdd erf sqrt2 I X sigmaX xmin xmax Y sigmaY ymin ymax r c
      = (if xmin ≤ c ∧ c ≤ xmax then
            stencilEntry erf (normexp sqrt2 / sigmaX) (X - (xmin : F)) (c - xmin) else 0) * I
          * (if ymin ≤ r ∧ r ≤ ymax then
            stencilEntry erf (normexp sqrt2 / sigmaY) (Y - (ymin : F)) (r - ymin) else 0) := by
    intro r c
    unfold splatAdd
    by_cases h1 : xmin ≤ c ∧ c ≤ xmax <;> by_cases h2 : ymin ≤ r ∧ r ≤ ymax
    · rw [if_pos ⟨h1.1, h1.2, h2.1, h2.2⟩, if_pos h1, if_pos h2]
    · rw [if_neg (fun h => h2 ⟨h.2.2.1, h.2.2.2⟩), if_neg h2, mul_zero]
    · rw [if_neg (fun h => h1 ⟨h.1, h.2.1⟩), if_neg h1, zero_mul, zero_mul]
    · rw [if_neg (fun h => h1 ⟨h.1, h.2.1⟩), if_neg h1, zero_mul, zero_mul]
  simp only [hfac]
  simp only [← Finset.sum_mul, ← Finset.mul_sum]
  rw [sum_box _ xmin xmax cols hx, sum_box _ ymin ymax rows hy]
  unfold stencilSum
  ring

theorem inGrid_castIdx_lt {points : Mat F} {roi : Vec F} {im : Mat F} {n : Nat}
    (hcols : im.n_cols ≤ 2147483648) (hrows : im.n_rows ≤ 2147483648)
    (hin : InGrid points roi im n) :
    castIdx (pixelX points roi im n) < im.n_cols ∧
      castIdx (pixelY points roi im n) < im.n_rows :=
  ⟨castIdx_lt_of_inGrid (by omega) hin.1 hin.2.1,
    castIdx_lt_of_inGrid (by omega) hin.2.2.1 hin.2.2.2⟩

theorem halfWidth_lt (a s : F) : halfWidth a s < 4294967296 := by
  unfold halfWidth; exact castIdx_lt _

theorem gaussAddOf_eq_splatAdd (erf : F → F) (sqrt2 : F) (points : Mat F) (roi : Vec F)
    (im : Mat F) (sigmaAccuracy : F) (r c n : Nat)
    (hcols : im.n_cols < 4294967296) (hrows : im.n_rows < 4294967296) :
    gaussAddOf erf sqrt2 points roi im sigmaAccuracy r c n
      = splatAdd erf sqrt2 (points.elem n 0) (pixelX points roi im n)
          (pixelSigmaX points roi im n)
          (boxMin (castIdx (pixelX points roi im n))
            (halfWidth sigmaAccuracy (pixelSigmaX points roi im n)))
          (boxMax im.n_cols (castIdx (pixelX points roi im n))
            (halfWidth sigmaAccuracy (pixelSigmaX points roi im n)))
          (pixelY points roi im n) (pixelSigmaY points roi im n)
          (boxMin (castIdx (pixelY points roi im n))
            (halfWidth sigmaAccuracy (pixelSigmaY points roi im n)))
          (boxMax im.n_rows (castIdx (pixelY points roi im n))
            (halfWidth sigmaAccuracy (pixelSigmaY points roi im n))) r c := by
  have hc : toIdx (im.n_cols : Int) = im.n_cols := toIdx_natCast hcols
  have hr : toIdx (im.n_rows : Int) = im.n_rows := toIdx_natCast hrows
  unfold gaussAddOf gaussAdd pixelX pixelY pixelSigmaX pixelSigmaY halfWidth
  rw [hc, hr]

theorem gaussAddOf_total (erf : F → F) (sqrt2 : F) (points : Mat F) (roi : Vec F)
    (im : Mat F) (sigmaAccuracy : F) (n : Nat)
    (hcols : im.n_cols ≤ 2147483648) (hrows : im.n_rows ≤ 2147483648)
    (hin : InGrid points roi im n) :
    ∑ r ∈ Finset.range im.n_rows, ∑ c ∈ Finset.range im.n_cols,
        gaussAddOf erf sqrt2 points roi im sigmaAccuracy r c n
      = points.elem n 0 * spanSumX erf sqrt2 points roi im sigmaAccuracy n
          * spanSumY erf sqrt2 points roi im sigmaAccuracy n := by
  have hc : toIdx (im.n_cols : Int) = im.n_cols := toIdx_natCast (by omega)
  have hr : toIdx (im.n_rows : Int) = im.n_rows := toIdx_natCast (by omega)
  obtain ⟨hx, hy⟩ := inGrid_castIdx_lt hcols hrows hin
  have bx := box_facts hx hcols (halfWidth_lt sigmaAccuracy (pixelSigmaX points roi im n))
  have by1 := box_facts hy hrows (halfWidth_lt sigmaAccuracy (pixelSigmaY points roi im n))
  have e : ∀ r c, gaussAddOf erf sqrt2 points roi im sigmaAccuracy r c n = _ :=
    fun r c => gaussAddOf_eq_splatAdd erf sqrt2 points roi im sigmaAccuracy r c n
      (by omega) (by omega)
  simp only [e]
  rw [splatAdd_total erf sqrt2 _ _ _ _ _ _ _ _ _ _ _ bx.2.2.1 by1.2.2.1]
  unfold spanSumX spanSumY
  simp only [hc, hr]
  rw [bx.2.2.2, by1.2.2.2]

theorem renderGaussSingle_total (erf : F → F) (sqrt2 : F) (points : Mat F) (roi : Vec F)
    (im : Mat F) (sigmaAccuracy : F)
    (hcols : im.n_cols ≤ 2147483648) (hrows : im.n_rows ≤ 2147483648)
    (hN : points.n_rows < 4294967296)
    (hgood : ∀ n, n < points.n_rows → InGrid points roi im n) :
    ∃ out : Mat F, renderGaussSingle erf sqrt2 points roi im sigmaAccuracy = some out ∧
      out.n_rows = im.n_rows ∧ out.n_cols = im.n_cols ∧
      out.accu = ∑ n ∈ Finset.range points.n_rows,
        points.elem n 0 * spanSumX erf sqrt2 points roi im sigmaAccuracy n
          * spanSumY erf sqrt2 points roi im sigmaAccuracy n := by
  refine ⟨_, renderGaussSingle_eq erf sqrt2 points roi im sigmaAccuracy hcols hrows hN hgood,
    rfl, rfl, ?_⟩
  unfold Mat.accu
  simp only []
  have h1 : ∀ r ∈ Finset.range im.n_rows,
      ∑ c ∈ Finset.range im.n_cols, ∑ n ∈ Finset.range points.n_rows,
          gaussAddOf erf sqrt2 points roi im sigmaAccuracy r c n
        = ∑ n ∈ Finset.range points.n_rows, ∑ c ∈ Finset.range im.n_cols,
          gaussAddOf erf sqrt2 points roi im sigmaAccuracy r c n :=
    fun r _ => Finset.sum_comm
  rw [Finset.sum_congr rfl h1, Finset.sum_comm]
  apply Finset.sum_congr rfl
  intro n hn
  exact gaussAddOf_total erf sqrt2 points roi im sigmaAccuracy n hcols hrows
    (hgood n (Finset.mem_range.mp hn))

theorem pixelSigmaX_pos {points : Mat F} {roi : Vec F} {im : Mat F} {n : Nat}
    (hs : 0 < points.elem n 3) (hroi : roi.elem 0 < roi.elem 1)
    (h0 : 0 < im.n_cols) (h1 : im.n_cols < 4294967296) : 0 < pixelSigmaX points roi im n := by
  unfold pixelSigmaX sizeRatio
  rw [toIdx_natCast h1]
  have h2 : (0 : F) < (im.n_cols : F) := by exact_mod_cast h0
  have h3 : 0 < roi.elem 1 - roi.elem 0 := by linarith
  positivity

theorem pixelSigmaY_pos {points : Mat F} {roi : Vec F} {im : Mat F} {n : Nat}
    (hs : 0 < points.elem n 4) (hroi : roi.elem 2 < roi.elem 3)
    (h0 : 0 < im.n_rows) (h1 : im.n_rows < 4294967296) : 0 < pixelSigmaY points roi im n := by
  unfold pixelSigmaY sizeRatio
  rw [toIdx_natCast h1]
  have h2 : (0 : F) < (im.n_rows : F) := by exact_mod_cast h0
  have h3 : 0 < roi.elem 3 - roi.elem 2 := by linarith
  positivity

theorem inGrid_pos {points : Mat F} {roi : Vec F} {im : Mat F} {n : Nat}
    (hin : InGrid points roi im n) : 0 < im.n_cols ∧ 0 < im.n_rows := by
  have h1 : (0 : F) < (im.n_cols : F) := lt_of_le_of_lt hin.1 hin.2.1
  have h2 : (0 : F) < (im.n_rows : F) := lt_of_le_of_lt hin.2.2.1 hin.2.2.2
  exact ⟨by exact_mod_cast h1, by exact_mod_cast h2⟩

theorem spanSum_bounds {erf : F → F} (herf : IsErf erf) {sqrt2 : F} (h2 : 0 < sqrt2)
    (points : Mat F) (roi : Vec F) (im : Mat F) (sigmaAccuracy : F) (n : Nat)
    (hsx : 0 < pixelSigmaX points roi im n) (hsy : 0 < pixelSigmaY points roi im n) :
    (0 ≤ spanSumX erf sqrt2 points roi im sigmaAccuracy n ∧
      spanSumX erf sqrt2 points roi im sigmaAccuracy n < 1) ∧
    (0 ≤ spanSumY erf sqrt2 points roi im sigmaAccuracy n ∧
      spanSumY erf sqrt2 points roi im sigmaAccuracy n < 1) := by
  unfold spanSumX spanSumY
  exact ⟨⟨stencilSum_nonneg herf (normexp_div_nonneg h2 hsx) _ _, stencilSum_lt_one herf _ _ _⟩,
    ⟨stencilSum_nonneg herf (normexp_div_nonneg h2 hsy) _ _, stencilSum_lt_one herf _ _ _⟩⟩

theorem mul_mass_le {I a b : F} (hI : 0 ≤ I) (ha : 0 ≤ a ∧ a < 1) (hb : 0 ≤ b ∧ b < 1) :
    I * a * b ≤ I := by
  have h1 : a * b ≤ 1 := by nlinarith [ha.1, ha.2, hb.1, hb.2]
  calc I * a * b = I * (a * b) := by ring
    _ ≤ I * 1 := mul_le_mul_of_nonneg_left h1 hI
    _ = I := mul_one I

theorem stencilSum_eq_erfMass (erf : F → F) (sqrt2 X sigma : F) {lo hi : Nat} (h : lo ≤ hi) :
    stencilSum erf (normexp sqrt2 / sigma) (X - (lo : F)) (hi - lo)
      = erfMass erf sqrt2 X sigma lo hi := by
  rw [stencilSum_telescope]
  unfold erfMass
  have h1 : -(normexp sqrt2 / sigma) * (X - (lo : F))
      = normexp sqrt2 / sigma * ((lo : F) - X) := by ring
  have h2 : (((hi - lo : Nat) : F)) - (X - (lo : F)) = (hi : F) - X := by
    rw [Nat.cast_sub h]; ring
  rw [h1, h2, normexp_div_mul, normexp_div_mul]

theorem boxMin_unclipped {p hw : Nat} (h : hw ≤ p) (hp : p < 4294967296) :
    boxMin p hw = p - hw := by
  unfold boxMin
  by_cases h1 : p ≤ hw
  · rw [if_pos h1]; omega
  · rw [if_neg h1]; exact idxSub_eq h hp

theorem boxMax_unclipped {pixels p hw : Nat} (h : p + hw < pixels) (hp : pixels < 4294967296) :
    boxMax pixels p hw = p + hw := by
  unfold boxMax
  rw [idxSub_eq (by omega) hp, idxAdd_eq (by omega)]
  exact min_eq_right (by omega)

theorem spanSum_eq_fullMass (erf : F → F) (sqrt2 : F) (points : Mat F) (roi : Vec F)
    (im : Mat F) (sigmaAccuracy : F) (n : Nat)
    (hcols : im.n_cols ≤ 2147483648) (hrows : im.n_rows ≤ 2147483648)
    (hun : Unclipped points roi im sigmaAccuracy n) :
    spanSumX erf sqrt2 points roi im sigmaAccuracy n
        = fullMassX erf sqrt2 points roi im sigmaAccuracy n ∧
      spanSumY erf sqrt2 points roi im sigmaAccuracy n
        = fullMassY erf sqrt2 points roi im sigmaAccuracy n := by
  have hc : toIdx (im.n_cols : Int) = im.n_cols := toIdx_natCast (by omega)
  have hr : toIdx (im.n_rows : Int) = im.n_rows := toIdx_natCast (by omega)
  obtain ⟨hx1, hx2, hy1, hy2⟩ := hun
  have bx := box_facts (show castIdx (pixelX points roi im n) < im.n_cols by omega) hcols
    (halfWidth_lt sigmaAccuracy (pixelSigmaX points roi im n))
  have by1 := box_facts (show castIdx (pixelY points roi im n) < im.n_rows by omega) hrows
    (halfWidth_lt sigmaAccuracy (pixelSigmaY points roi im n))
  have mx := boxMin_unclipped hx1 (by omega)
  have my := boxMin_unclipped hy1 (by omega)
  have Mx := boxMax_unclipped hx2 (show im.n_cols < 4294967296 by omega)
  have My := boxMax_unclipped hy2 (show im.n_rows < 4294967296 by omega)
  unfold spanSumX spanSumY fullMassX fullMassY
  simp only [hc, hr]
  rw [bx.2.2.2, by1.2.2.2, Mx, My, mx, my]
  exact ⟨stencilSum_eq_erfMass erf sqrt2 _ _ (by omega),
    stencilSum_eq_erfMass erf sqrt2 _ _ (by omega)⟩

theorem tolerance_iff {I a b tol : F} (hI : 0 < I) (ha : 0 ≤ a ∧ a < 1) (hb : 0 ≤ b ∧ b < 1) :
    |I * a * b - I| ≤ tol * I ↔ 1 - tol ≤ a * b := by
  have h1 : a * b < 1 := by nlinarith [ha.1, ha.2, hb.1, hb.2]
  have h2 : I * a * b - I = -(I * (1 - a * b)) := by ring
  have h3 : 0 ≤ I * (1 - a * b) := mul_nonneg hI.le (by linarith)
  rw [h2, abs_neg, abs_of_nonneg h3]
  constructor
  · intro h
    have : I * (1 - a * b) ≤ I * tol := by linarith
    have := le_of_mul_le_mul_left this hI
    linarith
  · intro h
    have : I * (1 - a * b) ≤ I * tol := mul_le_mul_of_nonneg_left (by linarith) hI.le
    linarith

theorem renderGaussSingle_unclipped_total (erf : F → F) (sqrt2 : F) (points : Mat F)
    (roi : Vec F) (im : Mat F) (sigmaAccuracy : F) (hN : points.n_rows = 1)
    (hcols : im.n_cols ≤ 2147483648) (hrows : im.n_rows ≤ 2147483648)
    (hin : InGrid points roi im 0) (hun : Unclipped points roi im sigmaAccuracy 0) :
    ∃ out : Mat F, renderGaussSingle erf sqrt2 points roi im sigmaAccuracy = some out ∧
      out.accu = points.elem 0 0 * fullMassX erf sqrt2 points roi im sigmaAccuracy 0
        * fullMassY erf sqrt2 points roi im sigmaAccuracy 0 := by
  obtain ⟨out, h1, -, -, h2⟩ := renderGaussSingle_total erf sqrt2 points roi im sigmaAccuracy
    hcols hrows (by omega)
    (by intro n hn; rw [hN] at hn; have : n = 0 := by omega
        subst this; exact hin)
  refine ⟨out, h1, ?_⟩
  obtain ⟨e1, e2⟩ := spanSum_eq_fullMass erf sqrt2 points roi im sigmaAccuracy 0 hcols hrows hun
  rw [h2, hN, Finset.sum_range_one, e1, e2]

theorem edgePoint_total (erf : F → F) (sqrt2 : F) :
    Unclipped (edgePoint F) (roi10 F) (zeros10 F) 5 0 ∧
      halfWidth (5 : F) (pixelSigmaX (edgePoint F) (roi10 F) (zeros10 F) 0) = 0 ∧
      halfWidth (5 : F) (pixelSigmaY (edgePoint F) (roi10 F) (zeros10 F) 0) = 0 ∧
      ∃ out : Mat F,
        renderGaussSingle erf sqrt2 (edgePoint F) (roi10 F) (zeros10 F) 5 = some out ∧
        out.accu = (0.5 * (erf (1 / (0.05 * sqrt2)) - erf 0))
          * (0.5 * (erf (1 / (0.05 * sqrt2)) - erf 0)) ∧
        (IsErf erf → out.accu < 1 / 4 ∧ ¬ |out.accu - 1| ≤ 0.00001 * 1) := by
  have hX : pixelX (edgePoint F) (roi10 F) (zeros10 F) 0 = 2 := by
    simp [pixelX, edgePoint, roi10, zeros10, Mat.zeros, Mat.ofRows, Vec.ofList, sizeRatio, toIdx]
  have hY : pixelY (edgePoint F) (roi10 F) (zeros10 F) 0 = 2 := by
    simp [pixelY, edgePoint, roi10, zeros10, Mat.zeros, Mat.ofRows, Vec.ofList, sizeRatio, toIdx]
  have hsX : pixelSigmaX (edgePoint F) (roi10 F) (zeros10 F) 0 = 0.05 := by
    simp [pixelSigmaX, edgePoint, roi10, zeros10, Mat.zeros, Mat.ofRows, Vec.ofList, sizeRatio,
      toIdx]
  have hsY : pixelSigmaY (edgePoint F) (roi10 F) (zeros10 F) 0 = 0.05 := by
    simp [pixelSigmaY, edgePoint, roi10, zeros10, Mat.zeros, Mat.ofRows, Vec.ofList, sizeRatio,
      toIdx]
  have c2 : castIdx (2 : F) = 2 := castIdx_eval 2 (by norm_num) (by norm_num) (by norm_num)
  have hw : halfWidth (5 : F) 0.05 = 0 := by
    unfold halfWidth
    exact castIdx_eval 0 (by norm_num) (by norm_num) (by norm_num)
  have hun : Unclipped (edgePoint F) (roi10 F) (zeros10 F) 5 0 := by
    unfold Unclipped
    rw [hX, hY, hsX, hsY, c2, hw]
    exact ⟨by decide, (by decide : 2 + 0 < 10), by decide, (by decide : 2 + 0 < 10)⟩
  have hin : InGrid (edgePoint F) (roi10 F) (zeros10 F) 0 := by
    unfold InGrid
    rw [hX, hY]
    simp [zeros10, Mat.zeros]
    norm_num
  obtain ⟨out, h1, h2⟩ := renderGaussSingle_unclipped_total erf sqrt2 (edgePoint F) (roi10 F)
    (zeros10 F) 5 rfl (by simp [zeros10, Mat.zeros]) (by simp [zeros10, Mat.zeros]) hin hun
  have hm : out.accu = (0.5 * (erf (1 / (0.05 * sqrt2)) - erf 0))
      * (0.5 * (erf (1 / (0.05 * sqrt2)) - erf 0)) := by
    rw [h2]
    unfold fullMassX fullMassY erfMass
    rw [hX, hY, hsX, hsY, c2, hw]
    have hI : (edgePoint F).elem 0 0 = 1 := by simp [edgePoint, Mat.ofRows]
    have a1 : (((2 + 0 + 1 : Nat) : F) - 2) = 1 := by norm_num
    have a2 : (((2 - 0 : Nat) : F) - 2) = 0 := by norm_num
    rw [hI, a1, a2, zero_div, one_mul]
  refine ⟨hun, by rw [hsX]; exact hw, by rw [hsY]; exact hw, out, h1, hm, ?_⟩
  intro herf
  have e0 := isErf_zero herf
  have e1 := abs_lt.mp (isErf_abs_lt_one herf (1 / (0.05 * sqrt2)))
  have hlt : out.accu < 1 / 4 := by
    rw [hm, e0]
    have h5 : (0.5 : F) = 1 / 2 := by norm_num
    rw [h5]
    nlinarith [e1.1, e1.2]
  refine ⟨hlt, ?_⟩
  intro h
  have h6 := (abs_le.mp h).1
  have h7 : (0.00001 : F) * 1 ≤ 1 / 2 := by norm_num
  linarith

theorem splatAdd_nonneg {erf : F → F} (herf : IsErf erf) {sqrt2 : F} (hsqrt : 0 < sqrt2)
    {I sigmaX sigmaY : F} (hI : 0 ≤ I) (hsx : 0 < sigmaX) (hsy : 0 < sigmaY) (X Y : F)
    (xmin xmax ymin ymax r c : Nat) :
    0 ≤ splatAdd erf sqrt2 I X sigmaX xmin xmax Y sigmaY ymin ymax r c := by
  unfold splatAdd
  split_ifs
  · exact mul_nonneg
      (mul_nonneg (stencilEntry_nonneg herf (normexp_div_nonneg hsqrt hsx) _ _) hI)
      (stencilEntry_nonneg herf (normexp_div_nonneg hsqrt hsy) _ _)
  · exact le_rfl

theorem gaussAddOf_sum_nonneg {erf : F → F} (herf : IsErf erf) {sqrt2 : F} (hsqrt : 0 < sqrt2)
    (points : Mat F) (roi : Vec F) (im : Mat F) (sigmaAccuracy : F)
    (hcols : im.n_cols ≤ 2147483648) (hrows : im.n_rows ≤ 2147483648)
    (hroiX : roi.elem 0 < roi.elem 1) (hroiY : roi.elem 2 < roi.elem 3)
    (hI : ∀ n, n < points.n_rows → 0 ≤ points.elem n 0)
    (hs : ∀ n, n < points.n_rows → 0 < points.elem n 3 ∧ 0 < points.elem n 4)
    (hgood : ∀ n, n < points.n_rows → InGrid points roi im n) (r c : Nat) :
    0 ≤ ∑ n ∈ Finset.range points.n_rows,
      gaussAddOf erf sqrt2 points roi im sigmaAccuracy r c n := by
  apply Finset.sum_nonneg
  intro n hn
  have hn1 := Finset.mem_range.mp hn
  obtain ⟨p1, p2⟩ := inGrid_pos (hgood n hn1)
  rw [gaussAddOf_eq_splatAdd erf sqrt2 points roi im sigmaAccuracy r c n (by omega) (by omega)]
  exact splatAdd_nonneg herf hsqrt (hI n hn1)
    (pixelSigmaX_pos (hs n hn1).1 hroiX p1 (by omega))
    (pixelSigmaY_pos (hs n hn1).2 hroiY p2 (by omega)) _ _ _ _ _ _ _ _

end GaussFacts

theorem gaussInputs_inGrid (pts : Mat ℚ) (h : pts = midPoint ∨ pts = midPoints ∨ pts = widePoint
    ∨ pts = edgePoint ℚ) :
    ∀ n, n < pts.n_rows → InGrid pts (roi10 ℚ) (zeros10 ℚ) n := by
  intro n hn
  rcases h with h | h | h | h <;> subst h
  · have hn0 : n = 0 := by simp [midPoint, Mat.ofRows] at hn; exact hn
    subst hn0
    simp [InGrid, pixelX, pixelY, midPoint, roi10, zeros10, Mat.zeros, Mat.ofRows, Vec.ofList,
      sizeRatio, toIdx]
    norm_num
  · have hn0 : n = 0 ∨ n = 1 := by simp [midPoints, Mat.ofRows] at hn; omega
    rcases hn0 with h0 | h0 <;> subst h0 <;>
    simp [InGrid, pixelX, pixelY, midPoints, roi10, zeros10, Mat.zeros, Mat.ofRows, Vec.ofList,
      sizeRatio, toIdx] <;>
    norm_num
  · have hn0 : n = 0 := by simp [widePoint, Mat.ofRows] at hn; exact hn
    subst hn0
    simp [InGrid, pixelX, pixelY, widePoint, roi10, zeros10, Mat.zeros, Mat.ofRows, Vec.ofList,
      sizeRatio, toIdx]
    norm_num
  · have hn0 : n = 0 := by simp [edgePoint, Mat.ofRows] at hn; exact hn
    subst hn0
    simp [InGrid, pixelX, pixelY, edgePoint, roi10, zeros10, Mat.zeros, Mat.ofRows, Vec.ofList,
      sizeRatio, toIdx]
    norm_num

theorem erfQ_isErf : IsErf erfQ := by
  have hpos : ∀ x : ℚ, 0 < 1 + |x| := fun x => by positivity
  refine ⟨?_, ?_, ?_⟩
  · intro x
    unfold erfQ
    rw [abs_neg, neg_div]
  · intro x y hxy
    unfold erfQ
    rw [div_lt_div_iff₀ (hpos x) (hpos y)]
    rcases abs_cases x with ⟨hx, hx0⟩ | ⟨hx, hx0⟩ <;>
      rcases abs_cases y with ⟨hy, hy0⟩ | ⟨hy, hy0⟩ <;> rw [hx, hy]
    · nlinarith
    · linarith
    · nlinarith [mul_nonneg (neg_nonneg.mpr hx0.le) hy0]
    · nlinarith
  · intro x
    unfold erfQ
    rw [abs_div, abs_of_pos (hpos x), div_le_one (hpos x)]
    linarith [abs_nonneg x]

theorem midPoint_values :
    pixelX midPoint (roi10 ℚ) (zeros10 ℚ) 0 = 9 / 2 ∧
    pixelY midPoint (roi10 ℚ) (zeros10 ℚ) 0 = 9 / 2 ∧
    pixelSigmaX midPoint (roi10 ℚ) (zeros10 ℚ) 0 = 1 / 5 ∧
    pixelSigmaY midPoint (roi10 ℚ) (zeros10 ℚ) 0 = 1 / 5 ∧
    castIdx (9 / 2 : ℚ) = 4 ∧ halfWidth (5 : ℚ) (1 / 5) = 1 := by
  refine ⟨?_, ?_, ?_, ?_, ?_, ?_⟩
  · simp [pixelX, midPoint, roi10, zeros10, Mat.zeros, Mat.ofRows, Vec.ofList, sizeRatio, toIdx]
    norm_num
  · simp [pixelY, midPoint, roi10, zeros10, Mat.zeros, Mat.ofRows, Vec.ofList, sizeRatio, toIdx]
    norm_num
  · simp [pixelSigmaX, midPoint, roi10, zeros10, Mat.zeros, Mat.ofRows, Vec.ofList, sizeRatio,
      toIdx]
    norm_num
  · simp [pixelSigmaY, midPoint, roi10, zeros10, Mat.zeros, Mat.ofRows, Vec.ofList, sizeRatio,
      toIdx]
    norm_num
  · exact castIdx_eval 4 (by norm_num) (by norm_num) (by norm_num)
  · unfold halfWidth
    exact castIdx_eval 1 (by norm_num) (by norm_num) (by norm_num)

theorem midPoint_unclipped : Unclipped midPoint (roi10 ℚ) (zeros10 ℚ) 5 0 := by
  obtain ⟨hX, hY, hsX, hsY, c, hw⟩ := midPoint_values
  unfold Unclipped
  rw [hX, hY, hsX, hsY, c, hw]
  exact ⟨by decide, (by decide : 4 + 1 < 10), by decide, (by decide : 4 + 1 < 10)⟩

theorem erfQ_values : erfQ (25 / 14) = 25 / 39 ∧ erfQ (-25 / 14) = -25 / 39 := by
  constructor
  · unfold erfQ
    rw [abs_of_pos (by norm_num)]
    norm_num
  · unfold erfQ
    rw [abs_of_neg (by norm_num)]
    norm_num

/-! ## Further facts: boxes, strategy, row selections, the region of interest -/

theorem box_facts_noWrap {pixels p hw : Nat} (hp : p < pixels) (hpix : pixels < 4294967296)
    (hno : p + hw < 4294967296) :
    boxMin p hw ≤ p ∧ boxMin p hw ≤ boxMax pixels p hw ∧ boxMax pixels p hw < pixels ∧
      boxSpan (boxMin p hw) (boxMax pixels p hw)
        = boxMax pixels p hw + 1 - boxMin p hw := by
  have hsub : idxSub pixels 1 = pixels - 1 := idxSub_eq (by omega) (by omega)
  have hmax_lt : boxMax pixels p hw < pixels := by
    unfold boxMax
    rw [hsub]
    exact lt_of_le_of_lt (min_le_left _ _) (by omega)
  have hmin_p : boxMin p hw ≤ p := by
    unfold boxMin
    split_ifs with h
    · exact Nat.zero_le _
    · rw [idxSub_eq (by omega) (by omega)]; exact Nat.sub_le _ _
  have hmin_max : boxMin p hw ≤ boxMax pixels p hw := by
    unfold boxMin boxMax
    rw [hsub, idxAdd_eq hno]
    split_ifs with h
    · exact Nat.zero_le _
    · rw [idxSub_eq (by omega) (by omega)]
      exact le_min (by omega) (by omega)
  refine ⟨hmin_p, hmin_max, hmax_lt, ?_⟩
  unfold boxSpan
  rw [idxSub_eq hmin_max (by omega), idxAdd_eq (by omega)]
  omega

theorem selectsParallel_iff_sqrt (n p : Nat) :
    selectsParallel n p = true ↔ Real.sqrt (p : ℝ) ≤ (n : ℝ) := by
  unfold selectsParallel
  rw [decide_eq_true_eq, Real.sqrt_le_left (Nat.cast_nonneg n)]
  constructor
  · intro h
    rw [sq]; exact_mod_cast h
  · intro h
    rw [sq] at h
    exact_mod_cast h

section MoreFacts
variable {F : Type} [LinearOrderedField F] [FloorRing F]

theorem norm_eq (sqrt2 sigma : F) : normexp sqrt2 / sigma = 1 / (sigma * sqrt2) := by
  unfold normexp
  rw [div_div, mul_comm]

theorem sum_range_getD (g : Nat → F) (l : List Nat) :
    ∑ j ∈ Finset.range l.length, g (l.getD j 0) = (l.map g).sum := by
  induction l with
  | nil => simp
  | cons a l ih =>
    rw [List.length_cons, Finset.sum_range_succ', List.map_cons, List.sum_cons, add_comm]
    congr 1

theorem histAdd_selectRows (points : Mat F) (l : List Nat) (xmin ymin sx sy : F)
    (px py r c j : Nat) (hj : j < l.length) :
    histAdd (points.selectRows l) xmin ymin sx sy px py r c j
      = histAdd points xmin ymin sx sy px py r c (l.getD j 0) := by
  unfold histAdd Mat.selectRows
  simp only [if_pos hj]

theorem histAdd_appendRows_left (A B : Mat F) (xmin ymin sx sy : F)
    (px py r c n : Nat) (hn : n < A.n_rows) :
    histAdd (A.appendRows B) xmin ymin sx sy px py r c n
      = histAdd A xmin ymin sx sy px py r c n := by
  unfold histAdd Mat.appendRows
  simp only [if_pos hn]

theorem histAdd_appendRows_right (A B : Mat F) (xmin ymin sx sy : F)
    (px py r c n : Nat) :
    histAdd (A.appendRows B) xmin ymin sx sy px py r c (A.n_rows + n)
      = histAdd B xmin ymin sx sy px py r c n := by
  unfold histAdd Mat.appendRows
  simp only [if_neg (Nat.not_lt.mpr (Nat.le_add_right _ _)), Nat.add_sub_cancel_left]

theorem renderHistSingle_selectRows (points : Mat F) (roi : Vec F) (im : Mat F)
    (l : List Nat) (hperm : l.Perm (List.range points.n_rows)) :
    renderHistSingle (points.selectRows l) roi im = renderHistSingle points roi im := by
  refine mat_ext_elem ?_ ?_ ?_
  · rw [renderHistSingle_n_rows, renderHistSingle_n_rows]
  · rw [renderHistSingle_n_cols, renderHistSingle_n_cols]
  · intro r c
    rw [renderHistSingle_elem, renderHistSingle_elem]
    congr 1
    have h1 : (points.selectRows l).n_rows = l.length := rfl
    have e2 : ∀ g : Nat → F, ∑ n ∈ Finset.range points.n_rows, g n = (l.map g).sum := by
      intro g
      rw [← sum_map_range]
      exact ((hperm.map g).sum_eq).symm
    rw [h1, e2, ← sum_range_getD]
    apply Finset.sum_congr rfl
    intro j hj
    exact histAdd_selectRows points l _ _ _ _ _ _ r c j (Finset.mem_range.mp hj)

theorem renderHistSingle_appendRows (A B : Mat F) (roi : Vec F) (im : Mat F) :
    renderHistSingle (A.appendRows B) roi im
      = renderHistSingle B roi (renderHistSingle A roi im) := by
  refine mat_ext_elem ?_ ?_ ?_
  · rw [renderHistSingle_n_rows, renderHistSingle_n_rows, renderHistSingle_n_rows]
  · rw [renderHistSingle_n_cols, renderHistSingle_n_cols, renderHistSingle_n_cols]
  · intro r c
    rw [renderHistSingle_elem, renderHistSingle_elem, renderHistSingle_elem,
      renderHistSingle_n_rows, renderHistSingle_n_cols, add_assoc]
    congr 1
    have h1 : (A.appendRows B).n_rows = A.n_rows + B.n_rows := rfl
    rw [h1, Finset.sum_range_add]
    congr 1
    · apply Finset.sum_congr rfl
      intro n hn
      exact histAdd_appendRows_left A B _ _ _ _ _ _ r c n (Finset.mem_range.mp hn)
    · apply Finset.sum_congr rfl
      intro n _
      exact histAdd_appendRows_right A B _ _ _ _ _ _ r c n

theorem mapped_mem {x lo hi : F} {pixels : Nat} (hroi : lo < hi) (hp : 0 < pixels)
    (h0 : lo ≤ x) (h1 : x < hi) :
    0 ≤ (x - lo) * sizeRatio pixels lo hi ∧ (x - lo) * sizeRatio pixels lo hi < (pixels : F) := by
  unfold sizeRatio
  have hd : 0 < hi - lo := by linarith
  have hn : (0 : F) < (pixels : F) := by exact_mod_cast hp
  constructor
  · exact mul_nonneg (by linarith) (div_nonneg hn.le hd.le)
  · rw [← mul_div_assoc, div_lt_iff₀ hd]
    nlinarith

theorem mapped_upper {lo hi : F} (pixels : Nat) (hroi : lo < hi) :
    (hi - lo) * sizeRatio pixels lo hi = (pixels : F) := by
  unfold sizeRatio
  have hd : hi - lo ≠ 0 := by
    have : 0 < hi - lo := by linarith
    exact ne_of_gt this
  field_simp

theorem inRoi_castIdx_lt {points : Mat F} {roi : Vec F} {im : Mat F} {n : Nat}
    (hroiX : roi.elem 0 < roi.elem 1) (hroiY : roi.elem 2 < roi.elem 3)
    (hc0 : 0 < im.n_cols) (hc : im.n_cols < 4294967296)
    (hr0 : 0 < im.n_rows) (hr : im.n_rows < 4294967296) (h : InRoi points roi n) :
    castIdx (pixelX points roi im n) < im.n_cols ∧
      castIdx (pixelY points roi im n) < im.n_rows := by
  unfold pixelX pixelY
  rw [toIdx_natCast hc, toIdx_natCast hr]
  obtain ⟨a0, a1⟩ := mapped_mem hroiX hc0 h.1 h.2.1
  obtain ⟨b0, b1⟩ := mapped_mem hroiY hr0 h.2.2.1 h.2.2.2
  exact ⟨castIdx_lt_of_inGrid hc a0 a1, castIdx_lt_of_inGrid hr b0 b1⟩

theorem histAddOf_eq (points : Mat F) (roi : Vec F) (im : Mat F) (r c n : Nat)
    (hc : im.n_cols < 4294967296) (hr : im.n_rows < 4294967296) :
    histAddOf points roi im r c n
      = if castIdx (pixelX points roi im n) = c ∧ castIdx (pixelY points roi im n) = r ∧
          c < im.n_cols ∧ r < im.n_rows then points.elem n 0 else 0 := by
  unfold histAddOf histAdd pixelX pixelY
  rw [toIdx_natCast hc, toIdx_natCast hr]

theorem histAddOf_total (points : Mat F) (roi : Vec F) (im : Mat F) (n : Nat)
    (hc : im.n_cols < 4294967296) (hr : im.n_rows < 4294967296)
    (hx : castIdx (pixelX points roi im n) < im.n_cols)
    (hy : castIdx (pixelY points roi im n) < im.n_rows) :
    ∑ r ∈ Finset.range im.n_rows, ∑ c ∈ Finset.range im.n_cols, histAddOf points roi im r c n
      = points.elem n 0 := by
  rw [Finset.sum_eq_single (castIdx (pixelY points roi im n))]
  · rw [Finset.sum_eq_single (castIdx (pixelX points roi im n))]
    · rw [histAddOf_eq _ _ _ _ _ _ hc hr, if_pos ⟨rfl, rfl, hx, hy⟩]
    · intro c _ hne
      rw [histAddOf_eq _ _ _ _ _ _ hc hr, if_neg (fun h => hne h.1.symm)]
    · intro h
      exact absurd (Finset.mem_range.mpr hx) h
  · intro r _ hne
    apply Finset.sum_eq_zero
    intro c _
    rw [histAddOf_eq _ _ _ _ _ _ hc hr, if_neg (fun h => hne h.2.1.symm)]
  · intro h
    exact absurd (Finset.mem_range.mpr hy) h

theorem renderHistSingle_accu (points : Mat F) (roi : Vec F) (im : Mat F)
    (hc : im.n_cols < 4294967296) (hr : im.n_rows < 4294967296)
    (h : ∀ n, n < points.n_rows → castIdx (pixelX points roi im n) < im.n_cols ∧
      castIdx (pixelY points roi im n) < im.n_rows) :
    (renderHistSingle points roi im).accu
      = im.accu + ∑ n ∈ Finset.range points.n_rows, points.elem n 0 := by
  unfold Mat.accu
  rw [renderHistSingle_n_rows, renderHistSingle_n_cols]
  simp only [renderHistSingle_elem, Finset.sum_add_distrib]
  congr 1
  have h1 : ∀ r ∈ Finset.range im.n_rows,
      ∑ c ∈ Finset.range im.n_cols, ∑ n ∈ Finset.range points.n_rows,
          histAddOf points roi im r c n
        = ∑ n ∈ Finset.range points.n_rows, ∑ c ∈ Finset.range im.n_cols,
          histAddOf points roi im r c n :=
    fun r _ => Finset.sum_comm
  show ∑ r ∈ Finset.range im.n_rows, ∑ c ∈ Finset.range im.n_cols,
    ∑ n ∈ Finset.range points.n_rows, histAddOf points roi im r c n = _
  rw [Finset.sum_congr rfl h1, Finset.sum_comm]
  apply Finset.sum_congr rfl
  intro n hn
  have hn1 := h n (Finset.mem_range.mp hn)
  exact histAddOf_total points roi im n hc hr hn1.1 hn1.2

theorem histAddOf_upper (points : Mat F) (roi : Vec F) (im : Mat F) (r c n : Nat)
    (hroiX : roi.elem 0 < roi.elem 1) (hroiY : roi.elem 2 < roi.elem 3)
    (hc : im.n_cols < 4294967296) (hr : im.n_rows < 4294967296) :
    (points.elem n 1 = roi.elem 1 → castIdx (pixelX points roi im n) = im.n_cols) ∧
    (points.elem n 2 = roi.elem 3 → castIdx (pixelY points roi im n) = im.n_rows) ∧
    (points.elem n 1 = roi.elem 1 ∨ points.elem n 2 = roi.elem 3 →
      histAddOf points roi im r c n = 0) := by
  have hX : points.elem n 1 = roi.elem 1 → castIdx (pixelX points roi im n) = im.n_cols := by
    intro h
    unfold pixelX
    rw [h, toIdx_natCast hc, mapped_upper _ hroiX]
    exact castIdx_eval _ hc le_rfl (by linarith)
  have hY : points.elem n 2 = roi.elem 3 → castIdx (pixelY points roi im n) = im.n_rows := by
    intro h
    unfold pixelY
    rw [h, toIdx_natCast hr, mapped_upper _ hroiY]
    exact castIdx_eval _ hr le_rfl (by linarith)
  refine ⟨hX, hY, ?_⟩
  intro h
  rw [histAddOf_eq _ _ _ _ _ _ hc hr, if_neg]
  rintro ⟨h1, h2, h3, h4⟩
  rcases h with h | h
  · have := hX h; omega
  · have := hY h; omega

end MoreFacts

/-! ## The movie renderers as sums over the points -/

section MovieFacts
variable {F : Type} [LinearOrderedField F] [FloorRing F]

theorem cube_ext_elem {a b : Cube F} (h1 : a.n_rows = b.n_rows) (h2 : a.n_cols = b.n_cols)
    (h3 : a.n_slices = b.n_slices) (h4 : ∀ r c f, a.elem r c f = b.elem r c f) : a = b := by
  cases a; cases b
  simp only [Cube.mk.injEq]
  exact ⟨h1, h2, h3, funext fun r => funext fun c => funext fun f => h4 r c f⟩

/-- A loop whose every step adds `g a` to the stack adds the sum over the list. -/
theorem foldlM_cube_add {σ α : Type} (cube : σ → Cube F) (Inv : σ → Prop)
    (step : σ → α → Option σ) (g : α → Nat → Nat → Nat → F) (l : List α)
    (hstep : ∀ s a, Inv s → a ∈ l → ∃ s1, step s a = some s1 ∧ Inv s1 ∧
      ∀ r c f, (cube s1).elem r c f = (cube s).elem r c f + g a r c f) :
    ∀ s, Inv s → ∃ s1, l.foldlM step s = some s1 ∧ Inv s1 ∧
      ∀ r c f, (cube s1).elem r c f = (cube s).elem r c f + (l.map (fun a => g a r c f)).sum := by
  induction l with
  | nil =>
    intro s hs
    exact ⟨s, rfl, hs, fun r c f => by simp⟩
  | cons a l ih =>
    intro s hs
    obtain ⟨s1, h1, h2, h3⟩ := hstep s a hs (List.mem_cons_self a l)
    obtain ⟨s2, h4, h5, h6⟩ := ih (fun s b hs hb => hstep s b hs (List.mem_cons_of_mem a hb)) s1 h2
    refine ⟨s2, ?_, h5, ?_⟩
    · rw [List.foldlM_cons, h1]
      exact h4
    · intro r c f
      rw [h6, h3, List.map_cons, List.sum_cons, add_assoc]

theorem histMoviePoint_add (points : Mat F) (xmin ymin sx sy : F) (px py T tid : Nat)
    (im : Cube F) (n : Nat) (hpx : px ≤ im.n_cols) (hpy : py ≤ im.n_rows)
    (hf : movieFrame points n < im.n_slices) :
    ∃ im1, histMoviePoint points xmin ymin sx sy px py T tid im n = some im1 ∧
      (im1.n_rows = im.n_rows ∧ im1.n_cols = im.n_cols ∧ im1.n_slices = im.n_slices) ∧
      ∀ r c f, im1.elem r c f = im.elem r c f +
        if movieFrame points n % T = tid ∧ f = movieFrame points n then
          histAdd points xmin ymin sx sy px py r c n else 0 := by
  unfold histMoviePoint movieSkips
  simp only []
  by_cases hs : movieFrame points n % T = tid
  · have hb : (movieFrame points n % T != tid) = false := by simp [hs]
    rw [hb]
    simp only [Bool.false_eq_true, if_false]
    by_cases hg : 0 ≤ castIdx ((points.elem n 1 - xmin) * sx) ∧
        castIdx ((points.elem n 1 - xmin) * sx) < px ∧
        0 ≤ castIdx ((points.elem n 2 - ymin) * sy) ∧ castIdx ((points.elem n 2 - ymin) * sy) < py
    · rw [if_pos hg]
      unfold Cube.addAt?
      rw [if_pos ⟨by omega, by omega, hf⟩]
      refine ⟨_, rfl, ⟨rfl, rfl, rfl⟩, ?_⟩
      intro r c f
      unfold histAdd
      simp only []
      by_cases h1 : r = castIdx ((points.elem n 2 - ymin) * sy) ∧
          c = castIdx ((points.elem n 1 - xmin) * sx) ∧ f = movieFrame points n
      · obtain ⟨e1, e2, e3⟩ := h1
        rw [if_pos ⟨e1, e2, e3⟩, if_pos ⟨hs, e3⟩, if_pos ⟨e2.symm, e1.symm, e2 ▸ hg.2.1, e1 ▸ hg.2.2.2⟩]
      · rw [if_neg h1]
        by_cases h2 : f = movieFrame points n
        · rw [if_pos ⟨hs, h2⟩, if_neg, add_zero]
          rintro ⟨e2, e1, -, -⟩
          exact h1 ⟨e1.symm, e2.symm, h2⟩
        · rw [if_neg (fun h => h2 h.2), add_zero]
    · rw [if_neg hg]
      refine ⟨_, rfl, ⟨rfl, rfl, rfl⟩, ?_⟩
      intro r c f
      by_cases h2 : movieFrame points n % T = tid ∧ f = movieFrame points n
      · rw [if_pos h2]
        unfold histAdd
        rw [if_neg, add_zero]
        rintro ⟨e2, e1, e3, e4⟩
        exact hg ⟨Nat.zero_le _, e2 ▸ e3, Nat.zero_le _, e1 ▸ e4⟩
      · rw [if_neg h2, add_zero]
  · have hb : (movieFrame points n % T != tid) = true := by simp [hs]
    rw [hb]
    simp only [if_true]
    refine ⟨_, rfl, ⟨rfl, rfl, rfl⟩, ?_⟩
    intro r c f
    rw [if_neg (fun h => hs h.1), add_zero]

theorem histMovieThread_add (points : Mat F) (xmin ymin sx sy : F) (px py T N R C S : Nat)
    (im : Cube F) (tid : Nat) (hd : im.n_rows = R ∧ im.n_cols = C ∧ im.n_slices = S)
    (hpx : px ≤ C) (hpy : py ≤ R) (hf : ∀ n, n < N → movieFrame points n < S) :
    ∃ im1, histMovieThread points xmin ymin sx sy px py T N im tid = some im1 ∧
      (im1.n_rows = R ∧ im1.n_cols = C ∧ im1.n_slices = S) ∧
      ∀ r c f, im1.elem r c f = im.elem r c f + ∑ n ∈ Finset.range N,
        if movieFrame points n % T = tid ∧ f = movieFrame points n then
          histAdd points xmin ymin sx sy px py r c n else 0 := by
  unfold histMovieThread
  obtain ⟨im1, h1, h2, h3⟩ := foldlM_cube_add (fun s : Cube F => s)
    (fun s => s.n_rows = R ∧ s.n_cols = C ∧ s.n_slices = S)
    (histMoviePoint points xmin ymin sx sy px py T tid)
    (fun n r c f => if movieFrame points n % T = tid ∧ f = movieFrame points n then
          histAdd points xmin ymin sx sy px py r c n else 0) (List.range N)
    (by
      intro s n hs hn
      obtain ⟨s1, e1, e2, e3⟩ := histMoviePoint_add points xmin ymin sx sy px py T tid s n
        (by rw [hs.2.1]; exact hpx) (by rw [hs.1]; exact hpy)
        (by rw [hs.2.2]; exact hf n (List.mem_range.mp hn))
      exact ⟨s1, e1, ⟨by rw [e2.1, hs.1], by rw [e2.2.1, hs.2.1], by rw [e2.2.2, hs.2.2]⟩, e3⟩)
    im hd
  refine ⟨im1, h1, h2, ?_⟩
  intro r c f
  rw [h3, sum_map_range]

theorem sum_frames (T N : Nat) (hT : 0 < T) (frame : Nat → Nat) (f : Nat) (h : Nat → F) :
    ∑ tid ∈ Finset.range T, ∑ n ∈ Finset.range N,
        (if frame n % T = tid ∧ f = frame n then h n else 0)
      = ∑ n ∈ Finset.range N, if f = frame n then h n else 0 := by
  rw [← sum_owner (fun n => if f = frame n then h n else 0) (fun n => frame n % T) T N
    (fun n _ => Nat.mod_lt _ hT)]
  apply Finset.sum_congr rfl
  intro tid _
  apply Finset.sum_congr rfl
  intro n _
  by_cases h1 : frame n % T = tid <;> by_cases h2 : f = frame n <;> simp [h1, h2]

theorem renderHistMovie_eq (T : Nat) (hT : 1 ≤ T) (points : Mat F) (roi : Vec F)
    (im : Cube F) (hc : im.n_cols < 4294967296) (hr : im.n_rows < 4294967296)
    (hf : ∀ n, n < points.n_rows → movieFrame points n < im.n_slices) :
    renderHistMovie T points roi im
      = some ⟨im.n_rows, im.n_cols, im.n_slices, fun r c f => im.elem r c f +
          ∑ n ∈ Finset.range points.n_rows,
            if f = movieFrame points n then
              histAdd points (roi.elem 0) (roi.elem 2)
                (sizeRatio (toIdx im.n_cols) (roi.elem 0) (roi.elem 1))
                (sizeRatio (toIdx im.n_rows) (roi.elem 2) (roi.elem 3))
                (toIdx im.n_cols) (toIdx im.n_rows) r c n
            else 0⟩ := by
  have hci : toIdx (im.n_cols : Int) = im.n_cols := toIdx_natCast hc
  have hri : toIdx (im.n_rows : Int) = im.n_rows := toIdx_natCast hr
  unfold renderHistMovie
  simp only []
  obtain ⟨im1, h1, h2, h3⟩ := foldlM_cube_add (fun s : Cube F => s)
    (fun s => s.n_rows = im.n_rows ∧ s.n_cols = im.n_cols ∧ s.n_slices = im.n_slices)
    (histMovieThread points (roi.elem 0) (roi.elem 2)
      (sizeRatio (toIdx im.n_cols) (roi.elem 0) (roi.elem 1))
      (sizeRatio (toIdx im.n_rows) (roi.elem 2) (roi.elem 3))
      (toIdx im.n_cols) (toIdx im.n_rows) T points.n_rows)
    (fun tid r c f => ∑ n ∈ Finset.range points.n_rows,
        if movieFrame points n % T = tid ∧ f = movieFrame points n then
          histAdd points (roi.elem 0) (roi.elem 2)
            (sizeRatio (toIdx im.n_cols) (roi.elem 0) (roi.elem 1))
            (sizeRatio (toIdx im.n_rows) (roi.elem 2) (roi.elem 3))
            (toIdx im.n_cols) (toIdx im.n_rows) r c n else 0) (List.range T)
    (by
      intro s tid hs _
      exact histMovieThread_add points _ _ _ _ _ _ T points.n_rows im.n_rows im.n_cols
        im.n_slices s tid hs (by rw [hci]) (by rw [hri]) hf)
    im ⟨rfl, rfl, rfl⟩
  rw [h1]
  refine congrArg some (cube_ext_elem h2.1 h2.2.1 h2.2.2 ?_)
  intro r c f
  rw [h3, sum_map_range]
  simp only []
  rw [sum_frames T points.n_rows (by omega)]

theorem gaussMoviePoint_add (erf : F → F) (sqrt2 : F) (points : Mat F)
    (imageXmin imageYmin sizeRatioX sizeRatioY sigmaAccuracy : F)
    (pixelsX pixelsY T tid S : Nat) (st : MovieState F) (n : Nat)
    (hpx : pixelsX ≤ 2147483648) (hpy : pixelsY ≤ 2147483648)
    (hxp : castIdx ((points.elem n 1 - imageXmin) * sizeRatioX) < pixelsX)
    (hyp : castIdx ((points.elem n 2 - imageYmin) * sizeRatioY) < pixelsY)
    (hd : st.im.n_rows = pixelsY ∧ st.im.n_cols = pixelsX ∧ st.im.n_slices = S ∧
      st.xStencil.n_elem = pixelsX ∧ st.yStencil.n_elem = pixelsY)
    (hf : movieFrame points n < S) :
    ∃ st1, gaussMoviePoint erf sqrt2 points imageXmin imageYmin sizeRatioX sizeRatioY
        sigmaAccuracy pixelsX pixelsY T tid st n = some st1 ∧
      (st1.im.n_rows = pixelsY ∧ st1.im.n_cols = pixelsX ∧ st1.im.n_slices = S ∧
        st1.xStencil.n_elem = pixelsX ∧ st1.yStencil.n_elem = pixelsY) ∧
      ∀ r c f, st1.im.elem r c f = st.im.elem r c f +
        if movieFrame points n % T = tid ∧ f = movieFrame points n then
          gaussAdd erf sqrt2 points imageXmin imageYmin sizeRatioX sizeRatioY sigmaAccuracy
            pixelsX pixelsY r c n else 0 := by
  by_cases hs : movieFrame points n % T = tid
  · have hb : movieSkips T tid (movieFrame points n) = false := by
      unfold movieSkips; simp [hs]
    obtain ⟨xS, yS, h1, h2, h3⟩ := gaussPoint_eq erf sqrt2 points imageXmin imageYmin
      sizeRatioX sizeRatioY sigmaAccuracy pixelsX pixelsY
      ⟨st.im.slice (movieFrame points n), st.xStencil, st.yStencil⟩ n hpx hpy hxp hyp
      hd.2.1 hd.1 hd.2.2.2.1 hd.2.2.2.2
    have e : gaussMoviePoint erf sqrt2 points imageXmin imageYmin sizeRatioX sizeRatioY
        sigmaAccuracy pixelsX pixelsY T tid st n
        = (gaussPoint erf sqrt2 points imageXmin imageYmin sizeRatioX sizeRatioY
            sigmaAccuracy pixelsX pixelsY
            ⟨st.im.slice (movieFrame points n), st.xStencil, st.yStencil⟩ n).map
          (fun s => ⟨st.im.setSlice (movieFrame points n) s.im, s.xStencil, s.yStencil⟩) := by
      have hfr : movieFrame points n < st.im.n_slices := by rw [hd.2.2.1]; exact hf
      unfold gaussMoviePoint Cube.frame Cube.setFrame
      simp only [hb, Bool.false_eq_true, if_false, if_pos hfr]
      rfl
    rw [e, h1]
    refine ⟨_, rfl, ⟨hd.1, hd.2.1, hd.2.2.1, h2, h3⟩, ?_⟩
    intro r c f
    show (if f = movieFrame points n then _ else _) = _
    by_cases h4 : f = movieFrame points n
    · rw [if_pos h4, if_pos ⟨hs, h4⟩, h4]
      rfl
    · rw [if_neg h4, if_neg (fun h => h4 h.2), add_zero]
  · have hb : movieSkips T tid (movieFrame points n) = true := by
      unfold movieSkips; simp [hs]
    refine ⟨st, ?_, hd, ?_⟩
    · unfold gaussMoviePoint
      simp only [hb, if_true]
    · intro r c f
      rw [if_neg (fun h => hs h.1), add_zero]

theorem gaussMovieThread_add (erf : F → F) (sqrt2 : F) (points : Mat F)
    (imageXmin imageYmin sizeRatioX sizeRatioY sigmaAccuracy : F)
    (pixelsX pixelsY T N S : Nat) (im : Cube F) (tid : Nat)
    (hpx : pixelsX ≤ 2147483648) (hpy : pixelsY ≤ 2147483648)
    (hgood : ∀ n, n < N → castIdx ((points.elem n 1 - imageXmin) * sizeRatioX) < pixelsX ∧
      castIdx ((points.elem n 2 - imageYmin) * sizeRatioY) < pixelsY)
    (hd : im.n_rows = pixelsY ∧ im.n_cols = pixelsX ∧ im.n_slices = S)
    (hf : ∀ n, n < N → movieFrame points n < S) :
    ∃ im1, gaussMovieThread erf sqrt2 points imageXmin imageYmin sizeRatioX sizeRatioY
        sigmaAccuracy pixelsX pixelsY T N im tid = some im1 ∧
      (im1.n_rows = pixelsY ∧ im1.n_cols = pixelsX ∧ im1.n_slices = S) ∧
      ∀ r c f, im1.elem r c f = im.elem r c f + ∑ n ∈ Finset.range N,
        if movieFrame points n % T = tid ∧ f = movieFrame points n then
          gaussAdd erf sqrt2 points imageXmin imageYmin sizeRatioX sizeRatioY sigmaAccuracy
            pixelsX pixelsY r c n else 0 := by
  unfold gaussMovieThread
  obtain ⟨st1, h1, h2, h3⟩ := foldlM_cube_add (fun s : MovieState F => s.im)
    (fun s => s.im.n_rows = pixelsY ∧ s.im.n_cols = pixelsX ∧ s.im.n_slices = S ∧
      s.xStencil.n_elem = pixelsX ∧ s.yStencil.n_elem = pixelsY)
    (gaussMoviePoint erf sqrt2 points imageXmin imageYmin sizeRatioX sizeRatioY
      sigmaAccuracy pixelsX pixelsY T tid)
    (fun n r c f => if movieFrame points n % T = tid ∧ f = movieFrame points n then
          gaussAdd erf sqrt2 points imageXmin imageYmin sizeRatioX sizeRatioY sigmaAccuracy
            pixelsX pixelsY r c n else 0) (List.range N)
    (by
      intro s n hs hn
      have hn1 := List.mem_range.mp hn
      exact gaussMoviePoint_add erf sqrt2 points imageXmin imageYmin sizeRatioX sizeRatioY
        sigmaAccuracy pixelsX pixelsY T tid S s n hpx hpy (hgood n hn1).1 (hgood n hn1).2 hs
        (hf n hn1))
    ⟨im, scratch pixelsX, scratch pixelsY⟩ ⟨hd.1, hd.2.1, hd.2.2, rfl, rfl⟩
  rw [h1]
  refine ⟨st1.im, rfl, ⟨h2.1, h2.2.1, h2.2.2.1⟩, ?_⟩
  intro r c f
  rw [h3, sum_map_range]

theorem renderGaussMovie_eq (erf : F → F) (sqrt2 : F) (T : Nat) (hT : 1 ≤ T)
    (points : Mat F) (roi : Vec F) (im : Cube F) (sigmaAccuracy : F)
    (hc : im.n_cols ≤ 2147483648) (hr : im.n_rows ≤ 2147483648)
    (hN : points.n_rows < 4294967296)
    (hgood : ∀ n, n < points.n_rows → InGrid points roi (im.slice 0) n)
    (hf : ∀ n, n < points.n_rows → movieFrame points n < im.n_slices) :
    renderGaussMovie erf sqrt2 T points roi im sigmaAccuracy
      = some ⟨im.n_rows, im.n_cols, im.n_slices, fun r c f => im.elem r c f +
          ∑ n ∈ Finset.range points.n_rows,
            if f = movieFrame points n then
              gaussAddOf erf sqrt2 points roi (im.slice 0) sigmaAccuracy r c n
            else 0⟩ := by
  have hci : toIdx (im.n_cols : Int) = im.n_cols := toIdx_natCast (by omega)
  have hri : toIdx (im.n_rows : Int) = im.n_rows := toIdx_natCast (by omega)
  have hni : toIdx (points.n_rows : Int) = points.n_rows := toIdx_natCast hN
  unfold renderGaussMovie
  simp only []
  obtain ⟨im1, h1, h2, h3⟩ := foldlM_cube_add (fun s : Cube F => s)
    (fun s => s.n_rows = toIdx im.n_rows ∧ s.n_cols = toIdx im.n_cols
      ∧ s.n_slices = im.n_slices)
    (gaussMovieThread erf sqrt2 points (roi.elem 0) (roi.elem 2)
      (sizeRatio (toIdx im.n_cols) (roi.elem 0) (roi.elem 1))
      (sizeRatio (toIdx im.n_rows) (roi.elem 2) (roi.elem 3)) sigmaAccuracy
      (toIdx im.n_cols) (toIdx im.n_rows) T (toIdx points.n_rows))
    (fun tid r c f => ∑ n ∈ Finset.range (toIdx points.n_rows),
        if movieFrame points n % T = tid ∧ f = movieFrame points n then
          gaussAdd erf sqrt2 points (roi.elem 0) (roi.elem 2)
            (sizeRatio (toIdx im.n_cols) (roi.elem 0) (roi.elem 1))
            (sizeRatio (toIdx im.n_rows) (roi.elem 2) (roi.elem 3)) sigmaAccuracy
            (toIdx im.n_cols) (toIdx im.n_rows) r c n else 0) (List.range T)
    (by
      intro s tid hs _
      exact gaussMovieThread_add erf sqrt2 points _ _ _ _ sigmaAccuracy _ _ T _ im.n_slices
        s tid (by rw [hci]; exact hc) (by rw [hri]; exact hr)
        (by
          intro n hn
          rw [hni] at hn
          have hg := hgood n hn
          unfold InGrid pixelX pixelY at hg
          simp only [Cube.slice] at hg
          rw [hci, hri] at hg ⊢
          exact ⟨castIdx_lt_of_inGrid (by omega) hg.1 hg.2.1,
            castIdx_lt_of_inGrid (by omega) hg.2.2.1 hg.2.2.2⟩)
        hs (by intro n hn; rw [hni] at hn; exact hf n hn))
    im ⟨hri.symm, hci.symm, rfl⟩
  rw [h1]
  refine congrArg some (cube_ext_elem (by rw [h2.1, hri]) (by rw [h2.2.1, hci]) h2.2.2 ?_)
  intro r c f
  rw [h3, sum_map_range]
  simp only []
  rw [sum_frames T _ (by omega), hni]
  rfl

theorem foldlM_cube_unchanged {σ α : Type} (cube : σ → Cube F) (step : σ → α → Option σ)
    (l : List α) (r c f : Nat)
    (hstep : ∀ s a s1, step s a = some s1 → (cube s1).elem r c f = (cube s).elem r c f) :
    ∀ s s1, l.foldlM step s = some s1 → (cube s1).elem r c f = (cube s).elem r c f := by
  induction l with
  | nil =>
    intro s s1 h
    simp only [List.foldlM_nil, pure, Option.some.injEq] at h
    rw [h]
  | cons a l ih =>
    intro s s1 h
    rw [List.foldlM_cons] at h
    cases h2 : step s a with
    | none => rw [h2] at h; exact absurd h (by simp)
    | some s2 =>
      rw [h2] at h
      rw [ih s2 s1 h, hstep s a s2 h2]

theorem movieSkips_false_iff (T tid frame : Nat) :
    movieSkips T tid frame = false ↔ frame % T = tid := by
  unfold movieSkips
  simp

theorem histMoviePoint_unchanged (points : Mat F) (xmin ymin sx sy : F) (px py T tid : Nat)
    (im im1 : Cube F) (n r c f : Nat) (hf : f % T ≠ tid)
    (h : histMoviePoint points xmin ymin sx sy px py T tid im n = some im1) :
    im1.elem r c f = im.elem r c f := by
  unfold histMoviePoint at h
  simp only [] at h
  by_cases hs : movieSkips T tid (movieFrame points n) = true
  · rw [if_pos hs] at h
    simp only [Option.some.injEq] at h
    rw [← h]
  · rw [if_neg hs] at h
    have hfr : movieFrame points n % T = tid :=
      (movieSkips_false_iff _ _ _).mp (by simpa using hs)
    split_ifs at h with hg
    · unfold Cube.addAt? at h
      split_ifs at h with hb
      simp only [Option.some.injEq] at h
      rw [← h]
      simp only []
      rw [if_neg]
      rintro ⟨-, -, e⟩
      rw [e] at hf
      exact hf hfr
    · simp only [Option.some.injEq] at h
      rw [← h]

theorem gaussMoviePoint_unchanged (erf : F → F) (sqrt2 : F) (points : Mat F)
    (imageXmin imageYmin sizeRatioX sizeRatioY sigmaAccuracy : F)
    (pixelsX pixelsY T tid : Nat) (st st1 : MovieState F) (n r c f : Nat) (hf : f % T ≠ tid)
    (h : gaussMoviePoint erf sqrt2 points imageXmin imageYmin sizeRatioX sizeRatioY
      sigmaAccuracy pixelsX pixelsY T tid st n = some st1) :
    st1.im.elem r c f = st.im.elem r c f := by
  unfold gaussMoviePoint at h
  simp only [] at h
  by_cases hs : movieSkips T tid (movieFrame points n) = true
  · rw [if_pos hs] at h
    simp only [Option.some.injEq] at h
    rw [← h]
  · rw [if_neg hs] at h
    have hfr : movieFrame points n % T = tid :=
      (movieSkips_false_iff _ _ _).mp (by simpa using hs)
    have hne : f ≠ movieFrame points n := by
      intro e
      rw [e] at hf
      exact hf hfr
    rw [Option.map_eq_some'] at h
    obtain ⟨s, -, e⟩ := h
    rw [← e]
    unfold Cube.setFrame
    split_ifs with h1
    · show (if f = movieFrame points n then _ else _) = _
      rw [if_neg hne]
    · rfl

theorem getD_mem_of_lt (l : List Nat) (j : Nat) (hj : j < l.length) : l.getD j 0 ∈ l := by
  rw [List.getD_eq_getElem l 0 hj]
  exact List.getElem_mem hj

theorem sum_framePoints (points : Mat F) (f : Nat) (g : Nat → F) :
    ((framePoints points f).map g).sum
      = ∑ n ∈ Finset.range points.n_rows, if f = movieFrame points n then g n else 0 := by
  unfold framePoints
  rw [sum_map_filter_range]
  apply Finset.sum_congr rfl
  intro n _
  by_cases h : f = movieFrame points n
  · rw [if_pos h, if_pos (by simp [h])]
  · rw [if_neg h, if_neg (by simpa using fun e : movieFrame points n = f => h e.symm)]

theorem framePoints_lt (points : Mat F) (f n : Nat) (h : n ∈ framePoints points f) :
    n < points.n_rows := by
  unfold framePoints at h
  exact List.mem_range.mp (List.mem_filter.mp h).1

theorem framePoints_length_le (points : Mat F) (f : Nat) :
    (framePoints points f).length ≤ points.n_rows := by
  unfold framePoints
  exact le_trans (List.length_filter_le _ _) (by rw [List.length_range])

theorem renderHistMovie_slice (T : Nat) (hT : 1 ≤ T) (points : Mat F) (roi : Vec F)
    (im : Cube F) (hc : im.n_cols < 4294967296) (hr : im.n_rows < 4294967296)
    (hf : ∀ n, n < points.n_rows → movieFrame points n < im.n_slices) :
    ∃ out : Cube F, renderHistMovie T points roi im = some out ∧
      (out.n_rows = im.n_rows ∧ out.n_cols = im.n_cols ∧ out.n_slices = im.n_slices) ∧
      ∀ f, out.slice f
        = renderHistSingle (points.selectRows (framePoints points f)) roi (im.slice f) := by
  refine ⟨_, renderHistMovie_eq T hT points roi im hc hr hf, ⟨rfl, rfl, rfl⟩, ?_⟩
  intro f
  refine mat_ext_elem ?_ ?_ ?_
  · rw [renderHistSingle_n_rows]; rfl
  · rw [renderHistSingle_n_cols]; rfl
  · intro r c
    rw [renderHistSingle_elem]
    show im.elem r c f + _ = im.elem r c f + _
    congr 1
    have h1 : (points.selectRows (framePoints points f)).n_rows
        = (framePoints points f).length := rfl
    rw [h1, ← sum_framePoints, ← sum_range_getD]
    apply Finset.sum_congr rfl
    intro j hj
    exact (histAdd_selectRows points _ _ _ _ _ _ _ r c j (Finset.mem_range.mp hj)).symm

theorem gaussAddOf_selectRows (erf : F → F) (sqrt2 : F) (points : Mat F) (l : List Nat)
    (roi : Vec F) (im im2 : Mat F) (sigmaAccuracy : F) (r c j : Nat) (hj : j < l.length)
    (h1 : im.n_rows = im2.n_rows) (h2 : im.n_cols = im2.n_cols) :
    gaussAddOf erf sqrt2 (points.selectRows l) roi im sigmaAccuracy r c j
      = gaussAddOf erf sqrt2 points roi im2 sigmaAccuracy r c (l.getD j 0) := by
  unfold gaussAddOf gaussAdd Mat.selectRows
  simp only [if_pos hj, h1, h2]

theorem inGrid_selectRows (points : Mat F) (l : List Nat) (roi : Vec F) (im im2 : Mat F)
    (j : Nat) (hj : j < l.length) (h1 : im.n_rows = im2.n_rows) (h2 : im.n_cols = im2.n_cols)
    (h : InGrid points roi im2 (l.getD j 0)) : InGrid (points.selectRows l) roi im j := by
  unfold InGrid pixelX pixelY Mat.selectRows at *
  simp only [if_pos hj, h1, h2]
  exact h

theorem histMovieThread_unchanged (points : Mat F) (xmin ymin sx sy : F)
    (px py T N tid : Nat) (im im1 : Cube F)
    (h : histMovieThread points xmin ymin sx sy px py T N im tid = some im1)
    (r c f : Nat) (hf : f % T ≠ tid) : im1.elem r c f = im.elem r c f := by
  unfold histMovieThread at h
  exact foldlM_cube_unchanged (fun s : Cube F => s) _ _ r c f
    (fun s a s1 hs => histMoviePoint_unchanged points xmin ymin sx sy px py T tid s s1 a
      r c f hf hs) im im1 h

theorem gaussMovieThread_unchanged (erf : F → F) (sqrt2 : F) (points : Mat F)
    (xmin ymin sx sy sigmaAccuracy : F) (px py T N tid : Nat) (im im1 : Cube F)
    (h : gaussMovieThread erf sqrt2 points xmin ymin sx sy sigmaAccuracy px py T N im tid
      = some im1)
    (r c f : Nat) (hf : f % T ≠ tid) : im1.elem r c f = im.elem r c f := by
  unfold gaussMovieThread at h
  rw [Option.map_eq_some'] at h
  obtain ⟨s, h1, e⟩ := h
  rw [← e]
  exact foldlM_cube_unchanged (fun s : MovieState F => s.im) _ _ r c f
    (fun s a s1 hs => gaussMoviePoint_unchanged erf sqrt2 points xmin ymin sx sy
      sigmaAccuracy px py T tid s s1 a r c f hf hs) _ s h1

theorem histMoviePoint_worker (points : Mat F) (xmin ymin sx sy : F) (px py T tid : Nat)
    (im : Cube F) (n : Nat) :
    histMoviePoint points xmin ymin sx sy px py T tid im n
      = if movieFrame points n % T = tid then
          histMoviePoint points xmin ymin sx sy px py 1 0 im n
        else some im := by
  unfold histMoviePoint movieSkips
  simp only [Nat.mod_one]
  by_cases h : movieFrame points n % T = tid
  · simp [h]
  · simp [h]

theorem gaussMoviePoint_worker (erf : F → F) (sqrt2 : F) (points : Mat F)
    (xmin ymin sx sy sigmaAccuracy : F) (px py T tid : Nat) (st : MovieState F) (n : Nat) :
    gaussMoviePoint erf sqrt2 points xmin ymin sx sy sigmaAccuracy px py T tid st n
      = if movieFrame points n % T = tid then
          gaussMoviePoint erf sqrt2 points xmin ymin sx sy sigmaAccuracy px py 1 0 st n
        else some st := by
  unfold gaussMoviePoint movieSkips
  simp only [Nat.mod_one]
  by_cases h : movieFrame points n % T = tid
  · simp [h]
  · simp [h]

end MovieFacts

theorem moviePoints_frames :
    movieFrame moviePoints 0 = 0 ∧ movieFrame moviePoints 1 = 1 ∧
      movieFrame moviePoints 2 = 0 := by
  have e0 : moviePoints.elem 0 5 = 0 := by simp [moviePoints, Mat.ofRows]
  have e1 : moviePoints.elem 1 5 = 1 := by simp [moviePoints, Mat.ofRows]
  have e2 : moviePoints.elem 2 5 = 0 := by simp [moviePoints, Mat.ofRows]
  unfold movieFrame
  rw [e0, e1, e2]
  exact ⟨castIdx_eval 0 (by norm_num) (by norm_num) (by norm_num),
    castIdx_eval 1 (by norm_num) (by norm_num) (by norm_num),
    castIdx_eval 0 (by norm_num) (by norm_num) (by norm_num)⟩

theorem moviePoints_frame_lt :
    ∀ n, n < moviePoints.n_rows → movieFrame moviePoints n < sevensStack.n_slices := by
  intro n hn
  obtain ⟨f0, f1, f2⟩ := moviePoints_frames
  have hn0 : n = 0 ∨ n = 1 ∨ n = 2 := by simp [moviePoints, Mat.ofRows] at hn; omega
  rcases hn0 with h | h | h <;> subst h
  · rw [f0]; decide
  · rw [f1]; decide
  · rw [f2]; decide

theorem moviePoints_inGrid :
    ∀ n, n < moviePoints.n_rows → InGrid moviePoints roi5 (sevensStack.slice 0) n := by
  intro n hn
  have hn0 : n = 0 ∨ n = 1 ∨ n = 2 := by simp [moviePoints, Mat.ofRows] at hn; omega
  rcases hn0 with h | h | h <;> subst h <;>
  simp [InGrid, pixelX, pixelY, moviePoints, roi5, sevensStack, Cube.slice, Mat.ofRows,
    Vec.ofList, sizeRatio, toIdx] <;>
  norm_num

/-! ## Facts about binary rounding and the rounded histogram -/

theorem roundEven_eq (t : ℚ) (m : Int) (h1 : (m : ℚ) - 1 / 2 < t) (h2 : t < (m : ℚ) + 1 / 2) :
    roundEven t = m := by
  unfold roundEven
  have hf := Int.floor_le t
  have hf2 := Int.lt_floor_add_one t
  by_cases hm : (m : ℚ) ≤ t
  · have e : ⌊t⌋ = m := by
      rw [Int.floor_eq_iff]
      exact ⟨hm, by linarith⟩
    rw [e, if_pos (by linarith)]
  · have hm1 : t < (m : ℚ) := not_le.mp hm
    have e : ⌊t⌋ = m - 1 := by
      rw [Int.floor_eq_iff]
      push_cast
      exact ⟨by linarith, by linarith⟩
    rw [e]
    push_cast
    rw [if_neg (by linarith), if_pos (by linarith)]
    ring

theorem roundEven_tie (f : Int) (hf : f % 2 = 0) : roundEven ((f : ℚ) + 1 / 2) = f := by
  unfold roundEven
  have e : ⌊(f : ℚ) + 1 / 2⌋ = f := by
    rw [Int.floor_eq_iff]
    exact ⟨by linarith, by linarith⟩
  rw [e, if_neg (by linarith), if_neg (by linarith), if_pos hf]

theorem log2_eq (q : ℚ) (k : Int) (hq : 0 < q) (h1 : (2 : ℚ) ^ k ≤ q) (h2 : q < (2 : ℚ) ^ (k + 1)) :
    Int.log 2 q = k := by
  have a1 : (((2 : Nat) : ℚ)) ^ k ≤ q := by simpa using h1
  have a2 : q < (((2 : Nat) : ℚ)) ^ (k + 1) := by simpa using h2
  apply le_antisymm
  · have := (Int.lt_zpow_iff_log_lt (by norm_num) hq).mp a2
    omega
  · exact (Int.zpow_le_iff_le_log (by norm_num) hq).mp a1

/-- Evaluation of `roundFloat` at a positive value: `q` lies in the binade `[2^k, 2^(k+1))`
and `m` is within a half of `q / 2^e`, `e = k - (p - 1)`. -/
theorem roundFloat_eval (p : Nat) (q : ℚ) (k e m : Int) (hq : 0 < q)
    (h1 : (2 : ℚ) ^ k ≤ q) (h2 : q < (2 : ℚ) ^ (k + 1)) (he : e = k - ((p : Int) - 1))
    (h3 : (m : ℚ) - 1 / 2 < q / 2 ^ e) (h4 : q / 2 ^ e < (m : ℚ) + 1 / 2) :
    roundFloat p q = (m : ℚ) * 2 ^ e := by
  unfold roundFloat
  rw [if_neg (ne_of_gt hq), abs_of_pos hq, log2_eq q k hq h1 h2, ← he, roundEven_eq _ m h3 h4]

theorem roundFloat_tie (p : Nat) (q : ℚ) (k e f : Int) (hq : 0 < q)
    (h1 : (2 : ℚ) ^ k ≤ q) (h2 : q < (2 : ℚ) ^ (k + 1)) (he : e = k - ((p : Int) - 1))
    (h3 : q / 2 ^ e = (f : ℚ) + 1 / 2) (hf : f % 2 = 0) :
    roundFloat p q = (f : ℚ) * 2 ^ e := by
  unfold roundFloat
  rw [if_neg (ne_of_gt hq), abs_of_pos hq, log2_eq q k hq h1 h2, ← he, h3, roundEven_tie f hf]

theorem roundFloat32_values :
    roundFloat32 1 = 1 ∧ roundFloat32 2 = 2 ∧ roundFloat32 41 = 41 ∧ roundFloat32 20 = 20 ∧
    roundFloat32 (2 / 41) = 3273603 / 67108864 ∧
    roundFloat32 (41 * (3273603 / 67108864)) = 16777215 / 8388608 ∧
    roundFloat32 (20 * (3273603 / 67108864)) = 16368015 / 16777216 := by
  unfold roundFloat32
  refine ⟨?_, ?_, ?_, ?_, ?_, ?_, ?_⟩
  · rw [roundFloat_eval 24 1 0 (-23) 8388608 (by norm_num) (by norm_num) (by norm_num)
      (by norm_num) (by norm_num) (by norm_num)]
    norm_num
  · rw [roundFloat_eval 24 2 1 (-22) 8388608 (by norm_num) (by norm_num) (by norm_num)
      (by norm_num) (by norm_num) (by norm_num)]
    norm_num
  · rw [roundFloat_eval 24 41 5 (-18) 10747904 (by norm_num) (by norm_num) (by norm_num)
      (by norm_num) (by norm_num) (by norm_num)]
    norm_num
  · rw [roundFloat_eval 24 20 4 (-19) 10485760 (by norm_num) (by norm_num) (by norm_num)
      (by norm_num) (by norm_num) (by norm_num)]
    norm_num
  · rw [roundFloat_eval 24 (2 / 41) (-5) (-28) 13094412 (by norm_num) (by norm_num)
      (by norm_num) (by norm_num) (by norm_num) (by norm_num)]
    norm_num
  · rw [roundFloat_eval 24 (41 * (3273603 / 67108864)) 0 (-23) 16777215 (by norm_num)
      (by norm_num) (by norm_num) (by norm_num) (by norm_num) (by norm_num)]
    norm_num
  · rw [roundFloat_eval 24 (20 * (3273603 / 67108864)) (-1) (-24) 16368015 (by norm_num)
      (by norm_num) (by norm_num) (by norm_num) (by norm_num) (by norm_num)]
    norm_num

section RoundedHistFacts
variable {F : Type} [LinearOrderedField F] [FloorRing F]

theorem histPointFl_id (points : Mat F) (xmin ymin sx sy : F) (px py : Nat) (im : Mat F)
    (n : Nat) :
    histPointFl id points xmin ymin sx sy px py im n
      = histPoint points xmin ymin sx sy px py im n := rfl

theorem histPointFl_n_rows (rnd : F → F) (points : Mat F) (xmin ymin sx sy : F) (px py : Nat)
    (im : Mat F) (n : Nat) :
    (histPointFl rnd points xmin ymin sx sy px py im n).n_rows = im.n_rows := by
  unfold histPointFl; simp only []; split <;> rfl

theorem histPointFl_n_cols (rnd : F → F) (points : Mat F) (xmin ymin sx sy : F) (px py : Nat)
    (im : Mat F) (n : Nat) :
    (histPointFl rnd points xmin ymin sx sy px py im n).n_cols = im.n_cols := by
  unfold histPointFl; simp only []; split <;> rfl

theorem histPointFl_elem (rnd : F → F) (points : Mat F) (xmin ymin sx sy : F) (px py : Nat)
    (im : Mat F) (n r c : Nat) (hr : r < py) (hc : c < px) :
    (histPointFl rnd points xmin ymin sx sy px py im n).elem r c
      = if castIdx (mapCoordFl rnd (points.elem n 1) xmin sx) = c ∧
          castIdx (mapCoordFl rnd (points.elem n 2) ymin sy) = r
        then rnd (im.elem r c + points.elem n 0) else im.elem r c := by
  unfold histPointFl
  simp only []
  by_cases hg : 0 ≤ castIdx (mapCoordFl rnd (points.elem n 1) xmin sx) ∧
      castIdx (mapCoordFl rnd (points.elem n 1) xmin sx) < px ∧
      0 ≤ castIdx (mapCoordFl rnd (points.elem n 2) ymin sy) ∧
      castIdx (mapCoordFl rnd (points.elem n 2) ymin sy) < py
  · rw [if_pos hg]
    simp only []
    by_cases h1 : castIdx (mapCoordFl rnd (points.elem n 1) xmin sx) = c ∧
        castIdx (mapCoordFl rnd (points.elem n 2) ymin sy) = r
    · rw [if_pos h1, if_pos ⟨h1.2.symm, h1.1.symm⟩]
    · rw [if_neg h1, if_neg (fun h => h1 ⟨h.2.symm, h.1.symm⟩)]
  · rw [if_neg hg, if_neg]
    rintro ⟨h1, h2⟩
    exact hg ⟨Nat.zero_le _, h1 ▸ hc, Nat.zero_le _, h2 ▸ hr⟩

theorem histFoldFl_n_rows (rnd : F → F) (points : Mat F) (xmin ymin sx sy : F) (px py : Nat)
    (l : List Nat) (im : Mat F) :
    (l.foldl (histPointFl rnd points xmin ymin sx sy px py) im).n_rows = im.n_rows := by
  induction l generalizing im with
  | nil => rfl
  | cons a l ih => rw [List.foldl_cons, ih, histPointFl_n_rows]

theorem histFoldFl_n_cols (rnd : F → F) (points : Mat F) (xmin ymin sx sy : F) (px py : Nat)
    (l : List Nat) (im : Mat F) :
    (l.foldl (histPointFl rnd points xmin ymin sx sy px py) im).n_cols = im.n_cols := by
  induction l generalizing im with
  | nil => rfl
  | cons a l ih => rw [List.foldl_cons, ih, histPointFl_n_cols]

theorem histFoldFl_elem (rnd : F → F) (points : Mat F) (xmin ymin sx sy : F) (px py : Nat)
    (l : List Nat) (im : Mat F) (r c : Nat) (hr : r < py) (hc : c < px) :
    (l.foldl (histPointFl rnd points xmin ymin sx sy px py) im).elem r c
      = l.foldl (fun acc n =>
          if castIdx (mapCoordFl rnd (points.elem n 1) xmin sx) = c ∧
            castIdx (mapCoordFl rnd (points.elem n 2) ymin sy) = r
          then rnd (acc + points.elem n 0) else acc) (im.elem r c) := by
  induction l generalizing im with
  | nil => rfl
  | cons a l ih =>
    rw [List.foldl_cons, ih, histPointFl_elem rnd points xmin ymin sx sy px py im a r c hr hc,
      List.foldl_cons]

theorem renderHistSingleFl_elem (rnd : F → F) (points : Mat F) (roi : Vec F) (im : Mat F)
    (hcols : im.n_cols < 4294967296) (hrows : im.n_rows < 4294967296) (r c : Nat)
    (hr : r < im.n_rows) (hc : c < im.n_cols) :
    (renderHistSingleFl rnd points roi im).elem r c
      = (List.range points.n_rows).foldl (histAccFl rnd points roi im r c) (im.elem r c) := by
  unfold renderHistSingleFl
  simp only []
  rw [histFoldFl_elem rnd points _ _ _ _ _ _ _ im r c (by rw [toIdx_natCast hrows]; exact hr)
    (by rw [toIdx_natCast hcols]; exact hc)]
  rfl

theorem histPointFl_eq_self (rnd : F → F) (points : Mat F) (xmin ymin sx sy : F) (px py : Nat)
    (im : Mat F) (n : Nat)
    (h : ¬ castIdx (mapCoordFl rnd (points.elem n 1) xmin sx) < px ∨
      ¬ castIdx (mapCoordFl rnd (points.elem n 2) ymin sy) < py) :
    histPointFl rnd points xmin ymin sx sy px py im n = im := by
  unfold histPointFl
  simp only []
  rw [if_neg]
  rintro ⟨-, h1, -, h2⟩
  rcases h with h | h
  · exact h h1
  · exact h h2

theorem histFoldFl_eq_self (rnd : F → F) (points : Mat F) (xmin ymin sx sy : F) (px py : Nat)
    (l : List Nat) (im : Mat F)
    (h : ∀ n ∈ l, ¬ castIdx (mapCoordFl rnd (points.elem n 1) xmin sx) < px ∨
      ¬ castIdx (mapCoordFl rnd (points.elem n 2) ymin sy) < py) :
    l.foldl (histPointFl rnd points xmin ymin sx sy px py) im = im := by
  induction l generalizing im with
  | nil => rfl
  | cons a l ih =>
    rw [List.foldl_cons, histPointFl_eq_self rnd points xmin ymin sx sy px py im a
      (h a (List.mem_cons_self a l))]
    exact ih im (fun n hn => h n (List.mem_cons_of_mem a hn))

end RoundedHistFacts

theorem roundFloat32_more :
    roundFloat32 5 = 5 ∧ roundFloat32 (5 / 2) = 5 / 2 ∧ roundFloat32 7 = 7 ∧
    roundFloat32 10 = 10 ∧ roundFloat32 (10 / 7) = 5991863 / 4194304 ∧
    roundFloat32 (14680063 / 2097152) = 14680063 / 2097152 ∧
    roundFloat32 (14680063 / 2097152 * (5991863 / 4194304)) = 10 ∧
    roundFloat32 16777216 = 16777216 ∧ roundFloat32 16777217 = 16777216 := by
  unfold roundFloat32
  refine ⟨?_, ?_, ?_, ?_, ?_, ?_, ?_, ?_, ?_⟩
  · rw [roundFloat_eval 24 5 2 (-21) 10485760 (by norm_num) (by norm_num) (by norm_num)
      (by norm_num) (by norm_num) (by norm_num)]
    norm_num
  · rw [roundFloat_eval 24 (5 / 2) 1 (-22) 10485760 (by norm_num) (by norm_num) (by norm_num)
      (by norm_num) (by norm_num) (by norm_num)]
    norm_num
  · rw [roundFloat_eval 24 7 2 (-21) 14680064 (by norm_num) (by norm_num) (by norm_num)
      (by norm_num) (by norm_num) (by norm_num)]
    norm_num
  · rw [roundFloat_eval 24 10 3 (-20) 10485760 (by norm_num) (by norm_num) (by norm_num)
      (by norm_num) (by norm_num) (by norm_num)]
    norm_num
  · rw [roundFloat_eval 24 (10 / 7) 0 (-23) 11983726 (by norm_num) (by norm_num) (by norm_num)
      (by norm_num) (by norm_num) (by norm_num)]
    norm_num
  · rw [roundFloat_eval 24 (14680063 / 2097152) 2 (-21) 14680063 (by norm_num) (by norm_num)
      (by norm_num) (by norm_num) (by norm_num) (by norm_num)]
    norm_num
  · rw [roundFloat_eval 24 (14680063 / 2097152 * (5991863 / 4194304)) 3 (-20) 10485760
      (by norm_num) (by norm_num) (by norm_num) (by norm_num) (by norm_num) (by norm_num)]
    norm_num
  · rw [roundFloat_eval 24 16777216 24 1 8388608 (by norm_num) (by norm_num) (by norm_num)
      (by norm_num) (by norm_num) (by norm_num)]
    norm_num
  · rw [roundFloat_tie 24 16777217 24 1 8388608 (by norm_num) (by norm_num) (by norm_num)
      (by norm_num) (by norm_num) (by decide)]
    norm_num

/-- In `float` arithmetic the point at `x = xmax = 41` of the region `[0,41,0,41]` on two
columns has the computed indices (1, 0) and its intensity is added to pixel (0, 1). -/
theorem upperEdge41_float :
    histIxFl roundFloat32 upperEdge41 roi41 zeros2 0 = 1 ∧
    histIyFl roundFloat32 upperEdge41 roi41 zeros2 0 = 0 ∧
    (renderHistSingleFl roundFloat32 upperEdge41 roi41 zeros2).elem 0 1 = 1 := by
  obtain ⟨v1, v2, v41, v20, vs, vX, vY⟩ := roundFloat32_values
  have hi : toIdx ((zeros2.n_cols : Nat) : Int) = 2 := rfl
  have hj : toIdx ((zeros2.n_rows : Nat) : Int) = 2 := rfl
  have hx : histIxFl roundFloat32 upperEdge41 roi41 zeros2 0 = 1 := by
    unfold histIxFl mapCoordFl sizeRatioFl
    rw [hi]
    simp only [upperEdge41, roi41, Mat.ofRows, Vec.ofList, List.getD_cons_zero,
      List.getD_cons_succ, sub_zero, Nat.cast_ofNat]
    rw [v2, v41, vs, vX]
    exact castIdx_eval 1 (by norm_num) (by norm_num) (by norm_num)
  have hy : histIyFl roundFloat32 upperEdge41 roi41 zeros2 0 = 0 := by
    unfold histIyFl mapCoordFl sizeRatioFl
    rw [hj]
    simp only [upperEdge41, roi41, Mat.ofRows, Vec.ofList, List.getD_cons_zero,
      List.getD_cons_succ, sub_zero, Nat.cast_ofNat]
    rw [v2, v41, v20, vs, vY]
    exact castIdx_eval 0 (by norm_num) (by norm_num) (by norm_num)
  refine ⟨hx, hy, ?_⟩
  rw [renderHistSingleFl_elem roundFloat32 upperEdge41 roi41 zeros2 (by norm_num [zeros2, Mat.zeros])
    (by norm_num [zeros2, Mat.zeros]) 0 1 (by norm_num [zeros2, Mat.zeros])
    (by norm_num [zeros2, Mat.zeros])]
  have hl : List.range upperEdge41.n_rows = [0] := rfl
  rw [hl, List.foldl_cons, List.foldl_nil]
  unfold histAccFl
  rw [if_pos ⟨hx, hy⟩]
  have e0 : zeros2.elem 0 1 + upperEdge41.elem 0 0 = 1 := by
    simp [zeros2, Mat.zeros, upperEdge41, Mat.ofRows]
  rw [e0, v1]

/-- In `float` arithmetic the point at `x = 7 - 2^-21` of the region `[0,7,0,7]` on ten
columns has the computed column index 10 and is dropped. -/
theorem belowEdge7_float :
    histIxFl roundFloat32 belowEdge7 roi7 (zeros10 ℚ) 0 = 10 ∧
    renderHistSingleFl roundFloat32 belowEdge7 roi7 (zeros10 ℚ) = zeros10 ℚ := by
  obtain ⟨-, -, v7, v10, vs, vx, vX, -, -⟩ := roundFloat32_more
  have hi : toIdx (((zeros10 ℚ).n_cols : Nat) : Int) = 10 := rfl
  have hx : castIdx (mapCoordFl roundFloat32 (belowEdge7.elem 0 1) (roi7.elem 0)
      (sizeRatioFl roundFloat32 10 (roi7.elem 0) (roi7.elem 1))) = 10 := by
    unfold mapCoordFl sizeRatioFl
    simp only [belowEdge7, roi7, Mat.ofRows, Vec.ofList, List.getD_cons_zero,
      List.getD_cons_succ, sub_zero, Nat.cast_ofNat]
    rw [v10, v7, vs, vx, vX]
    exact castIdx_eval 10 (by norm_num) (by norm_num) (by norm_num)
  refine ⟨by unfold histIxFl; rw [hi]; exact hx, ?_⟩
  unfold renderHistSingleFl
  simp only [hi]
  apply histFoldFl_eq_self
  intro n hn
  have hn0 : n = 0 := by
    have : n < 1 := List.mem_range.mp hn
    omega
  subst hn0
  left
  rw [hx]
  exact lt_irrefl 10

theorem wrapPoint_binned :
    (wrapPoint.elem 0 1 - roi5.elem 0) * sizeRatio (toIdx zeros5.n_cols) (roi5.elem 0)
        (roi5.elem 1) = 4294967296 ∧
    trunc ((wrapPoint.elem 0 1 - roi5.elem 0) * (zeros5.n_cols : ℚ)
      / (roi5.elem 1 - roi5.elem 0)) = 4294967296 ∧
    (renderHistSingle wrapPoint roi5 zeros5).elem 2 0 = 1 := by
  refine ⟨?_, ?_, ?_⟩
  · simp [wrapPoint, Mat.ofRows, roi5, Vec.ofList, zeros5, Mat.zeros, toIdx, sizeRatio]
  · simp [wrapPoint, Mat.ofRows, roi5, Vec.ofList, zeros5, Mat.zeros, trunc]
  · rw [renderHistSingle_elem]
    simp [wrapPoint, Mat.ofRows, roi5, Vec.ofList, zeros5, Mat.zeros, histAdd, castIdx, toIdx,
      trunc, sizeRatio, Finset.sum_range_succ]
    norm_num
    rfl

theorem belowEdge7_inRoi : InRoi belowEdge7 roi7 0 := by
  simp [InRoi, belowEdge7, Mat.ofRows, roi7, Vec.ofList]
  norm_num

/-! ## Histogram rendering: the claims -/

section HistClaims
variable {F : Type} [LinearOrderedField F] [FloorRing F]

end HistClaims

section HistWitnesses

theorem twoThreads_lt (n : Nat) : twoThreads n < 2 := by
  simp only [twoThreads]; omega

theorem cornerPoints_parallel_00 :
    (renderHistParallel 2 twoThreads cornerPoints roi2 sevens2).elem 0 0 = 3 := by
  rw [renderHistParallel_elem 2 twoThreads cornerPoints roi2 sevens2
    (fun n _ => twoThreads_lt n) 0 0 (by simp [sevens2, toIdx]) (by simp [sevens2, toIdx])]
  simp [cornerPoints, Mat.ofRows, roi2, Vec.ofList, sevens2, histAdd, castIdx, toIdx, trunc,
    sizeRatio, Finset.sum_range_succ]
  norm_num

theorem cornerPoints_parallel_11 :
    (renderHistParallel 2 twoThreads cornerPoints roi2 sevens2).elem 1 1 = 0 := by
  rw [renderHistParallel_elem 2 twoThreads cornerPoints roi2 sevens2
    (fun n _ => twoThreads_lt n) 1 1 (by simp [sevens2, toIdx]) (by simp [sevens2, toIdx])]
  simp [cornerPoints, Mat.ofRows, roi2, Vec.ofList, sevens2, histAdd, castIdx, toIdx, trunc,
    sizeRatio, Finset.sum_range_succ]
  norm_num

theorem cornerPoints_single_00 :
    (renderHistSingle cornerPoints roi2 sevens2).elem 0 0 = 10 := by
  rw [renderHistSingle_elem]
  simp [cornerPoints, Mat.ofRows, roi2, Vec.ofList, sevens2, histAdd, castIdx, toIdx, trunc,
    sizeRatio, Finset.sum_range_succ]
  norm_num

theorem cornerPoints_single_11 :
    (renderHistSingle cornerPoints roi2 sevens2).elem 1 1 = 7 := by
  rw [renderHistSingle_elem]
  simp [cornerPoints, Mat.ofRows, roi2, Vec.ofList, sevens2, histAdd, castIdx, toIdx, trunc,
    sizeRatio, Finset.sum_range_succ]
  norm_num

theorem cornerPoints_selectsParallel :
    selectsParallel cornerPoints.n_rows sevens2.n_elem = true := by
  simp [selectsParallel, cornerPoints, Mat.ofRows, sevens2, Mat.n_elem]

/-- Claim C2 (defect of the code). Two points in pixel (0, 0), intensities 1 and 2, on a 2×2
image holding 7 everywhere: `renderHist` selects the parallel path, whose reduction assigns the
sum of the thread histograms to the image, so pixel (0, 0) ends at 3, not at 7 + 3, and the
untouched pixel (1, 1) ends at 0, not at 7; the sequential path gives 10 and 7. -/
theorem renderHist_parallel_overwrites :
    selectsParallel cornerPoints.n_rows sevens2.n_elem = true ∧
    sevens2.elem 0 0 = 7 ∧ sevens2.elem 1 1 = 7 ∧
    (renderHist 2 twoThreads cornerPoints roi2 sevens2).elem 0 0 = 3 ∧
    (renderHist 2 twoThreads cornerPoints roi2 sevens2).elem 1 1 = 0 ∧
    (renderHistSingle cornerPoints roi2 sevens2).elem 0 0 = 10 ∧
    (renderHistSingle cornerPoints roi2 sevens2).elem 1 1 = 7 := by
  have hsel := cornerPoints_selectsParallel
  have hpar : renderHist 2 twoThreads cornerPoints roi2 sevens2
      = renderHistParallel 2 twoThreads cornerPoints roi2 sevens2 := by
    unfold renderHist; rw [hsel]; rfl
  refine ⟨hsel, rfl, rfl, ?_, ?_, cornerPoints_single_00, cornerPoints_single_11⟩
  · rw [hpar]; exact cornerPoints_parallel_00
  · rw [hpar]; exact cornerPoints_parallel_11

/-- Claim C3 (defect of the code). On the same input, with the same initial image, the
parallel and the sequential histogram renderer produce different images, for two threads and
for one thread: the parallel reduction discards the initial contents. -/
theorem renderHistParallel_differs_from_single :
    ¬ Mat.Same (renderHistParallel 2 twoThreads cornerPoints roi2 sevens2)
        (renderHistSingle cornerPoints roi2 sevens2) ∧
    ¬ Mat.Same (renderHistParallel 1 oneThread cornerPoints roi2 sevens2)
        (renderHistSingle cornerPoints roi2 sevens2) := by
  constructor
  · intro h
    have h1 := h.2.2 1 1 (by simp [renderHistParallel, sevens2])
      (by simp [renderHistParallel, sevens2])
    rw [cornerPoints_parallel_11, cornerPoints_single_11] at h1
    norm_num at h1
  · intro h
    have h1 := h.2.2 1 1 (by simp [renderHistParallel, sevens2])
      (by simp [renderHistParallel, sevens2])
    rw [renderHistParallel_elem 1 oneThread cornerPoints roi2 sevens2
      (fun n _ => by simp [oneThread]) 1 1 (by simp [sevens2, toIdx]) (by simp [sevens2, toIdx]),
      ← add_right_inj (sevens2.elem 1 1), ← renderHistSingle_elem, cornerPoints_single_11] at h1
    simp [sevens2] at h1

end HistWitnesses

section HistBoundary
variable {F : Type} [LinearOrderedField F] [FloorRing F]

/-- With a zero initial image the parallel histogram renderer agrees with the sequential
one, for every thread count and every assignment of the points to the threads. -/
theorem renderHistParallel_same_of_zero (T : Nat) (owner : Nat → Nat) (points : Mat F)
    (roi : Vec F) (im : Mat F) (hcols : im.n_cols < 4294967296) (hrows : im.n_rows < 4294967296)
    (hown : ∀ n, n < points.n_rows → owner n < T)
    (hzero : ∀ r c, r < im.n_rows → c < im.n_cols → im.elem r c = 0) :
    Mat.Same (renderHistParallel T owner points roi im) (renderHistSingle points roi im) := by
  refine ⟨(renderHistSingle_n_rows points roi im).symm,
    (renderHistSingle_n_cols points roi im).symm, ?_⟩
  intro r c hr hc
  have hr1 : r < im.n_rows := hr
  have hc1 : c < im.n_cols := hc
  rw [renderHistParallel_elem T owner points roi im hown r c
    (by rw [toIdx_natCast hrows]; exact hr1) (by rw [toIdx_natCast hcols]; exact hc1),
    renderHistSingle_elem, hzero r c hr1 hc1, zero_add]

/-- Claim C4 (amended). A point whose mapped coordinate, as the code computes it, on some
axis is at least the grid dimension and below `2 ^ 32`, or is at most -1 with a truncation
of at least `pixels - 2 ^ 32` (the conversion of a negative value to `IdxT`, which C++ leaves
undefined, being taken modulo `2 ^ 32`), is dropped by the point loop of `renderHistSingle`,
whatever the rounding `rnd` of `FloatT`: the loop body returns the image it was given, and a
table of such points leaves the image as it was. No other range of the mapped coordinate
is covered: a coordinate in (-1, 0) truncates to index 0, and one of `2 ^ 32` or more, or
below `pixels - 2 ^ 32`, can wrap around to an index of the grid. -/
theorem histPoint_drops_offGrid (rnd : F → F) (points : Mat F) (roi : Vec F) (im : Mat F)
    (hcols : im.n_cols < 4294967296) (hrows : im.n_rows < 4294967296)
    (hoff : ∀ n, n < points.n_rows →
      OffGrid im.n_cols (mapCoordFl rnd (points.elem n 1) (roi.elem 0)
        (sizeRatioFl rnd (toIdx im.n_cols) (roi.elem 0) (roi.elem 1))) ∨
      OffGrid im.n_rows (mapCoordFl rnd (points.elem n 2) (roi.elem 2)
        (sizeRatioFl rnd (toIdx im.n_rows) (roi.elem 2) (roi.elem 3)))) :
    (∀ (acc : Mat F) (n : Nat), n < points.n_rows →
      histPointFl rnd points (roi.elem 0) (roi.elem 2)
        (sizeRatioFl rnd (toIdx im.n_cols) (roi.elem 0) (roi.elem 1))
        (sizeRatioFl rnd (toIdx im.n_rows) (roi.elem 2) (roi.elem 3))
        (toIdx im.n_cols) (toIdx im.n_rows) acc n = acc) ∧
    renderHistSingleFl rnd points roi im = im := by
  have key : ∀ n, n < points.n_rows →
      (¬ castIdx (mapCoordFl rnd (points.elem n 1) (roi.elem 0)
          (sizeRatioFl rnd (toIdx im.n_cols) (roi.elem 0) (roi.elem 1))) < toIdx im.n_cols ∨
       ¬ castIdx (mapCoordFl rnd (points.elem n 2) (roi.elem 2)
          (sizeRatioFl rnd (toIdx im.n_rows) (roi.elem 2) (roi.elem 3))) < toIdx im.n_rows) := by
    intro n hn
    have h := hoff n hn
    rw [toIdx_natCast hcols, toIdx_natCast hrows] at h ⊢
    rcases h with h | h
    · exact Or.inl (not_castIdx_lt_of_offGrid hcols h)
    · exact Or.inr (not_castIdx_lt_of_offGrid hrows h)
  constructor
  · intro acc n hn
    exact histPointFl_eq_self _ _ _ _ _ _ _ _ _ _ (key n hn)
  · unfold renderHistSingleFl
    simp only []
    exact histFoldFl_eq_self _ _ _ _ _ _ _ _ _ _ (fun n hn => key n (List.mem_range.mp hn))

end HistBoundary

section HistBoundaryWitness

theorem ceil_neg_half : ⌈(-(1 / 2) : ℚ)⌉ = 0 := by
  rw [Int.ceil_eq_iff]; norm_num

theorem offPoints_offGrid : ∀ n, n < offPoints.n_rows →
    OffGrid zeros5.n_cols (mapCoordFl id (offPoints.elem n 1) (roi5.elem 0)
      (sizeRatioFl id (toIdx zeros5.n_cols) (roi5.elem 0) (roi5.elem 1))) ∨
    OffGrid zeros5.n_rows (mapCoordFl id (offPoints.elem n 2) (roi5.elem 2)
      (sizeRatioFl id (toIdx zeros5.n_rows) (roi5.elem 2) (roi5.elem 3))) := by
  intro n hn
  have hn0 : n = 0 ∨ n = 1 ∨ n = 2 := by simp [offPoints, Mat.ofRows] at hn; omega
  have h32 : ⌈(-(3 / 2) : ℚ)⌉ = -1 := by rw [Int.ceil_eq_iff]; norm_num
  rcases hn0 with h0 | h0 | h0 <;> subst h0
  · left
    right
    simp [offPoints, Mat.ofRows, roi5, Vec.ofList, zeros5, Mat.zeros, mapCoordFl, sizeRatioFl,
      trunc, toIdx]
    norm_num [h32]
  · left
    left
    simp [offPoints, Mat.ofRows, roi5, Vec.ofList, zeros5, Mat.zeros, mapCoordFl, sizeRatioFl,
      toIdx]
    norm_num
  · right
    left
    simp [offPoints, Mat.ofRows, roi5, Vec.ofList, zeros5, Mat.zeros, mapCoordFl, sizeRatioFl,
      toIdx]
    norm_num

/-- Witness for claim C4 (amended): in exact arithmetic the points at x = -1.5, at x = 5 and
at y = 7 leave the 5×5 image of the region `[0,5,0,5]` unchanged. -/
theorem histPoint_drops_offGrid_witness :
    renderHistSingle offPoints roi5 zeros5 = zeros5 :=
  (histPoint_drops_offGrid id offPoints roi5 zeros5 (by simp [zeros5, Mat.zeros])
    (by simp [zeros5, Mat.zeros]) offPoints_offGrid).2

theorem leftPoint_binned :
    (leftPoint.elem 0 1 - roi5.elem 0) * sizeRatio (toIdx zeros5.n_cols) (roi5.elem 0)
        (roi5.elem 1) = -(1 / 2) ∧
    (renderHistSingle leftPoint roi5 zeros5).elem 2 0 = 1 := by
  refine ⟨?_, ?_⟩
  · simp [leftPoint, Mat.ofRows, roi5, Vec.ofList, zeros5, Mat.zeros, toIdx, sizeRatio]
    norm_num
  · rw [renderHistSingle_elem]
    simp [leftPoint, Mat.ofRows, roi5, Vec.ofList, zeros5, Mat.zeros, histAdd, castIdx, toIdx,
      trunc, sizeRatio, Finset.sum_range_succ]
    norm_num [ceil_neg_half]
    rfl

/-- Counterexample to claim C4 as stated, on the region `[0,5,0,5]` and the 5×5 zero image.
The point at x = -0.5 has the negative mapped coordinate -0.5, which truncates to index 0:
its intensity is added to pixel (2, 0). The point at x = 2^32 has the mapped coordinate
2^32, far above the grid dimension 5, whose conversion to `IdxT` wraps to index 0: its
intensity is added to pixel (2, 0) as well. -/
theorem histogram_keeps_point_left_of_grid :
    ((leftPoint.elem 0 1 - roi5.elem 0) * sizeRatio (toIdx zeros5.n_cols) (roi5.elem 0)
        (roi5.elem 1) < 0 ∧
      zeros5.elem 2 0 = 0 ∧
      (renderHistSingle leftPoint roi5 zeros5).elem 2 0 = 1) ∧
    ((zeros5.n_cols : ℚ) ≤ (wrapPoint.elem 0 1 - roi5.elem 0)
        * sizeRatio (toIdx zeros5.n_cols) (roi5.elem 0) (roi5.elem 1) ∧
      (renderHistSingle wrapPoint roi5 zeros5).elem 2 0 = 1) := by
  refine ⟨⟨?_, rfl, leftPoint_binned.2⟩, ?_, wrapPoint_binned.2.2⟩
  · rw [leftPoint_binned.1]; norm_num
  · rw [wrapPoint_binned.1]; norm_num [zeros5, Mat.zeros]

end HistBoundaryWitness

/-! ## Claims about the Gaussian renderer -/

section GaussClaims
variable {F : Type} [LinearOrderedField F] [FloorRing F]

/-- Claim C5: for a single point with positive sigmas whose mapped centre `(X, Y)` lies in
the grid, `renderGaussSingle` succeeds and sets the pixel at row `r` and column `c` to
`I * 0.5*(erf((c+1-X)/(sx*sqrt 2)) - erf((c-X)/(sx*sqrt 2)))
   * 0.5*(erf((r+1-Y)/(sy*sqrt 2)) - erf((r-Y)/(sy*sqrt 2)))` inside the clipped bounding
box and to 0 outside it; the value does not mention the lower ends of the box. -/
theorem renderGaussSingle_pixel_integrals (erf : F → F) (sqrt2 : F) (points : Mat F)
    (roi : Vec F) (im : Mat F) (sigmaAccuracy : F)
    (hN : points.n_rows = 1)
    (hcols : im.n_cols ≤ 2147483648) (hrows : im.n_rows ≤ 2147483648)
    (hin : InGrid points roi im 0)
    (hsx : 0 < pixelSigmaX points roi im 0) (hsy : 0 < pixelSigmaY points roi im 0) :
    ∃ out : Mat F, renderGaussSingle erf sqrt2 points roi im sigmaAccuracy = some out ∧
      out.n_rows = im.n_rows ∧ out.n_cols = im.n_cols ∧
      ∀ r c, r < im.n_rows → c < im.n_cols →
        out.elem r c =
          if boxMin (castIdx (pixelX points roi im 0))
                (halfWidth sigmaAccuracy (pixelSigmaX points roi im 0)) ≤ c ∧
              c ≤ boxMax (toIdx im.n_cols) (castIdx (pixelX points roi im 0))
                (halfWidth sigmaAccuracy (pixelSigmaX points roi im 0)) ∧
              boxMin (castIdx (pixelY points roi im 0))
                (halfWidth sigmaAccuracy (pixelSigmaY points roi im 0)) ≤ r ∧
              r ≤ boxMax (toIdx im.n_rows) (castIdx (pixelY points roi im 0))
                (halfWidth sigmaAccuracy (pixelSigmaY points roi im 0))
          then
            points.elem 0 0
              * (0.5 * (erf (((c : F) + 1 - pixelX points roi im 0)
                    / (pixelSigmaX points roi im 0 * sqrt2))
                  - erf (((c : F) - pixelX points roi im 0)
                    / (pixelSigmaX points roi im 0 * sqrt2))))
              * (0.5 * (erf (((r : F) + 1 - pixelY points roi im 0)
                    / (pixelSigmaY points roi im 0 * sqrt2))
                  - erf (((r : F) - pixelY points roi im 0)
                    / (pixelSigmaY points roi im 0 * sqrt2))))
          else 0 := by
  have h := renderGaussSingle_eq erf sqrt2 points roi im sigmaAccuracy hcols hrows
    (by omega) (by intro n hn; rw [hN] at hn; have : n = 0 := by omega
                   subst this; exact hin)
  refine ⟨_, h, rfl, rfl, ?_⟩
  intro r c hr hc
  simp only [hN, Finset.sum_range_one]
  show splatAdd erf sqrt2 (points.elem 0 0) (pixelX points roi im 0)
    (pixelSigmaX points roi im 0) _ _ (pixelY points roi im 0) (pixelSigmaY points roi im 0)
    _ _ r c = _
  unfold splatAdd halfWidth
  split_ifs with hb hb2 hb2
  · rw [stencilEntry_shift erf sqrt2 _ _ hb.1, stencilEntry_shift erf sqrt2 _ _ hb.2.2.1]
    ring
  · exact absurd hb hb2
  · exact absurd hb2 hb
  · rfl

/-- Claim C6: the result of `renderGauss` does not depend on the contents of the image passed
in. For two images of the same dimensions (below `2 ^ 32`), `renderGaussSingle` returns the
same result, `renderGaussParallel` and the dispatcher `renderGauss` return results that are
the same image, and with an empty points table the result is the image of zeros. -/
theorem renderGauss_overwrites (erf : F → F) (sqrt2 : F) (T : Nat) (owner : Nat → Nat)
    (points : Mat F) (roi : Vec F) (sigmaAccuracy : F) (im1 im2 : Mat F)
    (hr : im1.n_rows = im2.n_rows) (hc : im1.n_cols = im2.n_cols)
    (hr32 : im1.n_rows < 4294967296) (hc32 : im1.n_cols < 4294967296) :
    renderGaussSingle erf sqrt2 points roi im1 sigmaAccuracy
        = renderGaussSingle erf sqrt2 points roi im2 sigmaAccuracy ∧
      SameResult (renderGaussParallel erf sqrt2 T owner points roi im1 sigmaAccuracy)
        (renderGaussParallel erf sqrt2 T owner points roi im2 sigmaAccuracy) ∧
      SameResult (renderGauss erf sqrt2 T owner points roi im1 sigmaAccuracy)
        (renderGauss erf sqrt2 T owner points roi im2 sigmaAccuracy) ∧
      (points.n_rows = 0 →
        ∃ out : Mat F, renderGauss erf sqrt2 T owner points roi im1 sigmaAccuracy = some out ∧
          out.n_rows = im1.n_rows ∧ out.n_cols = im1.n_cols ∧
          ∀ r c, r < im1.n_rows → c < im1.n_cols → out.elem r c = 0) := by
  have hs := renderGaussSingle_dims_only erf sqrt2 points roi sigmaAccuracy im1 im2 hr hc
  have hp := renderGaussParallel_dims_only erf sqrt2 T owner points roi sigmaAccuracy im1 im2
    hr hc hr32 hc32
  refine ⟨hs, hp, ?_, ?_⟩
  · have he : im1.n_elem = im2.n_elem := by unfold Mat.n_elem; rw [hr, hc]
    unfold renderGauss
    rw [he]
    split_ifs
    · exact hp
    · rw [hs]; exact sameResult_refl _
  · intro h0
    unfold renderGauss
    split_ifs
    · exact renderGaussParallel_no_points erf sqrt2 T owner points roi sigmaAccuracy im1 h0
        hr32 hc32
    · rw [renderGaussSingle_no_points erf sqrt2 points roi sigmaAccuracy im1 h0]
      exact ⟨_, rfl, rfl, rfl, fun _ _ _ _ => rfl⟩

/-- Claim C7, on the code: the point (20.5, 5.5) of sigma 0.4 on a 10×10 image over the
region `[0,10,0,10]` has centre column 20 and half-width 2, so the clipped box is empty
(lower end 18, upper end 9); the span computed in `IdxT` is 4294967288, the test
`xspn<=0` does not skip the point, and the stencil builder is called with a size above the
capacity 10 of the scratch vector: the rendering fails on an access outside the vector. -/
theorem renderGauss_empty_box_not_skipped (erf : F → F) (sqrt2 : F) (T : Nat)
    (owner : Nat → Nat) :
    castIdx (pixelX (farPoint F) (roi10 F) (zeros10 F) 0) = 20 ∧
      halfWidth (5 : F) (pixelSigmaX (farPoint F) (roi10 F) (zeros10 F) 0) = 2 ∧
      boxMin 20 2 = 18 ∧ boxMax 10 20 2 = 9 ∧ boxSpan 18 9 = 4294967288 ∧
      fill_stencil erf sqrt2 (boxSpan 18 9) (41 / 2 - 18) (2 / 5) (scratch 10) = none ∧
      renderGaussSingle erf sqrt2 (farPoint F) (roi10 F) (zeros10 F) 5 = none ∧
      renderGauss erf sqrt2 T owner (farPoint F) (roi10 F) (zeros10 F) 5 = none := by
  have hi : toIdx ((10 : Nat) : Int) = 10 := rfl
  have h1 : toIdx ((1 : Nat) : Int) = 1 := rfl
  have hs : renderGaussSingle erf sqrt2 (farPoint F) (roi10 F) (zeros10 F) 5 = none := by
    unfold renderGaussSingle
    have hp : (farPoint F).n_rows = 1 := rfl
    have hc : (zeros10 F).n_cols = 10 := rfl
    have hr : (zeros10 F).n_rows = 10 := rfl
    have hl : List.range 1 = [0] := rfl
    simp only [hp, hc, hr, hi, h1, hl, List.foldlM_cons]
    rw [farPoint_gaussPoint erf sqrt2 ⟨Mat.zeros 10 10, scratch 10, scratch 10⟩ rfl]
    rfl
  refine ⟨?_, ?_, by decide, by decide, by decide, ?_, hs, ?_⟩
  · have hX : pixelX (farPoint F) (roi10 F) (zeros10 F) 0 = 41 / 2 := by
      simp [pixelX, farPoint, roi10, zeros10, Mat.zeros, Mat.ofRows, Vec.ofList, sizeRatio, toIdx]
      norm_num
    rw [hX]
    exact castIdx_eval 20 (by norm_num) (by norm_num) (by norm_num)
  · have hS : (0.5 : F) + 5 * pixelSigmaX (farPoint F) (roi10 F) (zeros10 F) 0 = 5 / 2 := by
      simp [pixelSigmaX, farPoint, roi10, zeros10, Mat.zeros, Mat.ofRows, Vec.ofList, sizeRatio,
        toIdx]
      norm_num
    unfold halfWidth
    rw [hS]
    exact castIdx_eval 2 (by norm_num) (by norm_num) (by norm_num)
  · exact fill_stencil_none erf sqrt2 _ _ _ _ (show 10 < boxSpan 18 9 by decide)
  · have hsel : selectsParallel (farPoint F).n_rows (zeros10 F).n_elem = false :=
      (by decide : selectsParallel 1 100 = false)
    unfold renderGauss
    rw [hsel]
    exact hs

/-- Claim C8: for points with centres in the grid (image dimensions at most `2 ^ 31`),
every number of threads and every assignment of the points to the threads,
`renderGaussParallel` and `renderGaussSingle` both succeed and return the same image. -/
theorem renderGaussParallel_same_as_single (erf : F → F) (sqrt2 : F) (T : Nat)
    (owner : Nat → Nat) (points : Mat F) (roi : Vec F) (im : Mat F) (sigmaAccuracy : F)
    (hcols : im.n_cols ≤ 2147483648) (hrows : im.n_rows ≤ 2147483648)
    (hN : points.n_rows < 4294967296)
    (hown : ∀ n, n < points.n_rows → owner n < T)
    (hgood : ∀ n, n < points.n_rows → InGrid points roi im n) :
    ∃ a b : Mat F,
      renderGaussParallel erf sqrt2 T owner points roi im sigmaAccuracy = some a ∧
      renderGaussSingle erf sqrt2 points roi im sigmaAccuracy = some b ∧ a.Same b := by
  refine ⟨_, _, renderGaussParallel_eq erf sqrt2 T owner points roi im sigmaAccuracy hcols
    hrows hN hown hgood, renderGaussSingle_eq erf sqrt2 points roi im sigmaAccuracy hcols hrows
    hN hgood, rfl, rfl, ?_⟩
  intro r c hr hc
  show (if c < im.n_cols ∧ r < im.n_rows then _ else _) = _
  rw [if_pos ⟨hc, hr⟩]

/-- Claim C9, amended: for a single point of intensity `I > 0` and positive sigmas whose
centre lies in the grid and whose bounding box `[centre - hw, centre + hw]` is not clipped,
`renderGaussSingle` succeeds and the sum of all pixels is `I * Ex * Ey`, where `Ex` and `Ey`
are the masses of the Gaussian on the columns and rows of the box; so the sum is within
`tol * I` of `I` exactly when `Ex * Ey ≥ 1 - tol`. -/
theorem renderGauss_unclipped_sum (erf : F → F) (sqrt2 : F) (points : Mat F)
    (roi : Vec F) (im : Mat F) (sigmaAccuracy : F)
    (herf : IsErf erf) (hsqrt : 0 < sqrt2) (hN : points.n_rows = 1)
    (hcols : im.n_cols ≤ 2147483648) (hrows : im.n_rows ≤ 2147483648)
    (hroiX : roi.elem 0 < roi.elem 1) (hroiY : roi.elem 2 < roi.elem 3)
    (hI : 0 < points.elem 0 0) (hsx : 0 < points.elem 0 3) (hsy : 0 < points.elem 0 4)
    (hin : InGrid points roi im 0) (hun : Unclipped points roi im sigmaAccuracy 0) :
    ∃ out : Mat F, renderGaussSingle erf sqrt2 points roi im sigmaAccuracy = some out ∧
      out.accu = points.elem 0 0 * fullMassX erf sqrt2 points roi im sigmaAccuracy 0
        * fullMassY erf sqrt2 points roi im sigmaAccuracy 0 ∧
      ∀ tol : F, |out.accu - points.elem 0 0| ≤ tol * points.elem 0 0 ↔
        1 - tol ≤ fullMassX erf sqrt2 points roi im sigmaAccuracy 0
          * fullMassY erf sqrt2 points roi im sigmaAccuracy 0 := by
  obtain ⟨out, h1, h2⟩ := renderGaussSingle_unclipped_total erf sqrt2 points roi im
    sigmaAccuracy hN hcols hrows hin hun
  refine ⟨out, h1, h2, ?_⟩
  intro tol
  obtain ⟨p1, p2⟩ := inGrid_pos hin
  have b := spanSum_bounds herf hsqrt points roi im sigmaAccuracy 0
    (pixelSigmaX_pos hsx hroiX p1 (by omega)) (pixelSigmaY_pos hsy hroiY p2 (by omega))
  obtain ⟨e1, e2⟩ := spanSum_eq_fullMass erf sqrt2 points roi im sigmaAccuracy 0 hcols hrows hun
  rw [e1, e2] at b
  rw [h2]
  exact tolerance_iff hI b.1 b.2

/-- Claim C10: for points of non-negative intensity and positive sigmas whose centres lie in
the grid, `renderGaussSingle` succeeds, the sum of all pixels is the sum over the points of
`I * Sx * Sy`, with `Sx` and `Sy` the sums of the X and Y stencils over the clipped spans,
each of them in `[0, 1)`, and the sum of all pixels is at most the sum of the
intensities. -/
theorem renderGauss_energy_bounded (erf : F → F) (sqrt2 : F) (points : Mat F)
    (roi : Vec F) (im : Mat F) (sigmaAccuracy : F)
    (herf : IsErf erf) (hsqrt : 0 < sqrt2)
    (hcols : im.n_cols ≤ 2147483648) (hrows : im.n_rows ≤ 2147483648)
    (hN : points.n_rows < 4294967296)
    (hroiX : roi.elem 0 < roi.elem 1) (hroiY : roi.elem 2 < roi.elem 3)
    (hI : ∀ n, n < points.n_rows → 0 ≤ points.elem n 0)
    (hs : ∀ n, n < points.n_rows → 0 < points.elem n 3 ∧ 0 < points.elem n 4)
    (hgood : ∀ n, n < points.n_rows → InGrid points roi im n) :
    ∃ out : Mat F, renderGaussSingle erf sqrt2 points roi im sigmaAccuracy = some out ∧
      out.accu = ∑ n ∈ Finset.range points.n_rows,
        points.elem n 0 * spanSumX erf sqrt2 points roi im sigmaAccuracy n
          * spanSumY erf sqrt2 points roi im sigmaAccuracy n ∧
      (∀ n, n < points.n_rows →
        (0 ≤ spanSumX erf sqrt2 points roi im sigmaAccuracy n ∧
          spanSumX erf sqrt2 points roi im sigmaAccuracy n < 1) ∧
        (0 ≤ spanSumY erf sqrt2 points roi im sigmaAccuracy n ∧
          spanSumY erf sqrt2 points roi im sigmaAccuracy n < 1)) ∧
      out.accu ≤ ∑ n ∈ Finset.range points.n_rows, points.elem n 0 := by
  obtain ⟨out, h1, -, -, h2⟩ := renderGaussSingle_total erf sqrt2 points roi im sigmaAccuracy
    hcols hrows hN hgood
  have hb : ∀ n, n < points.n_rows →
      (0 ≤ spanSumX erf sqrt2 points roi im sigmaAccuracy n ∧
        spanSumX erf sqrt2 points roi im sigmaAccuracy n < 1) ∧
      (0 ≤ spanSumY erf sqrt2 points roi im sigmaAccuracy n ∧
        spanSumY erf sqrt2 points roi im sigmaAccuracy n < 1) := by
    intro n hn
    obtain ⟨p1, p2⟩ := inGrid_pos (hgood n hn)
    exact spanSum_bounds herf hsqrt points roi im sigmaAccuracy n
      (pixelSigmaX_pos (hs n hn).1 hroiX p1 (by omega))
      (pixelSigmaY_pos (hs n hn).2 hroiY p2 (by omega))
  refine ⟨out, h1, h2, hb, ?_⟩
  rw [h2]
  apply Finset.sum_le_sum
  intro n hn
  have hn1 := Finset.mem_range.mp hn
  exact mul_mass_le (hI n hn1) (hb n hn1).1 (hb n hn1).2

end GaussClaims

/-- Witness for claim C6: a 10×10 image of zeros and a 10×10 image of sevens. -/
theorem renderGauss_overwrites_witness :
    SameResult (renderGauss erfQ sqrt2Q 2 twoThreads midPoints (roi10 ℚ) (zeros10 ℚ) 5)
      (renderGauss erfQ sqrt2Q 2 twoThreads midPoints (roi10 ℚ) ⟨10, 10, fun _ _ => 7⟩ 5) := by
  have h1 : (zeros10 ℚ).n_rows < 4294967296 := by norm_num [zeros10, Mat.zeros]
  have h2 : (zeros10 ℚ).n_cols < 4294967296 := by norm_num [zeros10, Mat.zeros]
  have h := renderGauss_overwrites erfQ sqrt2Q 2 twoThreads midPoints (roi10 ℚ) 5 (zeros10 ℚ)
    ⟨10, 10, fun _ _ => 7⟩ rfl rfl h1 h2
  exact h.2.2.1

/-- Witness for claim C8: two points, two threads, a 10×10 image. -/
theorem renderGaussParallel_same_as_single_witness :
    ∃ a b : Mat ℚ,
      renderGaussParallel erfQ sqrt2Q 2 twoThreads midPoints (roi10 ℚ) (zeros10 ℚ) 5 = some a ∧
      renderGaussSingle erfQ sqrt2Q midPoints (roi10 ℚ) (zeros10 ℚ) 5 = some b ∧ a.Same b :=
  renderGaussParallel_same_as_single erfQ sqrt2Q 2 twoThreads midPoints (roi10 ℚ) (zeros10 ℚ) 5
    (by norm_num [zeros10, Mat.zeros]) (by norm_num [zeros10, Mat.zeros])
    (by norm_num [midPoints, Mat.ofRows]) (fun n _ => Nat.mod_lt n (by decide))
    (gaussInputs_inGrid _ (Or.inr (Or.inl rfl)))

/-- Witness for claim C5: the point (4.5, 4.5) of intensity 1 and sigma 0.2 on a 10×10
image over `[0,10,0,10]`, whose box is columns and rows 3 to 5. -/
theorem renderGaussSingle_pixel_integrals_witness :
    ∃ out : Mat ℚ, renderGaussSingle erfQ sqrt2Q midPoint (roi10 ℚ) (zeros10 ℚ) 5 = some out ∧
      out.elem 4 4 = 625 / 1521 ∧ out.elem 0 0 = 0 := by
  obtain ⟨hX, hY, hsX, hsY, c, hw⟩ := midPoint_values
  obtain ⟨out, h1, -, -, h4⟩ := renderGaussSingle_pixel_integrals erfQ sqrt2Q midPoint
    (roi10 ℚ) (zeros10 ℚ) 5 rfl (by norm_num [zeros10, Mat.zeros])
    (by norm_num [zeros10, Mat.zeros]) (gaussInputs_inGrid _ (Or.inl rfl) 0 (by decide))
    (by rw [hsX]; norm_num) (by rw [hsY]; norm_num)
  have hi : toIdx (((zeros10 ℚ).n_cols : Nat) : Int) = 10 := rfl
  have hj : toIdx (((zeros10 ℚ).n_rows : Nat) : Int) = 10 := rfl
  have hI : midPoint.elem 0 0 = 1 := by simp [midPoint, Mat.ofRows]
  refine ⟨out, h1, ?_, ?_⟩
  · rw [h4 4 4 (by norm_num [zeros10, Mat.zeros]) (by norm_num [zeros10, Mat.zeros])]
    rw [hX, hY, hsX, hsY, c, hw, hi, hj, hI]
    rw [if_pos (by decide)]
    have a1 : (((4 : Nat) : ℚ) + 1 - 9 / 2) / (1 / 5 * sqrt2Q) = 25 / 14 := by
      norm_num [sqrt2Q]
    have a2 : (((4 : Nat) : ℚ) - 9 / 2) / (1 / 5 * sqrt2Q) = -25 / 14 := by
      norm_num [sqrt2Q]
    rw [a1, a2, erfQ_values.1, erfQ_values.2]
    norm_num
  · rw [h4 0 0 (by norm_num [zeros10, Mat.zeros]) (by norm_num [zeros10, Mat.zeros])]
    rw [hX, hY, hsX, hsY, c, hw, hi, hj]
    rw [if_neg (by decide)]

/-- Witness for claim C9 (amended): the point (4.5, 4.5) of intensity 1 and sigma 0.2, whose
box, columns and rows 3 to 5, is not clipped on a 10×10 image. -/
theorem renderGauss_unclipped_sum_witness :
    ∃ out : Mat ℚ, renderGaussSingle erfQ sqrt2Q midPoint (roi10 ℚ) (zeros10 ℚ) 5 = some out ∧
      out.accu = midPoint.elem 0 0 * fullMassX erfQ sqrt2Q midPoint (roi10 ℚ) (zeros10 ℚ) 5 0
        * fullMassY erfQ sqrt2Q midPoint (roi10 ℚ) (zeros10 ℚ) 5 0 ∧
      ∀ tol : ℚ, |out.accu - midPoint.elem 0 0| ≤ tol * midPoint.elem 0 0 ↔
        1 - tol ≤ fullMassX erfQ sqrt2Q midPoint (roi10 ℚ) (zeros10 ℚ) 5 0
          * fullMassY erfQ sqrt2Q midPoint (roi10 ℚ) (zeros10 ℚ) 5 0 :=
  renderGauss_unclipped_sum erfQ sqrt2Q midPoint (roi10 ℚ) (zeros10 ℚ) 5 erfQ_isErf
    (by norm_num [sqrt2Q]) rfl (by norm_num [zeros10, Mat.zeros])
    (by norm_num [zeros10, Mat.zeros]) (by norm_num [roi10, Vec.ofList])
    (by norm_num [roi10, Vec.ofList]) (by norm_num [midPoint, Mat.ofRows])
    (by norm_num [midPoint, Mat.ofRows]) (by norm_num [midPoint, Mat.ofRows])
    (gaussInputs_inGrid _ (Or.inl rfl) 0 (by decide)) midPoint_unclipped

/-- Witness for claim C10: one point of intensity 1 and sigma 100 at (5.5, 5.5), accuracy 5,
on a 10×10 image: the sum of all pixels is at most 1. -/
theorem renderGauss_energy_bounded_witness :
    ∃ out : Mat ℚ, renderGaussSingle erfQ sqrt2Q widePoint (roi10 ℚ) (zeros10 ℚ) 5 = some out ∧
      out.accu ≤ 1 := by
  obtain ⟨out, h1, -, -, h4⟩ := renderGauss_energy_bounded erfQ sqrt2Q widePoint (roi10 ℚ)
    (zeros10 ℚ) 5 erfQ_isErf (by norm_num [sqrt2Q]) (by norm_num [zeros10, Mat.zeros])
    (by norm_num [zeros10, Mat.zeros]) (by norm_num [widePoint, Mat.ofRows])
    (by norm_num [roi10, Vec.ofList]) (by norm_num [roi10, Vec.ofList])
    (by
      intro n hn
      have hn0 : n = 0 := by simp [widePoint, Mat.ofRows] at hn; exact hn
      subst hn0
      norm_num [widePoint, Mat.ofRows])
    (by
      intro n hn
      have hn0 : n = 0 := by simp [widePoint, Mat.ofRows] at hn; exact hn
      subst hn0
      norm_num [widePoint, Mat.ofRows])
    (gaussInputs_inGrid _ (Or.inr (Or.inr (Or.inl rfl))))
  refine ⟨out, h1, ?_⟩
  have hs : ∑ n ∈ Finset.range widePoint.n_rows, widePoint.elem n 0 = 1 := by
    have : widePoint.n_rows = 1 := rfl
    rw [this, Finset.sum_range_one]
    simp [widePoint, Mat.ofRows]
  rw [hs] at h4
  exact h4

/-- Counterexample to claim C9 as stated: the point of intensity 1 and sigma 0.05 at (2, 2) of a
10×10 image over `[0,10,0,10]`, rendered with `sigmaAccuracy = 5`, has half-width 0 and an
unclipped box, the single pixel (2, 2), on whose lower edges its centre lies. With the
stand-in `erfQ` the sum of all pixels is 2500/11449; with any `erf` over any ordered field
it is `(0.5*(erf(1/(0.05*sqrt 2)) - erf 0))^2`, below 1/4 when `erf` is odd, strictly
increasing and bounded by 1, and so not within `1e-5` of the intensity. -/
theorem renderGauss_halfWidth_zero_loses_mass :
    (∃ out : Mat ℚ,
      renderGaussSingle erfQ sqrt2Q (edgePoint ℚ) (roi10 ℚ) (zeros10 ℚ) 5 = some out ∧
      out.accu = 2500 / 11449 ∧ ¬ |out.accu - 1| ≤ 0.00001 * 1) ∧
    ∀ (K : Type) [LinearOrderedField K] [FloorRing K] (erf : K → K) (sqrt2 : K),
      Unclipped (edgePoint K) (roi10 K) (zeros10 K) 5 0 ∧
      halfWidth (5 : K) (pixelSigmaX (edgePoint K) (roi10 K) (zeros10 K) 0) = 0 ∧
      halfWidth (5 : K) (pixelSigmaY (edgePoint K) (roi10 K) (zeros10 K) 0) = 0 ∧
      ∃ out : Mat K,
        renderGaussSingle erf sqrt2 (edgePoint K) (roi10 K) (zeros10 K) 5 = some out ∧
        out.accu = (0.5 * (erf (1 / (0.05 * sqrt2)) - erf 0))
          * (0.5 * (erf (1 / (0.05 * sqrt2)) - erf 0)) ∧
        (IsErf erf → out.accu < 1 / 4 ∧ ¬ |out.accu - 1| ≤ 0.00001 * 1) := by
  refine ⟨?_, fun K _ _ erf sqrt2 => edgePoint_total erf sqrt2⟩
  obtain ⟨-, -, -, out, h1, h2, h3⟩ := edgePoint_total erfQ sqrt2Q
  refine ⟨out, h1, ?_, (h3 erfQ_isErf).2⟩
  rw [h2]
  have e1 : (1 : ℚ) / (0.05 * sqrt2Q) = 100 / 7 := by norm_num [sqrt2Q]
  have e2 : erfQ (100 / 7) = 100 / 107 := by
    unfold erfQ
    rw [abs_of_pos (by norm_num)]
    norm_num
  have e3 : erfQ 0 = 0 := by simp [erfQ]
  rw [e1, e2, e3]
  norm_num

/-! ## Claims about the stencil, the bounding box, the strategy and the histogram -/

section MoreClaims
variable {F : Type} [LinearOrderedField F] [FloorRing F]

/-- Claim C14: for `sigma > 0`, `size ≥ 1` and a scratch vector of at least `size` entries,
`fill_stencil` succeeds, entry `i < size` of the result is
`0.5*(erf(norm*(i+1-x)) - erf(norm*(i-x)))` with `norm = 1/(sigma*sqrt 2)`, and the entries
at indices `≥ size` (and the length) are unchanged. -/
theorem fill_stencil_values (erf : F → F) (sqrt2 : F) (size : Nat) (x sigma : F)
    (stencil : Vec F) (hs : 0 < sigma) (hsize : 1 ≤ size) (hcap : size ≤ stencil.n_elem) :
    ∃ out : Vec F, fill_stencil erf sqrt2 size x sigma stencil = some out ∧
      out.n_elem = stencil.n_elem ∧
      (∀ i, i < size →
        out.elem i = 0.5 * (erf (1 / (sigma * sqrt2) * ((i : F) + 1 - x))
          - erf (1 / (sigma * sqrt2) * ((i : F) - x)))) ∧
      ∀ i, size ≤ i → out.elem i = stencil.elem i := by
  refine ⟨_, fill_stencil_eq erf sqrt2 size x sigma stencil hcap, rfl, ?_, ?_⟩
  · intro i hi
    simp only [if_pos hi]
    unfold stencilEntry
    rw [norm_eq, Nat.cast_add, Nat.cast_one]
  · intro i hi
    simp only [if_neg (not_lt.mpr hi)]

/-- Claim C15: for `sigma > 0` and `size ≥ 1`, with `erf` odd, strictly increasing and
bounded by 1 in absolute value, the entries written by `fill_stencil` are non-negative and
their sum is `0.5*(erf(norm*(size-x)) - erf(-norm*x))`, `norm = 1/(sigma*sqrt 2)`, which is
strictly less than 1. -/
theorem fill_stencil_cropped_mass (erf : F → F) (sqrt2 : F) (size : Nat) (x sigma : F)
    (stencil : Vec F) (herf : IsErf erf) (hsqrt : 0 < sqrt2) (hs : 0 < sigma)
    (hsize : 1 ≤ size) (hcap : size ≤ stencil.n_elem) :
    ∃ out : Vec F, fill_stencil erf sqrt2 size x sigma stencil = some out ∧
      (∀ i, i < size → 0 ≤ out.elem i) ∧
      ∑ i ∈ Finset.range size, out.elem i
        = 0.5 * (erf (1 / (sigma * sqrt2) * ((size : F) - x))
          - erf (-(1 / (sigma * sqrt2)) * x)) ∧
      ∑ i ∈ Finset.range size, out.elem i < 1 := by
  refine ⟨_, fill_stencil_eq erf sqrt2 size x sigma stencil hcap, ?_, ?_, ?_⟩
  · intro i hi
    simp only [if_pos hi]
    exact stencilEntry_nonneg herf (normexp_div_nonneg hsqrt hs) x i
  · have h : ∑ i ∈ Finset.range size,
        (if i < size then stencilEntry erf (normexp sqrt2 / sigma) x i else stencil.elem i)
        = stencilSum erf (normexp sqrt2 / sigma) x size := by
      unfold stencilSum
      apply Finset.sum_congr rfl
      intro i hi
      rw [if_pos (Finset.mem_range.mp hi)]
    simp only []
    rw [h, stencilSum_telescope, norm_eq]
  · have h : ∑ i ∈ Finset.range size,
        (if i < size then stencilEntry erf (normexp sqrt2 / sigma) x i else stencil.elem i)
        = stencilSum erf (normexp sqrt2 / sigma) x size := by
      unfold stencilSum
      apply Finset.sum_congr rfl
      intro i hi
      rw [if_pos (Finset.mem_range.mp hi)]
    simp only []
    rw [h]
    exact stencilSum_lt_one herf _ _ _

/-- Claim C16: `renderHist` and `renderGauss` run the parallel implementation when the
number `n` of points and the number `p` of image elements satisfy `n ≥ sqrt p`, which is
`n * n ≥ p`, and the sequential implementation otherwise; one point on 25 elements is
sequential, five points on 25 elements are parallel. -/
theorem render_strategy_selection (erf : F → F) (sqrt2 : F) (T : Nat) (owner : Nat → Nat)
    (points : Mat F) (roi : Vec F) (im : Mat F) (sigmaAccuracy : F) :
    (Real.sqrt (im.n_elem : ℝ) ≤ (points.n_rows : ℝ) ↔
      im.n_elem ≤ points.n_rows * points.n_rows) ∧
    im.n_elem = im.n_rows * im.n_cols ∧
    (Real.sqrt (im.n_elem : ℝ) ≤ (points.n_rows : ℝ) →
      renderHist T owner points roi im = renderHistParallel T owner points roi im ∧
      renderGauss erf sqrt2 T owner points roi im sigmaAccuracy
        = renderGaussParallel erf sqrt2 T owner points roi im sigmaAccuracy) ∧
    (¬ Real.sqrt (im.n_elem : ℝ) ≤ (points.n_rows : ℝ) →
      renderHist T owner points roi im = renderHistSingle points roi im ∧
      renderGauss erf sqrt2 T owner points roi im sigmaAccuracy
        = renderGaussSingle erf sqrt2 points roi im sigmaAccuracy) ∧
    selectsParallel 1 (5 * 5) = false ∧ selectsParallel 5 (5 * 5) = true := by
  refine ⟨?_, rfl, ?_, ?_, by decide, by decide⟩
  · rw [← selectsParallel_iff_sqrt]
    unfold selectsParallel
    simp only [decide_eq_true_eq]
  · intro h
    have hs := (selectsParallel_iff_sqrt _ _).mpr h
    unfold renderHist renderGauss
    rw [hs]
    exact ⟨rfl, rfl⟩
  · intro h
    have hs : selectsParallel points.n_rows im.n_elem = false := by
      rw [← Bool.not_eq_true]
      exact fun h1 => h ((selectsParallel_iff_sqrt _ _).mp h1)
    unfold renderHist renderGauss
    rw [hs]
    exact ⟨rfl, rfl⟩

/-- Claim C18: `renderHistSingle` gives the same image for the rows of the points table taken
in any order `l` (a permutation of the row indices), and rendering the table `A` followed by
`B` is rendering `A` and then rendering `B` into the result. -/
theorem renderHistSingle_order_independent (points A B : Mat F) (roi : Vec F) (im : Mat F)
    (l : List Nat) (hperm : l.Perm (List.range points.n_rows)) :
    renderHistSingle (points.selectRows l) roi im = renderHistSingle points roi im ∧
    renderHistSingle (A.appendRows B) roi im
      = renderHistSingle B roi (renderHistSingle A roi im) :=
  ⟨renderHistSingle_selectRows points roi im l hperm, renderHistSingle_appendRows A B roi im⟩

/-- Claim C19: for a point whose centre indices satisfy `xp < pixelsX` and `yp < pixelsY`,
with `xp + xhw` and `yp + yhw` below `2 ^ 32`, the spans satisfy `1 ≤ xspn ≤ pixelsX` and
`1 ≤ yspn ≤ pixelsY`, the box satisfies `xmin ≤ xmax < pixelsX` and `ymin ≤ ymax < pixelsY`
with `xspn = xmax - xmin + 1` and `yspn = ymax - ymin + 1` (so the stencil indices `x - xmin`
and `y - ymin` of the copy loop are below the spans), both `fill_stencil` calls succeed on
scratch vectors of capacity `pixelsX` and `pixelsY`, and the whole loop body succeeds: no
access is out of range. -/
theorem gaussPoint_index_safe (erf : F → F) (sqrt2 : F) (points : Mat F) (roi : Vec F)
    (im : Mat F) (sigmaAccuracy : F) (st : GaussState F) (n : Nat)
    (hc : im.n_cols < 4294967296) (hr : im.n_rows < 4294967296)
    (hxp : castIdx (pixelX points roi im n) < im.n_cols)
    (hyp : castIdx (pixelY points roi im n) < im.n_rows)
    (hnoX : castIdx (pixelX points roi im n)
      + halfWidth sigmaAccuracy (pixelSigmaX points roi im n) < 4294967296)
    (hnoY : castIdx (pixelY points roi im n)
      + halfWidth sigmaAccuracy (pixelSigmaY points roi im n) < 4294967296)
    (hcols : st.im.n_cols = im.n_cols) (hrows : st.im.n_rows = im.n_rows)
    (hxS : st.xStencil.n_elem = im.n_cols) (hyS : st.yStencil.n_elem = im.n_rows) :
    ∃ xmin xmax xspn ymin ymax yspn : Nat,
      xmin = boxMin (castIdx (pixelX points roi im n))
        (halfWidth sigmaAccuracy (pixelSigmaX points roi im n)) ∧
      xmax = boxMax (toIdx im.n_cols) (castIdx (pixelX points roi im n))
        (halfWidth sigmaAccuracy (pixelSigmaX points roi im n)) ∧
      xspn = boxSpan xmin xmax ∧
      ymin = boxMin (castIdx (pixelY points roi im n))
        (halfWidth sigmaAccuracy (pixelSigmaY points roi im n)) ∧
      ymax = boxMax (toIdx im.n_rows) (castIdx (pixelY points roi im n))
        (halfWidth sigmaAccuracy (pixelSigmaY points roi im n)) ∧
      yspn = boxSpan ymin ymax ∧
      1 ≤ xspn ∧ xspn ≤ im.n_cols ∧ 1 ≤ yspn ∧ yspn ≤ im.n_rows ∧
      xmin ≤ xmax ∧ xmax < im.n_cols ∧ xspn = xmax - xmin + 1 ∧
      ymin ≤ ymax ∧ ymax < im.n_rows ∧ yspn = ymax - ymin + 1 ∧
      (∃ xS : Vec F, fill_stencil erf sqrt2 xspn (pixelX points roi im n - (xmin : F))
        (pixelSigmaX points roi im n) st.xStencil = some xS) ∧
      (∃ yS : Vec F, fill_stencil erf sqrt2 yspn (pixelY points roi im n - (ymin : F))
        (pixelSigmaY points roi im n) st.yStencil = some yS) ∧
      ∃ st1 : GaussState F,
        gaussPoint erf sqrt2 points (roi.elem 0) (roi.elem 2)
          (sizeRatio (toIdx im.n_cols) (roi.elem 0) (roi.elem 1))
          (sizeRatio (toIdx im.n_rows) (roi.elem 2) (roi.elem 3)) sigmaAccuracy
          (toIdx im.n_cols) (toIdx im.n_rows) st n = some st1 := by
  have hci : toIdx (im.n_cols : Int) = im.n_cols := toIdx_natCast hc
  have hri : toIdx (im.n_rows : Int) = im.n_rows := toIdx_natCast hr
  obtain ⟨-, hx2, hx3, hx4⟩ := box_facts_noWrap hxp hc hnoX
  obtain ⟨-, hy2, hy3, hy4⟩ := box_facts_noWrap hyp hr hnoY
  rw [hci, hri]
  refine ⟨_, _, _, _, _, _, rfl, rfl, rfl, rfl, rfl, rfl, ?_, ?_, ?_, ?_, hx2, hx3, ?_, hy2, hy3,
    ?_, ?_, ?_, ?_⟩
  · rw [hx4]; omega
  · rw [hx4]; omega
  · rw [hy4]; omega
  · rw [hy4]; omega
  · rw [hx4]; omega
  · rw [hy4]; omega
  · exact ⟨_, fill_stencil_eq erf sqrt2 _ _ _ _ (by rw [hx4, hxS]; omega)⟩
  · exact ⟨_, fill_stencil_eq erf sqrt2 _ _ _ _ (by rw [hy4, hyS]; omega)⟩
  · obtain ⟨xS, yS, h1, -, -⟩ := gaussSplat_eq erf sqrt2 (points.elem n 0)
      (pixelX points roi im n) (pixelSigmaX points roi im n) _ _ _
      (pixelY points roi im n) (pixelSigmaY points roi im n) _ _ _ st
      hx2 (by rw [hcols]; exact hx3) hx4 hy2 (by rw [hrows]; exact hy3) hy4
      (by rw [hxS, hcols]) (by rw [hyS, hrows])
    refine ⟨_, Eq.trans ?_ h1⟩
    unfold gaussPoint pixelX pixelY pixelSigmaX pixelSigmaY halfWidth
    simp only [hci, hri]

/-- Claim C20 (amended). In exact arithmetic, for a non-degenerate region of interest and a
non-empty image: each pixel of the result of `renderHistSingle` is the initial pixel plus what
the points add; a point with `xmin ≤ x < xmax` and `ymin ≤ y < ymax` adds its intensity to the
one pixel of its mapped indices, which lie in the image, and nothing to any other pixel; for
a table of such points the sum of all pixels grows by the sum of the intensities; and a point
with `x = xmax` or `y = ymax` maps to column index `pixelsX` or row index `pixelsY` and adds
nothing to any pixel. Whatever the rounding `rnd` of `FloatT`, one iteration of the point loop
changes no pixel of the image other than the one at the computed indices, to which it adds
the intensity. -/
theorem renderHistSingle_keeps_roi_points (points : Mat F) (roi : Vec F) (im : Mat F)
    (hroiX : roi.elem 0 < roi.elem 1) (hroiY : roi.elem 2 < roi.elem 3)
    (hc0 : 0 < im.n_cols) (hc : im.n_cols < 4294967296)
    (hr0 : 0 < im.n_rows) (hr : im.n_rows < 4294967296) :
    (∀ r c, (renderHistSingle points roi im).elem r c
      = im.elem r c + ∑ n ∈ Finset.range points.n_rows, histAddOf points roi im r c n) ∧
    (∀ n, InRoi points roi n →
      castIdx (pixelX points roi im n) < im.n_cols ∧
      castIdx (pixelY points roi im n) < im.n_rows ∧
      ∀ r c, r < im.n_rows → c < im.n_cols →
        histAddOf points roi im r c n
          = if c = castIdx (pixelX points roi im n) ∧ r = castIdx (pixelY points roi im n)
            then points.elem n 0 else 0) ∧
    ((∀ n, n < points.n_rows → InRoi points roi n) →
      (renderHistSingle points roi im).accu
        = im.accu + ∑ n ∈ Finset.range points.n_rows, points.elem n 0) ∧
    (∀ n, (points.elem n 1 = roi.elem 1 → castIdx (pixelX points roi im n) = im.n_cols) ∧
      (points.elem n 2 = roi.elem 3 → castIdx (pixelY points roi im n) = im.n_rows) ∧
      (points.elem n 1 = roi.elem 1 ∨ points.elem n 2 = roi.elem 3 →
        ∀ r c, histAddOf points roi im r c n = 0)) ∧
    (∀ (rnd : F → F) (acc : Mat F) (n r c : Nat), r < im.n_rows → c < im.n_cols →
      (histPointFl rnd points (roi.elem 0) (roi.elem 2)
        (sizeRatioFl rnd (toIdx im.n_cols) (roi.elem 0) (roi.elem 1))
        (sizeRatioFl rnd (toIdx im.n_rows) (roi.elem 2) (roi.elem 3))
        (toIdx im.n_cols) (toIdx im.n_rows) acc n).elem r c
        = if histIxFl rnd points roi im n = c ∧ histIyFl rnd points roi im n = r
          then rnd (acc.elem r c + points.elem n 0) else acc.elem r c) := by
  refine ⟨fun r c => renderHistSingle_elem points roi im r c, ?_, ?_, ?_, ?_⟩
  · intro n hn
    obtain ⟨hx, hy⟩ := inRoi_castIdx_lt hroiX hroiY hc0 hc hr0 hr hn
    refine ⟨hx, hy, ?_⟩
    intro r c hr1 hc1
    rw [histAddOf_eq _ _ _ _ _ _ hc hr]
    by_cases h : c = castIdx (pixelX points roi im n) ∧ r = castIdx (pixelY points roi im n)
    · rw [if_pos h, if_pos ⟨h.1.symm, h.2.symm, hc1, hr1⟩]
    · rw [if_neg h, if_neg (fun h2 => h ⟨h2.1.symm, h2.2.1.symm⟩)]
  · intro h
    exact renderHistSingle_accu points roi im hc hr
      (fun n hn => inRoi_castIdx_lt hroiX hroiY hc0 hc hr0 hr (h n hn))
  · intro n
    obtain ⟨h1, h2, -⟩ := histAddOf_upper points roi im 0 0 n hroiX hroiY hc hr
    refine ⟨h1, h2, ?_⟩
    intro h r c
    exact (histAddOf_upper points roi im r c n hroiX hroiY hc hr).2.2 h
  · intro rnd acc n r c hr1 hc1
    exact histPointFl_elem rnd points _ _ _ _ _ _ acc n r c
      (by rw [toIdx_natCast hr]; exact hr1) (by rw [toIdx_natCast hc]; exact hc1)

end MoreClaims

/-- Claim C17: in `IdxT` arithmetic, for `pixels ≥ 1` and a centre index and half-width with
`xp + xhw < 2 ^ 32`, the code's `xmin` and `xmax` are the integers `max(0, xp - xhw)` and
`min(pixels - 1, xp + xhw)`, the computed span is the number `xmax - xmin + 1` of pixels of
`[xmin, xmax]` whenever `xmin ≤ xmax`, and the half-width computed from a non-negative
`0.5 + sigmaAccuracy*sigma` below `2 ^ 32` is its floor. Both axes use these functions. -/
theorem box_matches_formula {F : Type} [LinearOrderedField F] [FloorRing F]
    (pixels xp xhw : Nat) (hpix : 1 ≤ pixels) (hpix32 : pixels < 4294967296)
    (hno : xp + xhw < 4294967296) :
    ((boxMin xp xhw : Nat) : Int) = max 0 ((xp : Int) - (xhw : Int)) ∧
    ((boxMax pixels xp xhw : Nat) : Int) = min ((pixels : Int) - 1) ((xp : Int) + (xhw : Int)) ∧
    (boxMin xp xhw ≤ boxMax pixels xp xhw →
      ((boxSpan (boxMin xp xhw) (boxMax pixels xp xhw) : Nat) : Int)
        = ((boxMax pixels xp xhw : Nat) : Int) - ((boxMin xp xhw : Nat) : Int) + 1) ∧
    (∀ sigmaAccuracy sigma : F, 0 ≤ 0.5 + sigmaAccuracy * sigma →
      0.5 + sigmaAccuracy * sigma < 4294967296 →
      ((halfWidth sigmaAccuracy sigma : Nat) : Int) = ⌊0.5 + sigmaAccuracy * sigma⌋) := by
  have hmin : ((boxMin xp xhw : Nat) : Int) = max 0 ((xp : Int) - (xhw : Int)) := by
    unfold boxMin
    split_ifs with h
    · rw [max_eq_left (by omega)]; rfl
    · rw [idxSub_eq (by omega) (by omega), max_eq_right (by omega)]
      omega
  have hmax : ((boxMax pixels xp xhw : Nat) : Int)
      = min ((pixels : Int) - 1) ((xp : Int) + (xhw : Int)) := by
    unfold boxMax
    rw [idxSub_eq hpix hpix32, idxAdd_eq hno]
    rcases le_total (pixels - 1) (xp + xhw) with h | h
    · rw [min_eq_left h, min_eq_left (by omega)]; omega
    · rw [min_eq_right h, min_eq_right (by omega)]; omega
  refine ⟨hmin, hmax, ?_, ?_⟩
  · intro hle
    have hlt : boxMax pixels xp xhw < pixels := by
      unfold boxMax
      rw [idxSub_eq hpix hpix32]
      exact lt_of_le_of_lt (min_le_left _ _) (by omega)
    unfold boxSpan
    rw [idxSub_eq hle (by omega), idxAdd_eq (by omega)]
    omega
  · intro a s h0 h1
    unfold halfWidth castIdx
    rw [trunc_of_nonneg h0]
    have hf0 : 0 ≤ ⌊0.5 + a * s⌋ := Int.floor_nonneg.mpr h0
    have hf1 : ⌊0.5 + a * s⌋ < 4294967296 := by
      rw [Int.floor_lt]
      exact_mod_cast h1
    unfold toIdx
    omega

/-- Witness for claim C17: centre 4, half-width 1 on 10 pixels gives the box 3 to 5 of
span 3. -/
theorem box_matches_formula_witness :
    ((boxMin 4 1 : Nat) : Int) = max 0 ((4 : Int) - 1) ∧ boxMin 4 1 = 3 ∧ boxMax 10 4 1 = 5 ∧
      boxSpan 3 5 = 3 :=
  ⟨by
    have h := (@box_matches_formula ℚ _ _ 10 4 1 (by decide) (by decide) (by decide)).1
    exact_mod_cast h, by decide, by decide, by decide⟩

/-- Witness for claim C14: three entries written into a scratch vector of ten. -/
theorem fill_stencil_values_witness :
    ∃ out : Vec ℚ, fill_stencil erfQ sqrt2Q 3 (3 / 2) (1 / 5) (scratch 10) = some out ∧
      out.n_elem = 10 ∧ out.elem 1 = 25 / 39 ∧ out.elem 7 = 0 := by
  obtain ⟨out, h1, h2, h3, h4⟩ := fill_stencil_values erfQ sqrt2Q 3 (3 / 2) (1 / 5)
    (scratch 10) (by norm_num) (by decide) (by decide)
  refine ⟨out, h1, h2, ?_, ?_⟩
  · rw [h3 1 (by decide)]
    have a1 : (1 : ℚ) / (1 / 5 * sqrt2Q) * (((1 : Nat) : ℚ) + 1 - 3 / 2) = 25 / 14 := by
      norm_num [sqrt2Q]
    have a2 : (1 : ℚ) / (1 / 5 * sqrt2Q) * (((1 : Nat) : ℚ) - 3 / 2) = -25 / 14 := by
      norm_num [sqrt2Q]
    rw [a1, a2, erfQ_values.1, erfQ_values.2]
    norm_num
  · rw [h4 7 (by decide)]
    rfl

/-- Witness for claim C15: three entries for an offset 1.5 and sigma 0.2. -/
theorem fill_stencil_cropped_mass_witness :
    ∃ out : Vec ℚ, fill_stencil erfQ sqrt2Q 3 (3 / 2) (1 / 5) (scratch 10) = some out ∧
      (∀ i, i < 3 → 0 ≤ out.elem i) ∧ ∑ i ∈ Finset.range 3, out.elem i < 1 := by
  obtain ⟨out, h1, h2, -, h4⟩ := fill_stencil_cropped_mass erfQ sqrt2Q 3 (3 / 2) (1 / 5)
    (scratch 10) erfQ_isErf (by norm_num [sqrt2Q]) (by norm_num) (by decide) (by decide)
  exact ⟨out, h1, h2, h4⟩

/-- Witness for claim C18: the two rows of a table swapped, and a table of one point
followed by a table of two. -/
theorem renderHistSingle_order_independent_witness :
    renderHistSingle (twoPoints.selectRows [1, 0]) roi5 zeros5
        = renderHistSingle twoPoints roi5 zeros5 ∧
      renderHistSingle (onePoint.appendRows cornerPoints) roi5 zeros5
        = renderHistSingle cornerPoints roi5 (renderHistSingle onePoint roi5 zeros5) :=
  renderHistSingle_order_independent twoPoints onePoint cornerPoints roi5 zeros5 [1, 0]
    (by decide)

/-- Witness for claim C19: the point (4.5, 4.5) of sigma 0.2 on a 10×10 image. -/
theorem gaussPoint_index_safe_witness :
    ∃ st1 : GaussState ℚ,
      gaussPoint erfQ sqrt2Q midPoint ((roi10 ℚ).elem 0) ((roi10 ℚ).elem 2)
        (sizeRatio (toIdx (zeros10 ℚ).n_cols) ((roi10 ℚ).elem 0) ((roi10 ℚ).elem 1))
        (sizeRatio (toIdx (zeros10 ℚ).n_rows) ((roi10 ℚ).elem 2) ((roi10 ℚ).elem 3)) 5
        (toIdx (zeros10 ℚ).n_cols) (toIdx (zeros10 ℚ).n_rows)
        ⟨zeros10 ℚ, scratch 10, scratch 10⟩ 0 = some st1 := by
  obtain ⟨hX, hY, hsX, hsY, c, hw⟩ := midPoint_values
  obtain ⟨_, _, _, _, _, _, -, -, -, -, -, -, -, -, -, -, -, -, -, -, -, -, -, -, h⟩ :=
    gaussPoint_index_safe erfQ sqrt2Q midPoint (roi10 ℚ) (zeros10 ℚ) 5
      ⟨zeros10 ℚ, scratch 10, scratch 10⟩ 0
      (by norm_num [zeros10, Mat.zeros]) (by norm_num [zeros10, Mat.zeros])
      (by rw [hX, c]; norm_num [zeros10, Mat.zeros])
      (by rw [hY, c]; norm_num [zeros10, Mat.zeros])
      (by rw [hX, hsX, c, hw]; decide) (by rw [hY, hsY, c, hw]; decide) rfl rfl rfl rfl
  exact h

/-- Witness for claim C20 (amended): in exact arithmetic, two points in pixel (2, 2) of the
5×5 zero image raise the sum of all pixels by 3; a point with x = 5 maps to column index
5. -/
theorem renderHistSingle_keeps_roi_points_witness :
    (renderHistSingle twoPoints roi5 zeros5).accu
        = zeros5.accu + ∑ n ∈ Finset.range twoPoints.n_rows, twoPoints.elem n 0 ∧
      castIdx (pixelX upperEdgePoints roi5 zeros5 0) = zeros5.n_cols := by
  have h := renderHistSingle_keeps_roi_points twoPoints roi5 zeros5
    (by norm_num [roi5, Vec.ofList]) (by norm_num [roi5, Vec.ofList])
    (by norm_num [zeros5, Mat.zeros]) (by norm_num [zeros5, Mat.zeros])
    (by norm_num [zeros5, Mat.zeros]) (by norm_num [zeros5, Mat.zeros])
  have h2 := renderHistSingle_keeps_roi_points upperEdgePoints roi5 zeros5
    (by norm_num [roi5, Vec.ofList]) (by norm_num [roi5, Vec.ofList])
    (by norm_num [zeros5, Mat.zeros]) (by norm_num [zeros5, Mat.zeros])
    (by norm_num [zeros5, Mat.zeros]) (by norm_num [zeros5, Mat.zeros])
  refine ⟨h.2.2.1 ?_,
    (h2.2.2.2.1 0).1 (by norm_num [upperEdgePoints, Mat.ofRows, roi5, Vec.ofList])⟩
  intro n hn
  have hn0 : n = 0 ∨ n = 1 := by simp [twoPoints, Mat.ofRows] at hn; omega
  rcases hn0 with h0 | h0 <;> subst h0 <;>
  simp [InRoi, twoPoints, Mat.ofRows, roi5, Vec.ofList] <;> norm_num

/-- Counterexample to claim C20 as stated, whose statements about the indices are made of
`renderHistSingle` as it computes. In `float` arithmetic, on the region `[0,41,0,41]` and the
2×2 zero image, the point at `x = xmax = 41` has the computed column index 1, not
`pixelsX = 2`, and changes pixel (0, 1) from 0 to 1. On the region `[0,7,0,7]` and the 10×10
zero image, the point at `x = 7 - 2^-21`, which lies inside the region, has the computed
column index `pixelsX = 10` and is lost: the image stays zero. -/
theorem histogram_float_moves_upper_edge :
    (upperEdge41.elem 0 1 = roi41.elem 1 ∧
      histIxFl roundFloat32 upperEdge41 roi41 zeros2 0 = 1 ∧
      zeros2.n_cols = 2 ∧
      zeros2.elem 0 1 = 0 ∧
      (renderHistSingleFl roundFloat32 upperEdge41 roi41 zeros2).elem 0 1 = 1) ∧
    (InRoi belowEdge7 roi7 0 ∧
      belowEdge7.elem 0 0 = 1 ∧
      histIxFl roundFloat32 belowEdge7 roi7 (zeros10 ℚ) 0 = (zeros10 ℚ).n_cols ∧
      renderHistSingleFl roundFloat32 belowEdge7 roi7 (zeros10 ℚ) = zeros10 ℚ) := by
  refine ⟨⟨?_, upperEdge41_float.1, rfl, rfl, upperEdge41_float.2.2⟩,
    ⟨belowEdge7_inRoi, ?_, belowEdge7_float.1, belowEdge7_float.2⟩⟩
  · simp [upperEdge41, Mat.ofRows, roi41, Vec.ofList]
  · simp [belowEdge7, Mat.ofRows]

/-! ## Claims about the movie renderers -/

section MovieClaims
variable {F : Type} [LinearOrderedField F] [FloorRing F]

/-- Claim C11: for `T ≥ 1` threads and every points table. Every point has exactly one
thread `tid = frame mod T` among the `T` threads; in the loop body of `renderHistMovie` and
of `renderGaussMovie` that thread does at the point what a single thread would do and every
other thread does nothing. When the frame indices lie in the stack (and, for the Gaussian
renderer, the centres in the grid), the pass of thread `tid` over the table succeeds and adds
to every pixel of every frame exactly the contributions of the points with
`frame mod T = tid`, each into the frame of its point. A pass that completes leaves every
frame `f` with `f mod T ≠ tid` as it was, so a frame changed by one thread is changed by no
other thread. -/
theorem movie_frame_partition (T : Nat) (hT : 1 ≤ T) (points : Mat F) :
    (∀ n, movieFrame points n % T < T) ∧
    (∀ n tid, movieSkips T tid (movieFrame points n) = false ↔
      tid = movieFrame points n % T) ∧
    (∀ (xmin ymin sx sy : F) (px py tid : Nat) (im : Cube F) (n : Nat),
      histMoviePoint points xmin ymin sx sy px py T tid im n
        = if movieFrame points n % T = tid then
            histMoviePoint points xmin ymin sx sy px py 1 0 im n
          else some im) ∧
    (∀ (erf : F → F) (sqrt2 xmin ymin sx sy sigmaAccuracy : F) (px py tid : Nat)
      (st : MovieState F) (n : Nat),
      gaussMoviePoint erf sqrt2 points xmin ymin sx sy sigmaAccuracy px py T tid st n
        = if movieFrame points n % T = tid then
            gaussMoviePoint erf sqrt2 points xmin ymin sx sy sigmaAccuracy px py 1 0 st n
          else some st) ∧
    (∀ (xmin ymin sx sy : F) (px py N tid : Nat) (im : Cube F),
      px ≤ im.n_cols → py ≤ im.n_rows →
      (∀ n, n < N → movieFrame points n < im.n_slices) →
      ∃ out : Cube F, histMovieThread points xmin ymin sx sy px py T N im tid = some out ∧
        ∀ r c f, out.elem r c f = im.elem r c f + ∑ n ∈ Finset.range N,
          if movieFrame points n % T = tid ∧ f = movieFrame points n then
            histAdd points xmin ymin sx sy px py r c n else 0) ∧
    (∀ (erf : F → F) (sqrt2 xmin ymin sx sy sigmaAccuracy : F) (px py N tid : Nat)
      (im : Cube F),
      px ≤ 2147483648 → py ≤ 2147483648 → im.n_rows = py → im.n_cols = px →
      (∀ n, n < N → castIdx ((points.elem n 1 - xmin) * sx) < px ∧
        castIdx ((points.elem n 2 - ymin) * sy) < py) →
      (∀ n, n < N → movieFrame points n < im.n_slices) →
      ∃ out : Cube F,
        gaussMovieThread erf sqrt2 points xmin ymin sx sy sigmaAccuracy px py T N im tid
          = some out ∧
        ∀ r c f, out.elem r c f = im.elem r c f + ∑ n ∈ Finset.range N,
          if movieFrame points n % T = tid ∧ f = movieFrame points n then
            gaussAdd erf sqrt2 points xmin ymin sx sy sigmaAccuracy px py r c n else 0) ∧
    (∀ (xmin ymin sx sy : F) (px py N tid : Nat) (im im1 : Cube F),
      histMovieThread points xmin ymin sx sy px py T N im tid = some im1 →
      ∀ r c f, f % T ≠ tid → im1.elem r c f = im.elem r c f) ∧
    (∀ (erf : F → F) (sqrt2 xmin ymin sx sy sigmaAccuracy : F) (px py N tid : Nat)
      (im im1 : Cube F),
      gaussMovieThread erf sqrt2 points xmin ymin sx sy sigmaAccuracy px py T N im tid
        = some im1 →
      ∀ r c f, f % T ≠ tid → im1.elem r c f = im.elem r c f) ∧
    (∀ (xmin ymin sx sy : F) (px py N t1 t2 : Nat) (imA outA imB outB : Cube F),
      t1 ≠ t2 →
      histMovieThread points xmin ymin sx sy px py T N imA t1 = some outA →
      histMovieThread points xmin ymin sx sy px py T N imB t2 = some outB →
      ∀ f, (∃ r c, outA.elem r c f ≠ imA.elem r c f) →
        ∀ r c, outB.elem r c f = imB.elem r c f) ∧
    (∀ (erf : F → F) (sqrt2 xmin ymin sx sy sigmaAccuracy : F) (px py N t1 t2 : Nat)
      (imA outA imB outB : Cube F),
      t1 ≠ t2 →
      gaussMovieThread erf sqrt2 points xmin ymin sx sy sigmaAccuracy px py T N imA t1
        = some outA →
      gaussMovieThread erf sqrt2 points xmin ymin sx sy sigmaAccuracy px py T N imB t2
        = some outB →
      ∀ f, (∃ r c, outA.elem r c f ≠ imA.elem r c f) →
        ∀ r c, outB.elem r c f = imB.elem r c f) := by
  refine ⟨fun n => Nat.mod_lt _ (by omega),
    fun n tid => (movieSkips_false_iff T tid _).trans eq_comm, ?_, ?_, ?_, ?_, ?_, ?_, ?_, ?_⟩
  · intro xmin ymin sx sy px py tid im n
    exact histMoviePoint_worker points xmin ymin sx sy px py T tid im n
  · intro erf sqrt2 xmin ymin sx sy sigmaAccuracy px py tid st n
    exact gaussMoviePoint_worker erf sqrt2 points xmin ymin sx sy sigmaAccuracy px py T tid st n
  · intro xmin ymin sx sy px py N tid im hpx hpy hf
    obtain ⟨out, h1, -, h3⟩ := histMovieThread_add points xmin ymin sx sy px py T N
      im.n_rows im.n_cols im.n_slices im tid ⟨rfl, rfl, rfl⟩ hpx hpy hf
    exact ⟨out, h1, h3⟩
  · intro erf sqrt2 xmin ymin sx sy sigmaAccuracy px py N tid im hpx hpy hr hc hgood hf
    obtain ⟨out, h1, -, h3⟩ := gaussMovieThread_add erf sqrt2 points xmin ymin sx sy
      sigmaAccuracy px py T N im.n_slices im tid hpx hpy hgood ⟨hr, hc, rfl⟩ hf
    exact ⟨out, h1, h3⟩
  · intro xmin ymin sx sy px py N tid im im1 h r c f hf
    exact histMovieThread_unchanged points xmin ymin sx sy px py T N tid im im1 h r c f hf
  · intro erf sqrt2 xmin ymin sx sy sigmaAccuracy px py N tid im im1 h r c f hf
    exact gaussMovieThread_unchanged erf sqrt2 points xmin ymin sx sy sigmaAccuracy px py T N
      tid im im1 h r c f hf
  · intro xmin ymin sx sy px py N t1 t2 imA outA imB outB hne hA hB f hch r c
    by_cases h2 : f % T = t2
    · obtain ⟨r1, c1, hd⟩ := hch
      exact absurd (histMovieThread_unchanged points xmin ymin sx sy px py T N t1 imA outA hA
        r1 c1 f (by rw [h2]; exact fun e => hne e.symm)) hd
    · exact histMovieThread_unchanged points xmin ymin sx sy px py T N t2 imB outB hB r c f h2
  · intro erf sqrt2 xmin ymin sx sy sigmaAccuracy px py N t1 t2 imA outA imB outB hne hA hB f
      hch r c
    by_cases h2 : f % T = t2
    · obtain ⟨r1, c1, hd⟩ := hch
      exact absurd (gaussMovieThread_unchanged erf sqrt2 points xmin ymin sx sy sigmaAccuracy
        px py T N t1 imA outA hA r1 c1 f (by rw [h2]; exact fun e => hne e.symm)) hd
    · exact gaussMovieThread_unchanged erf sqrt2 points xmin ymin sx sy sigmaAccuracy px py T N
        t2 imB outB hB r c f h2

/-- Claim C12: for `T ≥ 1` threads, an initial stack whose frames have dimensions below
`2 ^ 32` and a points table whose frame indices are below the number of frames,
`renderHistMovie` succeeds, keeps the dimensions, and leaves each frame `f` equal to the
result of `renderHistSingle` on the initial frame `f` and the table of the points of frame
`f` in table order; every number of threads `T2 ≥ 1` gives the same stack. -/
theorem renderHistMovie_per_frame (T : Nat) (hT : 1 ≤ T) (points : Mat F) (roi : Vec F)
    (im : Cube F) (hc : im.n_cols < 4294967296) (hr : im.n_rows < 4294967296)
    (hf : ∀ n, n < points.n_rows → movieFrame points n < im.n_slices) :
    ∃ out : Cube F, renderHistMovie T points roi im = some out ∧
      (out.n_rows = im.n_rows ∧ out.n_cols = im.n_cols ∧ out.n_slices = im.n_slices) ∧
      (∀ f, f < im.n_slices → out.slice f
        = renderHistSingle (points.selectRows (framePoints points f)) roi (im.slice f)) ∧
      ∀ T2, 1 ≤ T2 → renderHistMovie T2 points roi im = some out := by
  obtain ⟨out, h1, h2, h3⟩ := renderHistMovie_slice T hT points roi im hc hr hf
  refine ⟨out, h1, h2, fun f _ => h3 f, ?_⟩
  intro T2 hT2
  rw [renderHistMovie_eq T2 hT2 points roi im hc hr hf, ← h1,
    renderHistMovie_eq T hT points roi im hc hr hf]

/-- Claim C13: for `T ≥ 1` threads, frames of dimensions at most `2 ^ 31`, frame indices
below the number of frames and centres in the grid, `renderGaussMovie` succeeds, keeps the
dimensions, and each pixel of frame `f` of the result is the initial pixel plus the pixel of
the image that `renderGaussSingle` renders from the points of frame `f`; a frame that no
point names is unchanged. -/
theorem renderGaussMovie_accumulates (erf : F → F) (sqrt2 : F) (T : Nat) (hT : 1 ≤ T)
    (points : Mat F) (roi : Vec F) (im : Cube F) (sigmaAccuracy : F)
    (hc : im.n_cols ≤ 2147483648) (hr : im.n_rows ≤ 2147483648)
    (hN : points.n_rows < 4294967296)
    (hgood : ∀ n, n < points.n_rows → InGrid points roi (im.slice 0) n)
    (hf : ∀ n, n < points.n_rows → movieFrame points n < im.n_slices) :
    ∃ out : Cube F, renderGaussMovie erf sqrt2 T points roi im sigmaAccuracy = some out ∧
      (out.n_rows = im.n_rows ∧ out.n_cols = im.n_cols ∧ out.n_slices = im.n_slices) ∧
      (∀ f, f < im.n_slices →
        ∃ g : Mat F,
          renderGaussSingle erf sqrt2 (points.selectRows (framePoints points f)) roi
            (im.slice f) sigmaAccuracy = some g ∧
          g.n_rows = im.n_rows ∧ g.n_cols = im.n_cols ∧
          ∀ r c, out.elem r c f = im.elem r c f + g.elem r c) ∧
      ∀ f, (∀ n, n < points.n_rows → movieFrame points n ≠ f) →
        out.slice f = im.slice f := by
  refine ⟨_, renderGaussMovie_eq erf sqrt2 T hT points roi im sigmaAccuracy hc hr hN hgood hf,
    ⟨rfl, rfl, rfl⟩, ?_, ?_⟩
  · intro f _
    have hlen := framePoints_length_le points f
    refine ⟨_, renderGaussSingle_eq erf sqrt2 (points.selectRows (framePoints points f)) roi
      (im.slice f) sigmaAccuracy hc hr (lt_of_le_of_lt hlen hN) ?_, rfl, rfl, ?_⟩
    · intro j hj
      exact inGrid_selectRows points _ roi (im.slice f) (im.slice 0) j hj rfl rfl
        (hgood _ (framePoints_lt points f _ (getD_mem_of_lt _ j hj)))
    · intro r c
      show im.elem r c f + _ = im.elem r c f + _
      congr 1
      have h1 : (points.selectRows (framePoints points f)).n_rows
          = (framePoints points f).length := rfl
      simp only []
      rw [h1, ← sum_framePoints, ← sum_range_getD]
      apply Finset.sum_congr rfl
      intro j hj
      exact (gaussAddOf_selectRows erf sqrt2 points _ roi (im.slice f) (im.slice 0)
        sigmaAccuracy r c j (Finset.mem_range.mp hj) rfl rfl).symm
  · intro f hnone
    refine mat_ext_elem rfl rfl ?_
    intro r c
    show im.elem r c f + _ = im.elem r c f
    rw [Finset.sum_eq_zero, add_zero]
    intro n hn
    rw [if_neg (fun e => hnone n (Finset.mem_range.mp hn) e.symm)]

end MovieClaims

/-- Witness for claim C11: two threads on three points of frames 0, 1 and 0 over three 5×5
frames of sevens. The pass of thread 1 adds the intensity 2 of the point of frame 1 to pixel
(3, 1) of frame 1 and leaves pixel (2, 2) of frame 0, where the two other points lie, at
7. -/
theorem movie_frame_partition_witness :
    ∃ out : Cube ℚ, histMovieThread moviePoints 0 0 1 1 5 5 2 3 sevensStack 1 = some out ∧
      out.elem 3 1 1 = 9 ∧ out.elem 2 2 0 = 7 := by
  obtain ⟨f0, f1, f2⟩ := moviePoints_frames
  obtain ⟨out, h1, h2⟩ := (movie_frame_partition 2 (by decide) moviePoints).2.2.2.2.1
    0 0 1 1 5 5 3 1 sevensStack (by norm_num [sevensStack]) (by norm_num [sevensStack])
    (fun n hn => moviePoints_frame_lt n (by simpa [moviePoints, Mat.ofRows] using hn))
  have c1 : castIdx (3 / 2 : ℚ) = 1 := castIdx_eval 1 (by norm_num) (by norm_num) (by norm_num)
  have c3 : castIdx (7 / 2 : ℚ) = 3 := castIdx_eval 3 (by norm_num) (by norm_num) (by norm_num)
  have a1 : histAdd moviePoints 0 0 1 1 5 5 3 1 1 = 2 := by
    unfold histAdd
    have e1 : (moviePoints.elem 1 1 - 0) * 1 = 3 / 2 := by
      simp [moviePoints, Mat.ofRows]; norm_num
    have e2 : (moviePoints.elem 1 2 - 0) * 1 = 7 / 2 := by
      simp [moviePoints, Mat.ofRows]; norm_num
    rw [e1, e2, c1, c3, if_pos ⟨rfl, rfl, by decide, by decide⟩]
    simp [moviePoints, Mat.ofRows]
  refine ⟨out, h1, ?_, ?_⟩
  · rw [h2 3 1 1]
    simp only [Finset.sum_range_succ, Finset.sum_range_zero, f0, f1, f2]
    simp [a1, sevensStack]
    norm_num
  · rw [h2 2 2 0]
    simp only [Finset.sum_range_succ, Finset.sum_range_zero, f0, f1, f2]
    simp [sevensStack]

/-- Witness for claim C12: three points on frames 0, 1 and 0 of a stack of three 5×5
frames, two threads. -/
theorem renderHistMovie_per_frame_witness :
    ∃ out : Cube ℚ, renderHistMovie 2 moviePoints roi5 sevensStack = some out ∧
      out.slice 0 = renderHistSingle (moviePoints.selectRows (framePoints moviePoints 0)) roi5
        (sevensStack.slice 0) ∧
      renderHistMovie 1 moviePoints roi5 sevensStack = some out := by
  obtain ⟨out, h1, -, h3, h4⟩ := renderHistMovie_per_frame 2 (by decide) moviePoints roi5
    sevensStack (by norm_num [sevensStack]) (by norm_num [sevensStack]) moviePoints_frame_lt
  exact ⟨out, h1, h3 0 (by norm_num [sevensStack]), h4 1 (by decide)⟩

/-- Witness for claim C13: three points on frames 0, 1 and 0 of a stack of three 5×5
frames of sevens, two threads; frame 2 is unchanged. -/
theorem renderGaussMovie_accumulates_witness :
    ∃ out : Cube ℚ, renderGaussMovie erfQ sqrt2Q 2 moviePoints roi5 sevensStack 5 = some out ∧
      out.slice 2 = sevensStack.slice 2 := by
  obtain ⟨f0, f1, f2⟩ := moviePoints_frames
  obtain ⟨out, h1, -, -, h4⟩ := renderGaussMovie_accumulates erfQ sqrt2Q 2 (by decide)
    moviePoints roi5 sevensStack 5 (by norm_num [sevensStack]) (by norm_num [sevensStack])
    (by norm_num [moviePoints, Mat.ofRows]) moviePoints_inGrid moviePoints_frame_lt
  refine ⟨out, h1, h4 2 ?_⟩
  intro n hn
  have hn0 : n = 0 ∨ n = 1 ∨ n = 2 := by simp [moviePoints, Mat.ofRows] at hn; omega
  rcases hn0 with h | h | h <;> subst h
  · rw [f0]; decide
  · rw [f1]; decide
  · rw [f2]; decide

/-! ## Claim about the sign of the Gaussian output -/

section NonnegClaims
variable {F : Type} [LinearOrderedField F] [FloorRing F]

/-- Claim C21: for a points table with intensities `≥ 0` and sigmas `> 0` whose centres lie
in the grid, over a region with `xmax > xmin` and `ymax > ymin`, and `erf` odd, strictly
increasing and bounded by 1, `renderGaussSingle`, `renderGaussParallel` for every number of
threads and every assignment of the points to them, and the dispatcher `renderGauss` all
succeed and every pixel of the image they return is `≥ 0`. -/
theorem renderGauss_nonneg (erf : F → F) (sqrt2 : F) (T : Nat) (owner : Nat → Nat)
    (points : Mat F) (roi : Vec F) (im : Mat F) (sigmaAccuracy : F)
    (herf : IsErf erf) (hsqrt : 0 < sqrt2)
    (hcols : im.n_cols ≤ 2147483648) (hrows : im.n_rows ≤ 2147483648)
    (hN : points.n_rows < 4294967296)
    (hroiX : roi.elem 0 < roi.elem 1) (hroiY : roi.elem 2 < roi.elem 3)
    (hown : ∀ n, n < points.n_rows → owner n < T)
    (hI : ∀ n, n < points.n_rows → 0 ≤ points.elem n 0)
    (hs : ∀ n, n < points.n_rows → 0 < points.elem n 3 ∧ 0 < points.elem n 4)
    (hgood : ∀ n, n < points.n_rows → InGrid points roi im n) :
    (∃ out : Mat F, renderGaussSingle erf sqrt2 points roi im sigmaAccuracy = some out ∧
      out.n_rows = im.n_rows ∧ out.n_cols = im.n_cols ∧
      ∀ r c, r < im.n_rows → c < im.n_cols → 0 ≤ out.elem r c) ∧
    (∃ out : Mat F,
      renderGaussParallel erf sqrt2 T owner points roi im sigmaAccuracy = some out ∧
      out.n_rows = im.n_rows ∧ out.n_cols = im.n_cols ∧
      ∀ r c, r < im.n_rows → c < im.n_cols → 0 ≤ out.elem r c) ∧
    ∃ out : Mat F, renderGauss erf sqrt2 T owner points roi im sigmaAccuracy = some out ∧
      out.n_rows = im.n_rows ∧ out.n_cols = im.n_cols ∧
      ∀ r c, r < im.n_rows → c < im.n_cols → 0 ≤ out.elem r c := by
  have hsum := gaussAddOf_sum_nonneg herf hsqrt points roi im sigmaAccuracy hcols hrows
    hroiX hroiY hI hs hgood
  have h1 : ∃ out : Mat F, renderGaussSingle erf sqrt2 points roi im sigmaAccuracy = some out ∧
      out.n_rows = im.n_rows ∧ out.n_cols = im.n_cols ∧
      ∀ r c, r < im.n_rows → c < im.n_cols → 0 ≤ out.elem r c :=
    ⟨_, renderGaussSingle_eq erf sqrt2 points roi im sigmaAccuracy hcols hrows hN hgood,
      rfl, rfl, fun r c _ _ => hsum r c⟩
  have h2 : ∃ out : Mat F,
      renderGaussParallel erf sqrt2 T owner points roi im sigmaAccuracy = some out ∧
      out.n_rows = im.n_rows ∧ out.n_cols = im.n_cols ∧
      ∀ r c, r < im.n_rows → c < im.n_cols → 0 ≤ out.elem r c := by
    refine ⟨_, renderGaussParallel_eq erf sqrt2 T owner points roi im sigmaAccuracy hcols
      hrows hN hown hgood, rfl, rfl, ?_⟩
    intro r c hr hc
    show 0 ≤ (if c < im.n_cols ∧ r < im.n_rows then _ else _)
    rw [if_pos ⟨hc, hr⟩]
    exact hsum r c
  refine ⟨h1, h2, ?_⟩
  unfold renderGauss
  split_ifs
  · exact h2
  · exact h1

end NonnegClaims

/-- Witness for claim C21: two points of intensities 1 and 2 and sigma 0.2 on a 10×10
image, two threads. -/
theorem renderGauss_nonneg_witness :
    (∃ out : Mat ℚ, renderGaussSingle erfQ sqrt2Q midPoints (roi10 ℚ) (zeros10 ℚ) 5 = some out ∧
      ∀ r c, r < 10 → c < 10 → 0 ≤ out.elem r c) ∧
    ∃ out : Mat ℚ,
      renderGaussParallel erfQ sqrt2Q 2 twoThreads midPoints (roi10 ℚ) (zeros10 ℚ) 5
        = some out ∧
      ∀ r c, r < 10 → c < 10 → 0 ≤ out.elem r c := by
  have hp : ∀ n, n < midPoints.n_rows → n = 0 ∨ n = 1 := by
    intro n hn
    simp [midPoints, Mat.ofRows] at hn
    omega
  obtain ⟨⟨a, a1, -, -, a2⟩, ⟨b, b1, -, -, b2⟩, -⟩ := renderGauss_nonneg erfQ sqrt2Q 2
    twoThreads midPoints (roi10 ℚ) (zeros10 ℚ) 5 erfQ_isErf (by norm_num [sqrt2Q])
    (by norm_num [zeros10, Mat.zeros]) (by norm_num [zeros10, Mat.zeros])
    (by norm_num [midPoints, Mat.ofRows])
    (by norm_num [roi10, Vec.ofList]) (by norm_num [roi10, Vec.ofList])
    (fun n _ => Nat.mod_lt n (by decide))
    (by
      intro n hn
      rcases hp n hn with h | h <;> subst h <;> norm_num [midPoints, Mat.ofRows])
    (by
      intro n hn
      rcases hp n hn with h | h <;> subst h <;> norm_num [midPoints, Mat.ofRows])
    (gaussInputs_inGrid _ (Or.inr (Or.inl rfl)))
  exact ⟨⟨a, a1, fun r c hr hc => a2 r c hr hc⟩, ⟨b, b1, fun r c hr hc => b2 r c hr hc⟩⟩

end srrender
